import Mathlib

/-!
Verification of the formless core utilities (path model, comparison engine,
error normalization, stable-id registry) and of the reference react-hook-form
backend engine, against their natural-language specification.

JavaScript values are shallowly embedded as `JValue`.  Arrays carry, besides
their element list, the list of non-index own properties a JS array can hold
(a write such as `arr["b"] = v` stores a plain property on the array object).
Exotic array behavior that none of the verified code paths observe (the
`length` property, hole/undefined distinction) is not modelled: holes are
represented as `vUndef` elements, which the verified functions treat
identically (both are skipped by truthiness tests).
-/

/-- A JavaScript value, as manipulated by the path utilities. -/
inductive JValue where
  | vUndef
  | vNull
  | vBool (b : Bool)
  | vNum (n : Int)
  | vStr (s : String)
  | vObj (fields : List (String × JValue))
  | vArr (elems : List JValue) (props : List (String × JValue))
deriving Repr

mutual

/-- Structural equality of embedded JS values (decides `Eq` on `JValue`). -/
def beqJ : JValue → JValue → Bool
  | .vUndef, .vUndef => true
  | .vNull, .vNull => true
  | .vBool a, .vBool b => a = b
  | .vNum a, .vNum b => a = b
  | .vStr a, .vStr b => a = b
  | .vObj fs, .vObj gs => beqFields fs gs
  | .vArr xs ps, .vArr ys qs => beqElems xs ys && beqFields ps qs
  | _, _ => false
termination_by structural a => a

def beqFields : List (String × JValue) → List (String × JValue) → Bool
  | [], [] => true
  | (k, v) :: r, (k2, v2) :: r2 => k = k2 && beqJ v v2 && beqFields r r2
  | _, _ => false
termination_by structural a => a

def beqElems : List JValue → List JValue → Bool
  | [], [] => true
  | v :: r, v2 :: r2 => beqJ v v2 && beqElems r r2
  | _, _ => false
termination_by structural a => a

end

mutual

theorem beqJ_refl : (a : JValue) → beqJ a a = true
  | .vUndef => rfl
  | .vNull => rfl
  | .vBool _ => by simp [beqJ]
  | .vNum _ => by simp [beqJ]
  | .vStr _ => by simp [beqJ]
  | .vObj fs => by simp [beqJ, beqFields_refl fs]
  | .vArr xs ps => by simp [beqJ, beqFields_refl ps, beqElems_refl xs]

theorem beqFields_refl : (fs : List (String × JValue)) → beqFields fs fs = true
  | [] => rfl
  | (_, v) :: r => by simp [beqFields, beqJ_refl v, beqFields_refl r]

theorem beqElems_refl : (xs : List JValue) → beqElems xs xs = true
  | [] => rfl
  | v :: r => by simp [beqElems, beqJ_refl v, beqElems_refl r]

end

mutual

theorem eq_of_beqJ : (a b : JValue) → beqJ a b = true → a = b
  | .vUndef, b, h => by cases b <;> simp_all [beqJ]
  | .vNull, b, h => by cases b <;> simp_all [beqJ]
  | .vBool _, b, h => by cases b <;> simp_all [beqJ]
  | .vNum _, b, h => by cases b <;> simp_all [beqJ]
  | .vStr _, b, h => by cases b <;> simp_all [beqJ]
  | .vObj fs, b, h => by
    cases b <;> simp_all [beqJ]
    case vObj gs => exact eq_of_beqFields fs gs h
  | .vArr xs ps, b, h => by
    cases b <;> simp_all [beqJ]
    case vArr ys qs =>
      exact ⟨eq_of_beqElems xs ys h.1, eq_of_beqFields ps qs h.2⟩

theorem eq_of_beqFields :
    (fs gs : List (String × JValue)) → beqFields fs gs = true → fs = gs
  | [], gs, h => by cases gs <;> simp_all [beqFields]
  | (k, v) :: r, gs, h => by
    cases gs with
    | nil => simp_all [beqFields]
    | cons p r2 =>
      obtain ⟨k2, v2⟩ := p
      simp only [beqFields, Bool.and_eq_true, decide_eq_true_eq] at h
      obtain ⟨⟨hk, hv⟩, hr⟩ := h
      rw [hk, eq_of_beqJ v v2 hv, eq_of_beqFields r r2 hr]

theorem eq_of_beqElems : (xs ys : List JValue) → beqElems xs ys = true → xs = ys
  | [], ys, h => by cases ys <;> simp_all [beqElems]
  | v :: r, ys, h => by
    cases ys with
    | nil => simp_all [beqElems]
    | cons v2 r2 =>
      simp only [beqElems, Bool.and_eq_true] at h
      rw [eq_of_beqJ v v2 h.1, eq_of_beqElems r r2 h.2]

end

instance : DecidableEq JValue := fun a b =>
  if h : beqJ a b = true then isTrue (eq_of_beqJ a b h)
  else isFalse (fun he => h (he ▸ beqJ_refl a))

/-- Decimal digits of `n`, least significant first, with enough fuel. -/
def natDigitsRev (fuel n : Nat) : List Char :=
  match fuel with
  | 0 => []
  | f + 1 => if n < 10 then [Nat.digitChar n] else Nat.digitChar (n % 10) :: natDigitsRev f (n / 10)

/-- The JS number-to-string conversion for naturals (`String(n)`, decimal,
no leading zeros).  This is the embedding of decimal rendering used for
array-index keys and generated ids. -/
def jsNatStr (n : Nat) : String :=
  String.mk (natDigitsRev (n + 1) n).reverse

namespace JValue

/-- Base-10 reading of a nonempty all-digit character list. -/
def parseNatDigits (cs : List Char) : Option Nat :=
  if cs ≠ [] ∧ cs.all Char.isDigit then
    some (cs.foldl (fun a c => 10 * a + (c.toNat - Char.toNat '0')) 0)
  else none

/-- The canonical array-index reading of a property key: `"7"` is index 7,
but `"07"`, `""`, `"x"` are plain property keys (JS stores array elements
under canonical numeric strings only). -/
def canonIndex (s : String) : Option Nat :=
  match parseNatDigits s.data with
  | some n => if jsNatStr n = s then some n else none
  | none => none

/-- The test `/^\d+$/.test(key)` used by `setByPath` to decide whether to
create an array or an object for a missing intermediate container. -/
def isDigitSeg (s : String) : Bool :=
  s ≠ "" && s.toList.all Char.isDigit

/-- `typeof v === 'object'` (true for `null`, objects and arrays). -/
def typeofObject : JValue → Bool
  | vNull => true
  | vObj _ => true
  | vArr _ _ => true
  | _ => false

/-- A genuine container (object or array): `typeof v === 'object' && v !== null`. -/
def isContainer : JValue → Bool
  | vObj _ => true
  | vArr _ _ => true
  | _ => false

/-- First-match association lookup, the JS property lookup on plain objects. -/
def assocGet : List (String × JValue) → String → Option JValue
  | [], _ => none
  | (k, v) :: rest, key => if k = key then some v else assocGet rest key

/-- JS property write on a plain object: overwrite in place if the key is
present (keeping its position), else append (insertion order). -/
def assocSet : List (String × JValue) → String → JValue → List (String × JValue)
  | [], key, v => [(key, v)]
  | (k, w) :: rest, key, v =>
    if k = key then (k, v) :: rest else (k, w) :: assocSet rest key v

/-- JS element write `arr[i] = v`: in-range writes replace, out-of-range
writes pad the array (holes modelled as `vUndef`) and append. -/
def elemsSet (xs : List JValue) (i : Nat) (v : JValue) : List JValue :=
  if i < xs.length then xs.set i v
  else xs ++ List.replicate (i - xs.length) vUndef ++ [v]

/-- JS property read `current[key]` (absent keys read as `undefined`). -/
def jIndex : JValue → String → JValue
  | vObj fs, key => (assocGet fs key).getD vUndef
  | vArr xs ps, key =>
    match canonIndex key with
    | some i => xs.getD i vUndef
    | none => (assocGet ps key).getD vUndef
  | _, _ => vUndef

/-- JS property write `current[key] = v` on a container (a no-op on
non-containers, which the TypeScript types rule out). -/
def jWrite : JValue → String → JValue → JValue
  | vObj fs, key, v => vObj (assocSet fs key v)
  | vArr xs ps, key, v =>
    match canonIndex key with
    | some i => vArr (elemsSet xs i v) ps
    | none => vArr xs (assocSet ps key v)
  | c, _, _ => c

end JValue

open JValue

/-- `String.prototype.split` with a single-character separator: splits at
every occurrence, keeping empty pieces (`"a..b".split('.')` is
`["a", "", "b"]`, `"".split('.')` is `[""]`). -/
def splitChars (sep : Char) : List Char → List (List Char)
  | [] => [[]]
  | c :: rest =>
    let r := splitChars sep rest
    if c = sep then [] :: r
    else
      match r with
      | [] => [[c]]
      | piece :: more => (c :: piece) :: more

/-- `path.split('.')` from the path utilities. -/
def splitDots (s : String) : List String :=
  (splitChars '.' s.data).map (fun cs => String.mk cs)

theorem splitChars_ne_nil (sep : Char) (cs : List Char) : splitChars sep cs ≠ [] := by
  cases cs with
  | nil => simp [splitChars]
  | cons c rest =>
    simp only [splitChars]
    split
    · simp
    · split <;> simp_all

theorem splitDots_ne_nil (s : String) : splitDots s ≠ [] := by
  simpa [splitDots] using splitChars_ne_nil '.' s.data

/-- The loop body of `getByPath`: walk the remaining keys, returning
`undefined` when traversal hits `null`/`undefined` or a non-object. -/
def getKeysGo : JValue → List String → JValue
  | current, [] => current
  | current, key :: rest =>
    match current with
    | vNull => vUndef
    | vUndef => vUndef
    | vObj fs => getKeysGo (jIndex (vObj fs) key) rest
    | vArr xs ps => getKeysGo (jIndex (vArr xs ps) key) rest
    | _ => vUndef

/-- `getByPath(obj, path)` from `packages/core/src/utils/path.ts`. -/
def getByPath (obj : JValue) (path : String) : JValue :=
  if path = "" then obj else getKeysGo obj (splitDots path)

/-- Fresh intermediate container: `isNextKeyArrayIndex ? [] : {}`. -/
def freshFor (nextKey : String) : JValue :=
  if isDigitSeg nextKey then vArr [] [] else vObj []

/-- The intermediate-container step of `setByPath`: replace
`undefined`/`null`/non-object children by a fresh container chosen from the
next key, shallow-copy (`[...a]` / `{...o}`) existing containers.  The array
spread keeps the elements and drops non-index properties, as in JS. -/
def stepChild (child : JValue) (nextKey : String) : JValue :=
  match child with
  | vUndef => freshFor nextKey
  | vNull => freshFor nextKey
  | vObj fs => vObj fs
  | vArr xs _ => vArr xs []
  | _ => freshFor nextKey

/-- The loop of `setByPath` over the split keys (the leading
`structuredClone` is identity on values; sharing is studied separately on
the tagged model below). -/
def setKeysGo : JValue → List String → JValue → JValue
  | current, [], _ => current
  | current, [key], value => jWrite current key value
  | current, key :: nextKey :: rest, value =>
    jWrite current key
      (setKeysGo (stepChild (jIndex current key) nextKey) (nextKey :: rest) value)

/-- `setByPath(obj, path, value)` from `packages/core/src/utils/path.ts`. -/
def setByPath (obj : JValue) (path : String) (value : JValue) : JValue :=
  if path = "" then value else setKeysGo obj (splitDots path) value

/-- `delete current[lastKey]`: removing an object key, an array element
(leaving a hole, modelled as `vUndef`) or an array property. -/
def assocRemove : List (String × JValue) → String → List (String × JValue)
  | [], _ => []
  | (k, v) :: rest, key => if k = key then rest else (k, v) :: assocRemove rest key

def jDelete : JValue → String → JValue
  | vObj fs, key => vObj (assocRemove fs key)
  | vArr xs ps, key =>
    match canonIndex key with
    | some i => vArr (xs.set i vUndef) ps
    | none => vArr xs (assocRemove ps key)
  | c, _ => c

/-- The spread clone used by `deleteByPath` on existing children
(`{...null}` is `{}`; reached only when the child passed the
`typeof === 'object'` test). -/
def delClone : JValue → JValue
  | vNull => vObj []
  | vObj fs => vObj fs
  | vArr xs _ => vArr xs []
  | v => v

/-- The loop of `deleteByPath`: bail out (returning the tree unchanged from
this level down) when a traversed child is `undefined` or a non-object. -/
def delKeysGo : JValue → List String → JValue
  | current, [] => current
  | current, [key] => jDelete current key
  | current, key :: nextKey :: rest =>
    match jIndex current key with
    | vUndef => current
    | vNull => jWrite current key (delKeysGo (delClone vNull) (nextKey :: rest))
    | vObj fs => jWrite current key (delKeysGo (delClone (vObj fs)) (nextKey :: rest))
    | vArr xs ps => jWrite current key (delKeysGo (delClone (vArr xs ps)) (nextKey :: rest))
    | _ => current

/-- `deleteByPath(obj, path)` from `packages/core/src/utils/path.ts`. -/
def deleteByPath (obj : JValue) (path : String) : JValue :=
  if path = "" then vObj [] else delKeysGo obj (splitDots path)

theorem assocGet_assocSet_self (fs : List (String × JValue)) (k : String) (v : JValue) :
    assocGet (assocSet fs k v) k = some v := by
  induction fs with
  | nil => simp [assocSet, assocGet]
  | cons p rest ih =>
    obtain ⟨k2, w⟩ := p
    by_cases h : k2 = k <;> simp [assocSet, assocGet, h, ih]

theorem elemsSet_getD_self (xs : List JValue) (i : Nat) (v : JValue) :
    (elemsSet xs i v).getD i vUndef = v := by
  unfold elemsSet
  split
  · next h => simp [List.getD_eq_getElem?_getD, List.getElem?_set_self', h]
  · next h =>
    have hlen : i - xs.length < (List.replicate (i - xs.length) vUndef ++ [v]).length := by
      simp
    have hxs : xs.length ≤ i := Nat.le_of_not_lt h
    rw [List.getD_eq_getElem?_getD, List.append_assoc,
      List.getElem?_append_right hxs]
    simp [List.getElem?_append_right (Nat.le_refl _)]

theorem jIndex_jWrite_self (c : JValue) (hc : isContainer c = true)
    (k : String) (v : JValue) : jIndex (jWrite c k v) k = v := by
  cases c with
  | vObj fs => simp [jWrite, jIndex, assocGet_assocSet_self]
  | vArr xs ps =>
    cases h : canonIndex k with
    | some i =>
      simp only [jWrite, h, jIndex]
      exact elemsSet_getD_self xs i v
    | none =>
      simp only [jWrite, h, jIndex]
      simp [assocGet_assocSet_self]
  | vUndef => simp [isContainer] at hc
  | vNull => simp [isContainer] at hc
  | vBool b => simp [isContainer] at hc
  | vNum n => simp [isContainer] at hc
  | vStr s => simp [isContainer] at hc

theorem isContainer_jWrite (c : JValue) (hc : isContainer c = true)
    (k : String) (v : JValue) : isContainer (jWrite c k v) = true := by
  cases c with
  | vObj fs => simp [jWrite, isContainer]
  | vArr xs ps => cases h : canonIndex k <;> simp [jWrite, h, isContainer]
  | vUndef => simp [isContainer] at hc
  | vNull => simp [isContainer] at hc
  | vBool b => simp [isContainer] at hc
  | vNum n => simp [isContainer] at hc
  | vStr s => simp [isContainer] at hc

theorem isContainer_freshFor (k : String) : isContainer (freshFor k) = true := by
  unfold freshFor
  split <;> rfl

theorem isContainer_stepChild (child : JValue) (nextKey : String) :
    isContainer (stepChild child nextKey) = true := by
  cases child with
  | vUndef => exact isContainer_freshFor nextKey
  | vNull => exact isContainer_freshFor nextKey
  | vBool b => exact isContainer_freshFor nextKey
  | vNum n => exact isContainer_freshFor nextKey
  | vStr s => exact isContainer_freshFor nextKey
  | vObj fs => rfl
  | vArr xs ps => rfl

theorem getKeysGo_setKeysGo (keys : List String) (c v : JValue)
    (hk : keys ≠ []) (hc : isContainer c = true) :
    getKeysGo (setKeysGo c keys v) keys = v := by
  induction keys generalizing c with
  | nil => exact absurd rfl hk
  | cons key rest ih =>
    cases rest with
    | nil =>
      have hw := isContainer_jWrite c hc key v
      have hi := jIndex_jWrite_self c hc key v
      cases hww : jWrite c key v <;>
        simp_all [setKeysGo, getKeysGo, isContainer]
    | cons nextKey rest2 =>
      set inner := setKeysGo (stepChild (jIndex c key) nextKey) (nextKey :: rest2) v with hinner
      have hrec : getKeysGo inner (nextKey :: rest2) = v :=
        ih (stepChild (jIndex c key) nextKey) (by simp)
          (isContainer_stepChild _ _)
      have hw := isContainer_jWrite c hc key inner
      have hi := jIndex_jWrite_self c hc key inner
      cases hww : jWrite c key inner <;>
        simp_all [setKeysGo, getKeysGo, isContainer]

example :
    getByPath (vObj [("user", vObj [("name", vStr "John")])]) "user.name" = vStr "John" := by
  decide

example :
    getByPath (vObj [("items", vArr [vObj [("id", vNum 1)]] [])]) "items.0.id" = vNum 1 := by
  decide

example :
    setByPath (vObj [("user", vObj [("name", vStr "John")])]) "user.name" (vStr "Jane")
      = vObj [("user", vObj [("name", vStr "Jane")])] := by
  decide

/-- C1: for every value tree `T`, dot-separated path `p` and value `v`,
`getByPath(setByPath(T, p, v), p) === v`.  Proven for every container `T`
(the TypeScript signature restricts `T` to `Record<string, unknown>`), every
path string `p` — even ones with empty or non-canonical segments — and every
value `v`. -/
theorem c1_getByPath_setByPath_roundtrip (T : JValue) (p : String) (v : JValue)
    (hT : isContainer T = true) : getByPath (setByPath T p v) p = v := by
  by_cases hp : p = ""
  · subst hp
    simp [setByPath, getByPath]
  · simp only [setByPath, getByPath, if_neg hp]
    exact getKeysGo_setKeysGo (splitDots p) T v (splitDots_ne_nil p) hT

/-- Witness for C1 at a concrete tree, path and value. -/
theorem c1_getByPath_setByPath_roundtrip_witness :
    isContainer (vObj [("user", vObj [("name", vStr "John")])]) = true ∧
    getByPath
      (setByPath (vObj [("user", vObj [("name", vStr "John")])]) "user.name" (vStr "Jane"))
      "user.name" = vStr "Jane" :=
  ⟨by decide,
    c1_getByPath_setByPath_roundtrip (vObj [("user", vObj [("name", vStr "John")])])
      "user.name" (vStr "Jane") (by decide)⟩

theorem digitChar_isDigit : ∀ k < 10, (Nat.digitChar k).isDigit = true := by decide

theorem digitChar_val : ∀ k < 10, (Nat.digitChar k).toNat - Char.toNat '0' = k := by decide

theorem digitChar_val48 : ∀ k < 10, (Nat.digitChar k).toNat - 48 = k := by decide

theorem natDigitsRev_ne_nil (f n : Nat) : natDigitsRev (f + 1) n ≠ [] := by
  unfold natDigitsRev
  split <;> simp

theorem natDigitsRev_all_digits (f n : Nat) :
    (natDigitsRev f n).all Char.isDigit = true := by
  induction f generalizing n with
  | zero => rfl
  | succ f ih =>
    unfold natDigitsRev
    split
    · next h => simp [digitChar_isDigit n h]
    · simp [digitChar_isDigit (n % 10) (Nat.mod_lt n (by omega)), ih]

theorem foldl_rev_natDigitsRev (f : Nat) :
    ∀ n a, n < f →
      (natDigitsRev f n).reverse.foldl (fun b c => 10 * b + (c.toNat - Char.toNat '0')) a
        = a * 10 ^ (natDigitsRev f n).length + n := by
  induction f with
  | zero => intro n a h; omega
  | succ f ih =>
    intro n a h
    by_cases h10 : n < 10
    · simp [natDigitsRev, h10, digitChar_val n h10, digitChar_val48 n h10, Nat.mul_comm]
    · have hd : n / 10 < f := by omega
      have hrec := ih (n / 10) a hd
      simp only [natDigitsRev, if_neg h10, List.reverse_cons, List.foldl_append,
        List.foldl_cons, List.foldl_nil, hrec, List.length_cons]
      rw [digitChar_val (n % 10) (Nat.mod_lt n (by omega))]
      rw [pow_succ]
      have := Nat.div_add_mod n 10
      ring_nf
      omega

theorem parse_jsNatStr (n : Nat) : parseNatDigits (jsNatStr n).data = some n := by
  have hd : (jsNatStr n).data = (natDigitsRev (n + 1) n).reverse := rfl
  rw [hd]
  have hne : (natDigitsRev (n + 1) n).reverse ≠ [] := by
    simp [natDigitsRev_ne_nil]
  have hall : ((natDigitsRev (n + 1) n).reverse).all Char.isDigit = true := by
    rw [List.all_reverse]
    exact natDigitsRev_all_digits (n + 1) n
  rw [parseNatDigits, if_pos ⟨hne, hall⟩]
  rw [foldl_rev_natDigitsRev (n + 1) n 0 (Nat.lt_succ_self n)]
  simp

theorem jsNatStr_injective : Function.Injective jsNatStr := by
  intro m n h
  have : parseNatDigits (jsNatStr m).data = parseNatDigits (jsNatStr n).data := by rw [h]
  rw [parse_jsNatStr, parse_jsNatStr] at this
  exact Option.some_injective _ this

theorem canonIndex_jsNatStr (n : Nat) : canonIndex (jsNatStr n) = some n := by
  simp [canonIndex, parse_jsNatStr n]

theorem jsNatStr_of_canonIndex {s : String} {n : Nat} (h : canonIndex s = some n) :
    jsNatStr n = s := by
  unfold canonIndex at h
  split at h
  · split at h
    · cases h
      assumption
    · cases h
  · cases h

/-! ## Comparison engine (`packages/core/src/utils/compare.ts`) -/

mutual

/-- `deepEqual(a, b)` from `compare.ts`.  The reference-equality fast path
`if (a === b) return true` is modelled as structural equality: references
are not modelled, and on JavaScript objects (whose keys are unique) the
structural walk below agrees with the fast path whenever it fires.  Arrays
are compared element-wise only (non-index properties are ignored), objects
by key count and per-key recursion, exactly as in the source. -/
def deepEqual (a b : JValue) : Bool :=
  beqJ a b ||
    match a, b with
    | vObj fs, vObj gs => decide (fs.length = gs.length) && deepFields fs gs
    | vArr xs _, vArr ys _ => decide (xs.length = ys.length) && deepElems xs ys
    | _, _ => false
termination_by structural a

/-- `aKeys.every(key => deepEqual(aObj[key], bObj[key]))`, walking the first
object's fields in order (a missing key on the other side reads as
`undefined`). -/
def deepFields : List (String × JValue) → List (String × JValue) → Bool
  | [], _ => true
  | (k, v) :: r, gs => deepEqual v ((assocGet gs k).getD vUndef) && deepFields r gs
termination_by structural a => a

/-- `a.every((val, index) => deepEqual(val, b[index]))`, where an index past
the end of `b` reads as `undefined`. -/
def deepElems : List JValue → List JValue → Bool
  | [], _ => true
  | x :: r, [] => deepEqual x vUndef && deepElems r []
  | x :: r, y :: r2 => deepEqual x y && deepElems r r2
termination_by structural a => a

end

theorem deepEqual_refl (a : JValue) : deepEqual a a = true := by
  unfold deepEqual
  simp [beqJ_refl a]

/-- JS `Set` insertion-order deduplication (first occurrence wins), used for
`new Set([...Object.keys(original), ...Object.keys(current)])`. -/
def dedupSeen (seen : List String) : List String → List String
  | [] => []
  | k :: rest => if seen.contains k then dedupSeen seen rest else k :: dedupSeen (k :: seen) rest

/-- `prefix ? `prefix.key` : key` (the template join of `compare.ts` and
`errors.ts`; an empty accumulated path is falsy in JS). -/
def pathJoin (pre k : String) : String :=
  if pre = "" then k else pre ++ "." ++ k

mutual

/-- Executable size of a `JValue`, dominating its nesting depth. -/
def jvSize : JValue → Nat
  | vObj fs => 1 + jvSizeFields fs
  | vArr xs ps => 1 + jvSizeElems xs + jvSizeFields ps
  | _ => 1
termination_by structural a => a

def jvSizeFields : List (String × JValue) → Nat
  | [] => 1
  | (_, v) :: r => 1 + jvSize v + jvSizeFields r
termination_by structural a => a

def jvSizeElems : List JValue → Nat
  | [] => 1
  | v :: r => 1 + jvSize v + jvSizeElems r
termination_by structural a => a

end

/-- The recursion of `getDirtyPaths`, fuelled so that it stays structurally
recursive (the fuel is instantiated with `jvSizeFields original`, which
strictly dominates the object depth of `original`, so the bound is never
hit). -/
def dirtyGoF : Nat → List (String × JValue) → List (String × JValue) → String → List String
  | 0, _, _, _ => []
  | fuel + 1, original, current, pre =>
    (dedupSeen [] (original.map Prod.fst ++ current.map Prod.fst)).flatMap (fun k =>
      let path := pathJoin pre k
      let origValue := (assocGet original k).getD vUndef
      let currValue := (assocGet current k).getD vUndef
      if deepEqual origValue currValue then []
      else
        path ::
          (match origValue, currValue with
           | vObj a, vObj b => dirtyGoF fuel a b path
           | _, _ => []))

/-- The recursion arm of `getDirtyPaths`: descend exactly when both sides
are non-array, non-null objects. -/
def dirtyStep (f : Nat) (ov cv : JValue) (path : String) : List String :=
  match ov, cv with
  | vObj a, vObj b => dirtyGoF f a b path
  | _, _ => []

theorem dirtyStep_eq (f : Nat) (ov cv : JValue) (path : String) :
    (match ov, cv with
     | vObj a, vObj b => dirtyGoF f a b path
     | _, _ => []) = dirtyStep f ov cv path := by
  cases ov <;> cases cv <;> rfl

/-- `getDirtyPaths(original, current)` from `compare.ts`: for every key of
either record, record the path if `deepEqual` fails there, and recurse when
both sides are non-array, non-null objects. -/
def getDirtyPaths (original current : List (String × JValue)) (pre : String) : List String :=
  dirtyGoF (jvSizeFields original) original current pre

/-- `getDirtyFields` from `compare.ts`: the same paths as a presence map. -/
def getDirtyFields (original current : List (String × JValue)) : List (String × Bool) :=
  (getDirtyPaths original current "").map (fun p => (p, true))

theorem dirtyGoF_self (fuel : Nat) (fs : List (String × JValue)) (pre : String) :
    dirtyGoF fuel fs fs pre = [] := by
  cases fuel with
  | zero => rfl
  | succ f =>
    unfold dirtyGoF
    apply List.flatMap_eq_nil_iff.mpr
    intro k _
    simp [deepEqual_refl]

/-- C7 part one: `getDirtyPaths(T, T)` is empty for every tree. -/
theorem getDirtyPaths_self (fs : List (String × JValue)) (pre : String) :
    getDirtyPaths fs fs pre = [] :=
  dirtyGoF_self (jvSizeFields fs) fs pre

theorem assocGet_assocSet_ne (fs : List (String × JValue)) {k k2 : String}
    (v : JValue) (h : k2 ≠ k) : assocGet (assocSet fs k v) k2 = assocGet fs k2 := by
  induction fs with
  | nil =>
    have hne : ¬(k = k2) := fun hh => h hh.symm
    simp [assocSet, assocGet, hne]
  | cons p rest ih =>
    obtain ⟨k1, w⟩ := p
    by_cases h1 : k1 = k
    · subst h1
      have hne : ¬(k1 = k2) := fun hh => h hh.symm
      simp [assocSet, assocGet, hne]
    · simp only [assocSet, if_neg h1]
      by_cases h2 : k1 = k2
      · simp [assocGet, h2]
      · simp [assocGet, h2, ih]

theorem mem_map_fst_assocSet (fs : List (String × JValue)) (k : String) (v : JValue) :
    k ∈ (assocSet fs k v).map Prod.fst := by
  induction fs with
  | nil => simp [assocSet]
  | cons p rest ih =>
    obtain ⟨k1, w⟩ := p
    by_cases h1 : k1 = k
    · subst h1
      simp [assocSet]
    · simp [assocSet, h1, ih]

theorem assocGet_eq_none_iff (fs : List (String × JValue)) (k : String) :
    assocGet fs k = none ↔ k ∉ fs.map Prod.fst := by
  induction fs with
  | nil => simp [assocGet]
  | cons p rest ih =>
    obtain ⟨k1, w⟩ := p
    by_cases h1 : k1 = k
    · subst h1
      simp [assocGet]
    · have hne : k ≠ k1 := fun hh => h1 hh.symm
      simp [assocGet, h1, ih, hne]

theorem assocSet_length_of_not_mem (fs : List (String × JValue)) {k : String}
    (v : JValue) (h : k ∉ fs.map Prod.fst) :
    (assocSet fs k v).length = fs.length + 1 := by
  induction fs with
  | nil => simp [assocSet]
  | cons p rest ih =>
    obtain ⟨k1, w⟩ := p
    simp only [List.map_cons, List.mem_cons] at h
    push_neg at h
    have h1 : ¬(k1 = k) := fun hh => h.1 hh.symm
    simp [assocSet, h1, ih h.2]

theorem deepFields_false_of (fs gs : List (String × JValue)) (k : String) (v : JValue)
    (hget : assocGet fs k = some v)
    (hne : deepEqual v ((assocGet gs k).getD vUndef) = false) :
    deepFields fs gs = false := by
  induction fs with
  | nil => simp [assocGet] at hget
  | cons p rest ih =>
    obtain ⟨k1, v1⟩ := p
    by_cases h1 : k1 = k
    · subst h1
      rw [assocGet, if_pos rfl] at hget
      cases hget
      simp [deepFields, hne]
    · rw [assocGet, if_neg h1] at hget
      simp [deepFields, ih hget]

theorem beqJ_vObj_ne (fs gs : List (String × JValue)) (h : fs ≠ gs) :
    beqJ (vObj fs) (vObj gs) = false := by
  by_cases hb : beqJ (vObj fs) (vObj gs) = true
  · have := eq_of_beqJ _ _ hb
    cases this
    exact absurd rfl h
  · simpa using hb

theorem deepEqual_vObj_set_false (fs : List (String × JValue)) (k : String)
    (inner : JValue)
    (hne : deepEqual ((assocGet fs k).getD vUndef) inner = false) :
    deepEqual (vObj fs) (vObj (assocSet fs k inner)) = false := by
  have hfs : fs ≠ assocSet fs k inner := by
    intro he
    have hg : (assocGet fs k).getD vUndef = inner := by
      conv_lhs => rw [he]
      rw [assocGet_assocSet_self]
      rfl
    rw [hg] at hne
    rw [deepEqual_refl] at hne
    cases hne
  unfold deepEqual
  rw [beqJ_vObj_ne _ _ hfs]
  simp only [Bool.false_or]
  cases hmem : assocGet fs k with
  | some v =>
    have hdf : deepFields fs (assocSet fs k inner) = false := by
      apply deepFields_false_of fs _ k v hmem
      rw [assocGet_assocSet_self]
      rw [hmem] at hne
      exact hne
    simp [hdf]
  | none =>
    have hnm : k ∉ fs.map Prod.fst := (assocGet_eq_none_iff fs k).mp hmem
    have hlen := assocSet_length_of_not_mem fs inner hnm
    simp [hlen]

/-- `T'` differs from `T` only at the leaf path with these segments: every
intermediate segment addresses an existing plain (non-array) object, the
final segment addresses a non-container value that `deepEqual`-differs from
the non-container replacement `v`. -/
def objChainOk (fs : List (String × JValue)) : List String → JValue → Bool
  | [], _ => false
  | [k], v =>
    !isContainer ((assocGet fs k).getD vUndef) && !isContainer v &&
      !deepEqual ((assocGet fs k).getD vUndef) v
  | k :: k2 :: rest, v =>
    match (assocGet fs k).getD vUndef with
    | vObj gs => objChainOk gs (k2 :: rest) v
    | _ => false

/-- All the dotted prefixes of a segment list, longest last
(`ancestorPaths "" ["a","b","c"] = ["a", "a.b", "a.b.c"]`). -/
def ancestorPaths (pre : String) : List String → List String
  | [] => []
  | k :: rest => pathJoin pre k :: ancestorPaths (pathJoin pre k) rest

/-- The fields of an object value (the `Record` content). -/
def jObjFields : JValue → List (String × JValue)
  | vObj fs => fs
  | _ => []

theorem setKeysGo_cons_obj (fs : List (String × JValue)) (k : String)
    (rest : List String) (v : JValue) :
    setKeysGo (vObj fs) (k :: rest) v
      = vObj (assocSet fs k (match rest with
          | [] => v
          | k2 :: rest2 =>
            setKeysGo (stepChild ((assocGet fs k).getD vUndef) k2) (k2 :: rest2) v)) := by
  cases rest with
  | nil => rfl
  | cons k2 rest2 => rfl

theorem deepEqual_setChain_false :
    ∀ (ss : List String) (fs : List (String × JValue)) (v : JValue),
      objChainOk fs ss v = true →
      deepEqual (vObj fs) (setKeysGo (vObj fs) ss v) = false := by
  intro ss
  induction ss with
  | nil => intro fs v h; simp [objChainOk] at h
  | cons k rest ih =>
    intro fs v h
    cases rest with
    | nil =>
      rw [setKeysGo_cons_obj]
      apply deepEqual_vObj_set_false
      simp only [objChainOk, Bool.and_eq_true, Bool.not_eq_true'] at h
      exact h.2
    | cons k2 rest2 =>
      simp only [objChainOk] at h
      split at h
      · next gs hx =>
        rw [setKeysGo_cons_obj]
        apply deepEqual_vObj_set_false
        rw [hx]
        show deepEqual (vObj gs) (setKeysGo (stepChild (vObj gs) k2) (k2 :: rest2) v) = false
        rw [show stepChild (vObj gs) k2 = vObj gs from rfl]
        exact ih gs v h
      · cases h

theorem mem_dedupSeen (l : List String) :
    ∀ (seen : List String) (x : String), x ∈ dedupSeen seen l ↔ x ∈ l ∧ x ∉ seen := by
  induction l with
  | nil => intro seen x; simp [dedupSeen]
  | cons k rest ih =>
    intro seen x
    by_cases hc : seen.contains k
    · have hk : k ∈ seen := by simpa using hc
      rw [dedupSeen, if_pos hc, ih]
      constructor
      · rintro ⟨hm, hs⟩
        exact ⟨List.mem_cons_of_mem _ hm, hs⟩
      · rintro ⟨hm, hs⟩
        rcases List.mem_cons.mp hm with h1 | h1
        · subst h1; exact absurd hk hs
        · exact ⟨h1, hs⟩
    · rw [dedupSeen, if_neg hc]
      constructor
      · intro hm
        rcases List.mem_cons.mp hm with h1 | h1
        · subst h1
          exact ⟨List.mem_cons_self _ _, by simpa using hc⟩
        · have := (ih (k :: seen) x).mp h1
          exact ⟨List.mem_cons_of_mem _ this.1,
            fun hs => this.2 (List.mem_cons_of_mem _ hs)⟩
      · rintro ⟨hm, hs⟩
        rcases List.mem_cons.mp hm with h1 | h1
        · subst h1; exact List.mem_cons_self _ _
        · by_cases hxk : x = k
          · subst hxk; exact List.mem_cons_self _ _
          · exact List.mem_cons_of_mem _ ((ih (k :: seen) x).mpr
              ⟨h1, fun hs2 => by
                rcases List.mem_cons.mp hs2 with h3 | h3
                · exact hxk h3
                · exact hs h3⟩)

theorem nodup_dedupSeen (l : List String) : ∀ (seen : List String), (dedupSeen seen l).Nodup := by
  induction l with
  | nil => intro seen; simp [dedupSeen]
  | cons k rest ih =>
    intro seen
    by_cases hc : seen.contains k
    · rw [dedupSeen, if_pos hc]; exact ih seen
    · rw [dedupSeen, if_neg hc]
      refine List.Nodup.cons ?_ (ih (k :: seen))
      intro hmem
      exact ((mem_dedupSeen rest (k :: seen) k).mp hmem).2 (List.mem_cons_self _ _)

theorem flatMap_eq_single {α β : Type} (l : List α) (f : α → List β) (k : α)
    (hnd : l.Nodup) (hmem : k ∈ l) (hz : ∀ x ∈ l, x ≠ k → f x = []) :
    l.flatMap f = f k := by
  induction l with
  | nil => cases hmem
  | cons a rest ih =>
    rcases List.mem_cons.mp hmem with h1 | h1
    · subst h1
      have hrest : rest.flatMap f = [] := by
        apply List.flatMap_eq_nil_iff.mpr
        intro x hx
        exact hz x (List.mem_cons_of_mem _ hx)
          (fun he => (List.nodup_cons.mp hnd).1 (he ▸ hx))
      simp [List.flatMap_cons, hrest]
    · have ha : f a = [] := hz a (List.mem_cons_self _ _)
        (fun he => (List.nodup_cons.mp hnd).1 (he ▸ h1))
      simp [List.flatMap_cons, ha,
        ih (List.nodup_cons.mp hnd).2 h1 (fun x hx hne => hz x (List.mem_cons_of_mem _ hx) hne)]

theorem jvSize_assocGet_lt (fs : List (String × JValue)) (k : String) (v : JValue)
    (h : assocGet fs k = some v) : jvSize v < jvSizeFields fs := by
  induction fs with
  | nil => simp [assocGet] at h
  | cons p rest ih =>
    obtain ⟨k1, v1⟩ := p
    by_cases h1 : k1 = k
    · rw [assocGet, if_pos h1] at h
      cases h
      simp only [jvSizeFields]
      omega
    · rw [assocGet, if_neg h1] at h
      have := ih h
      simp only [jvSizeFields]
      omega

theorem jvSizeFields_pos (fs : List (String × JValue)) : 1 ≤ jvSizeFields fs := by
  cases fs with
  | nil => simp [jvSizeFields]
  | cons p rest =>
    simp only [jvSizeFields]
    omega

theorem objChainOk_length_le :
    ∀ (ss : List String) (fs : List (String × JValue)) (v : JValue),
      objChainOk fs ss v = true → ss.length ≤ jvSizeFields fs := by
  intro ss
  induction ss with
  | nil => intro fs v h; simp [objChainOk] at h
  | cons k rest ih =>
    intro fs v h
    cases rest with
    | nil => simpa using jvSizeFields_pos fs
    | cons k2 rest2 =>
      simp only [objChainOk] at h
      split at h
      · next gs hx =>
        have hget : assocGet fs k = some (vObj gs) := by
          cases hg : assocGet fs k with
          | none => rw [hg] at hx; cases hx
          | some w => rw [hg] at hx; cases hx; rfl
        have hlt := jvSize_assocGet_lt fs k _ hget
        have hsz : jvSize (vObj gs) = 1 + jvSizeFields gs := rfl
        have hle := ih gs v h
        simp only [List.length_cons] at hle ⊢
        omega
      · cases h

theorem dirtyGoF_succ_set (f : Nat) (fs : List (String × JValue)) (k : String)
    (inner : JValue) (pre : String)
    (hne : deepEqual ((assocGet fs k).getD vUndef) inner = false) :
    dirtyGoF (f + 1) fs (assocSet fs k inner) pre
      = pathJoin pre k :: dirtyStep f ((assocGet fs k).getD vUndef) inner (pathJoin pre k) := by
  rw [dirtyGoF]
  rw [flatMap_eq_single _ _ k (nodup_dedupSeen _ _) ?hmem ?hz]
  case hmem =>
    rw [mem_dedupSeen]
    refine ⟨List.mem_append_right _ (mem_map_fst_assocSet fs k inner), by simp⟩
  case hz =>
    intro x hx hxk
    dsimp only
    rw [assocGet_assocSet_ne fs inner hxk, deepEqual_refl]
    rfl
  dsimp only
  rw [assocGet_assocSet_self, Option.getD_some, hne]
  simp only [Bool.false_eq_true, if_false]
  rw [dirtyStep_eq]

theorem dirtyGoF_setChain :
    ∀ (ss : List String) (fs : List (String × JValue)) (v : JValue) (pre : String) (fuel : Nat),
      ss.length ≤ fuel → objChainOk fs ss v = true →
      dirtyGoF fuel fs (jObjFields (setKeysGo (vObj fs) ss v)) pre = ancestorPaths pre ss := by
  intro ss
  induction ss with
  | nil => intro fs v pre fuel hf h; simp [objChainOk] at h
  | cons k rest ih =>
    intro fs v pre fuel hf h
    cases fuel with
    | zero => simp at hf
    | succ f =>
      cases rest with
      | nil =>
        have hch : isContainer ((assocGet fs k).getD vUndef) = false ∧
            deepEqual ((assocGet fs k).getD vUndef) v = false := by
          simp only [objChainOk, Bool.and_eq_true, Bool.not_eq_true'] at h
          exact ⟨h.1.1, h.2⟩
        rw [setKeysGo_cons_obj]
        dsimp only [jObjFields]
        rw [dirtyGoF_succ_set f fs k v pre hch.2]
        have hstep : dirtyStep f ((assocGet fs k).getD vUndef) v (pathJoin pre k) = [] := by
          cases hov : (assocGet fs k).getD vUndef with
          | vObj gs => rw [hov] at hch; simp [isContainer] at hch
          | vUndef => cases v <;> rfl
          | vNull => cases v <;> rfl
          | vBool b => cases v <;> rfl
          | vNum n => cases v <;> rfl
          | vStr s => cases v <;> rfl
          | vArr xs ps => cases v <;> rfl
        rw [hstep]
        rfl
      | cons k2 rest2 =>
        simp only [objChainOk] at h
        split at h
        · next gs hx =>
          rw [setKeysGo_cons_obj]
          dsimp only [jObjFields]
          rw [hx]
          rw [show stepChild (vObj gs) k2 = vObj gs from rfl]
          have hinner : setKeysGo (vObj gs) (k2 :: rest2) v
              = vObj (jObjFields (setKeysGo (vObj gs) (k2 :: rest2) v)) := by
            rw [setKeysGo_cons_obj]
            rfl
          have hne2 : deepEqual ((assocGet fs k).getD vUndef)
              (setKeysGo (vObj gs) (k2 :: rest2) v) = false := by
            rw [hx]
            exact deepEqual_setChain_false (k2 :: rest2) gs v h
          rw [dirtyGoF_succ_set f fs k _ pre hne2]
          rw [hx]
          conv_lhs => rw [hinner]
          rw [show ∀ hs, dirtyStep f (vObj gs) (vObj hs) (pathJoin pre k)
              = dirtyGoF f gs hs (pathJoin pre k) from fun hs => rfl]
          rw [ih gs v (pathJoin pre k) f (by simpa using Nat.le_of_succ_le_succ hf) h]
          rfl
        · cases h

/-- C7 counterexample: the claim predicts that for `T' = setByPath(T, p, v)`
differing from `T` only at the leaf path `p = "items.1"`, `getDirtyPaths`
contains `p` and its ancestor `"items"`.  In fact the recursion of
`getDirtyPaths` stops at arrays (it only descends when both sides are
non-array objects), so the output is exactly `["items"]` and the changed
leaf path `"items.1"` is never recorded. -/
theorem c7_array_leaf_counterexample :
    setByPath (vObj [("items", vArr [vNum 1, vNum 2] [])]) "items.1" (vNum 3)
      = vObj [("items", vArr [vNum 1, vNum 3] [])] ∧
    getDirtyPaths [("items", vArr [vNum 1, vNum 2] [])]
      [("items", vArr [vNum 1, vNum 3] [])] "" = ["items"] ∧
    "items.1" ∉ getDirtyPaths [("items", vArr [vNum 1, vNum 2] [])]
      [("items", vArr [vNum 1, vNum 3] [])] "" :=
  ⟨by decide, by decide, by decide⟩

/-- C7 (amended): `getDirtyPaths(T, T)` is empty for every tree; and for a
tree `T'` that differs from `T` only at one leaf path `p` *all of whose
intermediate containers are plain (non-array) objects*, `getDirtyPaths`
returns exactly the ancestor paths of `p` followed by `p` itself.  (The
original claim, refuted above, asserted this for every leaf path; when an
array lies on the path the recursion stops there.) -/
theorem c7_getDirtyPaths_diff :
    (∀ (fs : List (String × JValue)) (pre : String), getDirtyPaths fs fs pre = []) ∧
    (∀ (fs : List (String × JValue)) (p : String) (v : JValue),
      p ≠ "" → objChainOk fs (splitDots p) v = true →
      getDirtyPaths fs (jObjFields (setByPath (vObj fs) p v)) ""
        = ancestorPaths "" (splitDots p)) := by
  constructor
  · exact getDirtyPaths_self
  · intro fs p v hp h
    unfold setByPath
    rw [if_neg hp]
    unfold getDirtyPaths
    exact dirtyGoF_setChain (splitDots p) fs v "" (jvSizeFields fs)
      (objChainOk_length_le _ _ _ h) h

/-- Witness for C7 at a concrete tree and nested leaf path. -/
theorem c7_getDirtyPaths_diff_witness :
    getDirtyPaths [("user", vObj [("name", vStr "a")])]
      (jObjFields (setByPath (vObj [("user", vObj [("name", vStr "a")])]) "user.name" (vStr "b")))
      "" = ancestorPaths "" (splitDots "user.name") ∧
    ancestorPaths "" (splitDots "user.name") = ["user", "user.name"] :=
  ⟨c7_getDirtyPaths_diff.2 [("user", vObj [("name", vStr "a")])] "user.name" (vStr "b")
      (by decide) (by decide),
    by decide⟩

/-! ## Id generation (`packages/core/src/utils/id.ts`) -/

/-- `generateId()` from `id.ts`: `ufa_${++counter}` against a module-global
counter, modelled by threading the counter explicitly. -/
def generateId (counter : Nat) : String × Nat :=
  ("ufa_" ++ jsNatStr (counter + 1), counter + 1)

/-- `resetIdCounter()` from `id.ts`: sets the module counter back to 0. -/
def resetIdCounter (_counter : Nat) : Nat := 0

/-- One process-lifetime operation touching the id counter. -/
inductive IdOp where
  | gen
  | reset
deriving DecidableEq, Repr

/-- Run a sequence of id operations from a counter state, collecting the
strings returned by the `generateId` calls in order. -/
def runIdOps : List IdOp → Nat → List String × Nat
  | [], c => ([], c)
  | IdOp.gen :: rest, c =>
    let (s, c2) := generateId c
    let (out, c3) := runIdOps rest c2
    (s :: out, c3)
  | IdOp.reset :: rest, c => runIdOps rest (resetIdCounter c)

theorem string_append_left_cancel {p a b : String} (h : p ++ a = p ++ b) : a = b := by
  have hd : p.data ++ a.data = p.data ++ b.data := by
    have := congrArg String.data h
    simpa [String.data_append] using this
  have hab := List.append_cancel_left hd
  cases a
  cases b
  simp only at hab
  rw [hab]

theorem mem_runIdOps_gen_only :
    ∀ (ops : List IdOp) (c : Nat) (s : String), (∀ op ∈ ops, op = IdOp.gen) →
      s ∈ (runIdOps ops c).1 → ∃ m, c < m ∧ s = "ufa_" ++ jsNatStr m := by
  intro ops
  induction ops with
  | nil => intro c s _ hs; simp [runIdOps] at hs
  | cons op rest ih =>
    intro c s hgen hs
    have hop : op = IdOp.gen := hgen op (List.mem_cons_self _ _)
    subst hop
    simp only [runIdOps, generateId] at hs
    rcases List.mem_cons.mp hs with h1 | h1
    · exact ⟨c + 1, Nat.lt_succ_self c, h1⟩
    · obtain ⟨m, hm, hs2⟩ := ih (c + 1) s
        (fun op2 hop2 => hgen op2 (List.mem_cons_of_mem _ hop2)) h1
      exact ⟨m, Nat.lt_of_succ_lt hm, hs2⟩

/-- C9 counterexample: the exported `resetIdCounter` makes `generateId`
reuse ids within one process: the trace `generateId(); resetIdCounter();
generateId()` returns the string `ufa_1` from both distinct calls. -/
theorem c9_generateId_reuse_counterexample :
    (runIdOps [IdOp.gen, IdOp.reset, IdOp.gen] 0).1 = ["ufa_1", "ufa_1"] := by
  decide

/-- C9 (amended): over any sequence of calls that never invokes
`resetIdCounter`, the strings returned by distinct `generateId` calls are
pairwise distinct (the returned id list has no duplicates), from any
starting counter. -/
theorem c9_generateId_unique :
    ∀ (ops : List IdOp) (c : Nat), (∀ op ∈ ops, op = IdOp.gen) →
      ((runIdOps ops c).1).Nodup := by
  intro ops
  induction ops with
  | nil => intro c _; simp [runIdOps]
  | cons op rest ih =>
    intro c hgen
    have hop : op = IdOp.gen := hgen op (List.mem_cons_self _ _)
    subst hop
    simp only [runIdOps, generateId]
    refine List.Nodup.cons ?_ (ih (c + 1) (fun op2 hop2 => hgen op2 (List.mem_cons_of_mem _ hop2)))
    intro hmem
    obtain ⟨m, hm, hs⟩ := mem_runIdOps_gen_only rest (c + 1) _
      (fun op2 hop2 => hgen op2 (List.mem_cons_of_mem _ hop2)) hmem
    have hmn : c + 1 = m := jsNatStr_injective (string_append_left_cancel hs)
    omega

/-- Witness for C9 on a concrete reset-free trace. -/
theorem c9_generateId_unique_witness :
    (∀ op ∈ [IdOp.gen, IdOp.gen, IdOp.gen], op = IdOp.gen) ∧
    ((runIdOps [IdOp.gen, IdOp.gen, IdOp.gen] 0).1).Nodup ∧
    (runIdOps [IdOp.gen, IdOp.gen, IdOp.gen] 0).1 = ["ufa_1", "ufa_2", "ufa_3"] :=
  ⟨by decide,
    c9_generateId_unique [IdOp.gen, IdOp.gen, IdOp.gen] 0 (by decide),
    by decide⟩

/-! ## The reference backend engine (`packages/react-hook-form/src/rhfAdapter.ts`)

The engine is a record of the `RHFEngine` state.  DOM-related members
(`subscribers`, `fieldRefs`, subscriber notification, focus-on-error and
`event.preventDefault()`) perform no engine-state mutation and are not
modelled; asynchronous validation (`await`) is single-threaded and modelled
by sequential state passing.  The module-global `generateId` counter is
threaded through `idCounter`. -/

/-- `FieldError` (`message?`, `type?`; the unused `ref` is omitted). -/
structure FErr where
  message : Option String
  type : Option String
deriving DecidableEq, Repr

/-- Per-field metadata of the RHF engine. -/
structure FieldMeta where
  isTouched : Bool
  isDirty : Bool
  error : Option FErr
deriving DecidableEq, Repr

def defaultMeta : FieldMeta :=
  { isTouched := false, isDirty := false, error := none }

/-- `ValidationMode`. -/
inductive Mode where
  | onSubmit
  | onBlur
  | onChange
  | onTouched
  | all
deriving DecidableEq, Repr

/-- `ValidationError` from the schema-bridge contract. -/
structure ValidationErr where
  path : String
  message : String
  type : Option String
deriving DecidableEq, Repr

/-- `ValidationResult` (the `data` member is never read by the adapter). -/
structure ValidationRes where
  success : Bool
  errors : Option (List ValidationErr)

/-- Generic JS-`Map`/keyed-object read (first match). -/
def alistGet {β : Type} : List (String × β) → String → Option β
  | [], _ => none
  | (k, v) :: rest, key => if k = key then some v else alistGet rest key

/-- Generic JS-`Map`/keyed-object write: overwrite in place, else append. -/
def alistSet {β : Type} : List (String × β) → String → β → List (String × β)
  | [], key, v => [(key, v)]
  | (k, w) :: rest, key, v =>
    if k = key then (k, v) :: rest else (k, w) :: alistSet rest key v

/-- The `RHFEngine` state store. -/
structure RHFEngine where
  values : JValue
  defaultValues : JValue
  fieldMeta : List (String × FieldMeta)
  isSubmitting : Bool
  isValidating : Bool
  submitCount : Nat
  schema : Option (JValue → ValidationRes)
  mode : Mode
  fieldIds : List (String × List (Nat × String))
  idCounter : Nat

/-- `createForm(config)`. -/
def createForm (defaultValues : JValue) (schema : Option (JValue → ValidationRes))
    (mode : Mode) (idCounter : Nat) : RHFEngine :=
  { values := vObj (jObjFields defaultValues)
    defaultValues := vObj (jObjFields defaultValues)
    fieldMeta := []
    isSubmitting := false
    isValidating := false
    submitCount := 0
    schema := schema
    mode := mode
    fieldIds := []
    idCounter := idCounter }

/-- `validateField(engine, path)`: run the schema on the whole value tree
and pick the error whose path matches. -/
def validateField (e : RHFEngine) (path : String) : Option FErr :=
  match e.schema with
  | none => none
  | some f =>
    let result := f e.values
    if result.success = false then
      match result.errors with
      | some errs =>
        match errs.find? (fun err => err.path = path) with
        | some fieldError => some { message := some fieldError.message, type := some "validation" }
        | none => none
      | none => none
    else none

/-- `validateAllFields(engine)`: reduce the schema's error list into a
path-keyed record. -/
def validateAllFields (e : RHFEngine) : List (String × FErr) :=
  match e.schema with
  | none => []
  | some f =>
    let result := f e.values
    if result.success = false then
      match result.errors with
      | some errs =>
        errs.foldl
          (fun acc err => alistSet acc err.path
            { message := some err.message, type := some "validation" })
          []
      | none => []
    else []

/-- `hasErrors(engine)`. -/
def hasErrors (e : RHFEngine) : Bool :=
  e.fieldMeta.any (fun pm => pm.2.error.isSome)

/-- `hasDirtyFields(engine)`. -/
def hasDirtyFields (e : RHFEngine) : Bool :=
  e.fieldMeta.any (fun pm => pm.2.isDirty)

/-- The `FormState` snapshot returned by `getState`. -/
structure FormStateSnap where
  values : JValue
  errors : List (String × FErr)
  touched : List (String × Bool)
  dirty : List (String × Bool)
  isSubmitting : Bool
  isValidating : Bool
  isValid : Bool
  isDirty : Bool
  submitCount : Nat

/-- `getState(engine)`: collect per-field errors/touched/dirty maps and the
derived `isValid`/`isDirty` flags. -/
def getState (e : RHFEngine) : FormStateSnap :=
  { values := e.values
    errors := e.fieldMeta.filterMap (fun pm => pm.2.error.map (fun err => (pm.1, err)))
    touched := e.fieldMeta.filterMap
      (fun pm => if pm.2.isTouched then some (pm.1, true) else none)
    dirty := e.fieldMeta.filterMap
      (fun pm => if pm.2.isDirty then some (pm.1, true) else none)
    isSubmitting := e.isSubmitting
    isValidating := e.isValidating
    isValid := !hasErrors e
    isDirty := hasDirtyFields e
    submitCount := e.submitCount }

/-- `getValue(engine, path)`. -/
def getValue (e : RHFEngine) (path : String) : JValue :=
  getByPath e.values path

/-- `getErrors(engine)`. -/
def getErrors (e : RHFEngine) : List (String × FErr) :=
  e.fieldMeta.filterMap (fun pm => pm.2.error.map (fun err => (pm.1, err)))

/-- `getFieldState(engine, path)`. -/
structure FieldStateSnap where
  isTouched : Bool
  isDirty : Bool
  error : Option FErr
  isInvalid : Bool
deriving DecidableEq, Repr

def getFieldState (e : RHFEngine) (path : String) : FieldStateSnap :=
  let meta := alistGet e.fieldMeta path
  { isTouched := (meta.map (fun m => m.isTouched)).getD false
    isDirty := (meta.map (fun m => m.isDirty)).getD false
    error := meta.bind (fun m => m.error)
    isInvalid := (meta.bind (fun m => m.error)).isSome }

/-- `value !== defaultValue`: on primitives this is value inequality; on
containers it is reference inequality, which is constantly true here
because the freshly supplied value and the value stored inside the default
tree are never the same reference in the adapter's use. -/
def jsStrictNe : JValue → JValue → Bool
  | vObj _, _ => true
  | vArr _ _, _ => true
  | _, vObj _ => true
  | _, vArr _ _ => true
  | a, b => decide (a ≠ b)

/-- Options object of `setValue`; an absent member is `none`. -/
structure SetValueOpts where
  shouldValidate : Option Bool
  shouldDirty : Option Bool
deriving DecidableEq, Repr

/-- `setValue(engine, path, value, options)`: write through `setByPath`,
recompute dirtiness against the default value unless `shouldDirty` is
exactly `false`, then (when `shouldValidate`) run field validation against
the updated values and store the resulting error. -/
def setValue (e : RHFEngine) (path : String) (value : JValue)
    (opts : SetValueOpts) : RHFEngine :=
  let m0 := (alistGet e.fieldMeta path).getD defaultMeta
  let m1 :=
    if opts.shouldDirty ≠ some false then
      { m0 with isDirty := jsStrictNe value (getByPath e.defaultValues path) }
    else m0
  let e1 := { e with
    values := setByPath e.values path value
    fieldMeta := alistSet e.fieldMeta path m1 }
  if opts.shouldValidate = some true then
    let err := validateField e1 path
    { e1 with fieldMeta := alistSet e1.fieldMeta path { m1 with error := err } }
  else e1

/-- The whole-tree branch of `trigger` (no `paths` argument, or an empty
list): validate everything, store new errors, clear the errors of fields
that passed, resolve to whether the error record is empty. -/
def triggerAll (e1 : RHFEngine) : Bool × RHFEngine :=
  let errs := validateAllFields e1
  let e2 := errs.foldl
    (fun ecur pe =>
      let m := (alistGet ecur.fieldMeta pe.1).getD defaultMeta
      { ecur with fieldMeta := alistSet ecur.fieldMeta pe.1 { m with error := some pe.2 } })
    e1
  let e3 := { e2 with
    fieldMeta := e2.fieldMeta.map (fun (pm : String × FieldMeta) =>
      if (alistGet errs pm.1).isNone then (pm.1, { pm.2 with error := none }) else pm) }
  (decide (errs.length = 0), { e3 with isValidating := false })

/-- `trigger(engine, paths?)`. -/
def trigger (e : RHFEngine) (paths : Option (List String)) : Bool × RHFEngine :=
  let e1 := { e with isValidating := true }
  match paths with
  | some ps =>
    if 0 < ps.length then
      let st := ps.foldl
        (fun (acc : Bool × RHFEngine) path =>
          let err := validateField acc.2 path
          let m := (alistGet acc.2.fieldMeta path).getD defaultMeta
          (acc.1 && err.isNone,
            { acc.2 with fieldMeta := alistSet acc.2.fieldMeta path { m with error := err } }))
        (true, e1)
      (st.1, { st.2 with isValidating := false })
    else triggerAll e1
  | none => triggerAll e1

/-- Outcome of one invocation of the handler returned by `handleSubmit`. -/
structure SubmitOutcome where
  onValidCalled : Bool
  onInvalidCalled : Bool
  thrown : Bool
deriving DecidableEq, Repr

/-- One invocation of the event handler returned by
`handleSubmit(engine, onValid, onInvalid?)`.  `onValid` is abstracted by the
predicate telling whether it throws on the submitted values; `onInvalid` by
whether it was supplied.  The `try`/`finally` (no `catch`) of the source
means an exception from `onValid` propagates (`thrown`), while
`isSubmitting` is still reset by the `finally` block. -/
def handleSubmitRun (e : RHFEngine) (onValidThrows : JValue → Bool)
    (hasOnInvalid : Bool) : RHFEngine × SubmitOutcome :=
  let e1 := { e with isSubmitting := true, submitCount := e.submitCount + 1 }
  let tr := trigger e1 none
  if tr.1 then
    ({ tr.2 with isSubmitting := false },
      { onValidCalled := true, onInvalidCalled := false, thrown := onValidThrows tr.2.values })
  else
    ({ tr.2 with isSubmitting := false },
      { onValidCalled := false, onInvalidCalled := hasOnInvalid, thrown := false })

/-- `{...a, ...b}`: the shallow merge used by `reset`. -/
def spreadMerge (a b : JValue) : List (String × JValue) :=
  (jObjFields b).foldl (fun acc kv => assocSet acc kv.1 kv.2) (jObjFields a)

/-- `reset(engine, values?, options?)`. -/
def reset (e : RHFEngine) (values : Option JValue) (keepErrors : Bool) : RHFEngine :=
  let resetValues : JValue :=
    match values with
    | some vs => vObj (spreadMerge e.defaultValues vs)
    | none => vObj (jObjFields e.defaultValues)
  let e1 := { e with values := resetValues }
  let e2 :=
    if keepErrors = false then
      { e1 with fieldMeta := e1.fieldMeta.map (fun pm =>
          (pm.1, { pm.2 with error := none, isTouched := false, isDirty := false })) }
    else e1
  { e2 with submitCount := 0, fieldIds := [] }

/-- JS truthiness. -/
def jsTruthy : JValue → Bool
  | vUndef => false
  | vNull => false
  | vBool b => b
  | vNum n => decide (n ≠ 0)
  | vStr s => decide (s ≠ "")
  | vObj _ => true
  | vArr _ _ => true

/-- `'key' in value`. -/
def jHasKey : JValue → String → Bool
  | vObj fs, k => fs.any (fun p => p.1 = k)
  | vArr xs ps, k =>
    match canonIndex k with
    | some i => decide (i < xs.length)
    | none => ps.any (fun p => p.1 = k)
  | _, _ => false

/-- `v === "lit"` for a string literal on the right. -/
def isStrEq : JValue → String → Bool
  | vStr s, t => decide (s = t)
  | _, _ => false

/-- The value extraction of `register(...).onChange`: an event-shaped
argument (truthy object with a `target`) yields `target.checked` for
checkbox-typed targets and `target.value` otherwise; any other argument is
used as the value directly.  No coercion of any kind is applied. -/
def extractChangeValue (event : JValue) : JValue :=
  if jsTruthy event && typeofObject event && jHasKey event "target" then
    let target := jIndex event "target"
    if isStrEq (jIndex target "type") "checkbox" then jIndex target "checked"
    else jIndex target "value"
  else event

/-- One invocation of the `onChange` handler returned by
`register(engine, path)`. -/
def registerOnChange (e : RHFEngine) (path : String) (event : JValue) : RHFEngine :=
  setValue e path (extractChangeValue event)
    { shouldValidate := some (decide (e.mode = Mode.onChange ∨ e.mode = Mode.all))
      shouldDirty := some true }

theorem filterMap_isEmpty_eq {α β : Type} (l : List α) (f : α → Option β) :
    (l.filterMap f).isEmpty = !l.any (fun x => (f x).isSome) := by
  induction l with
  | nil => rfl
  | cons a rest ih =>
    cases hf : f a <;> simp [List.filterMap_cons, hf, ih]

theorem any_congr_fn {α : Type} (l : List α) (f g : α → Bool)
    (h : ∀ x, f x = g x) : l.any f = l.any g := by
  induction l with
  | nil => rfl
  | cons a rest ih => simp [List.any_cons, h a, ih]

/-- C10: in every engine state (not just reachable ones), the snapshot
returned by `getState` is internally consistent: `isValid` holds exactly
when the `errors` record is empty, and `isDirty` exactly when the `dirty`
record is non-empty. -/
theorem c10_getState_flags_consistent (e : RHFEngine) :
    (getState e).isValid = (getState e).errors.isEmpty ∧
    (getState e).isDirty = !(getState e).dirty.isEmpty := by
  constructor
  · show (!hasErrors e) = _
    unfold getState
    dsimp only
    rw [filterMap_isEmpty_eq]
    unfold hasErrors
    congr 1
    apply any_congr_fn
    intro pm
    cases pm.2.error <;> rfl
  · show hasDirtyFields e = _
    unfold getState
    dsimp only
    rw [filterMap_isEmpty_eq]
    unfold hasDirtyFields
    rw [Bool.not_not]
    apply any_congr_fn
    intro pm
    by_cases h : pm.2.isDirty <;> simp [h]

/-- A sample engine state with a touched, dirty and erroneous field. -/
def c3SampleEngine : RHFEngine :=
  { values := vObj [("name", vStr "x")]
    defaultValues := vObj [("name", vStr "")]
    fieldMeta := [("name",
      { isTouched := true, isDirty := true,
        error := some { message := some "bad", type := some "manual" } })]
    isSubmitting := false
    isValidating := false
    submitCount := 2
    schema := none
    mode := Mode.onSubmit
    fieldIds := [("items", [(0, "ufa_1")])]
    idCounter := 1 }

/-- C3 counterexample: the claim says `reset` clears `isTouched` and
`isDirty` for all fields *regardless of options*.  In the source the whole
metadata-clearing loop is guarded by `if (!options?.keepErrors)`, so with
`keepErrors: true` the touched and dirty flags survive the reset. -/
theorem c3_reset_keepErrors_counterexample :
    (getFieldState (reset c3SampleEngine none true) "name").isTouched = true ∧
    (getFieldState (reset c3SampleEngine none true) "name").isDirty = true :=
  ⟨rfl, rfl⟩

/-- C3 (amended): `reset` replaces the value tree with `values` merged over
the stored defaults (the defaults alone when omitted), resets `submitCount`
to 0 and clears the stable-id registries unconditionally; it clears errors,
`isTouched` and `isDirty` for all fields when `keepErrors` is not set, and
leaves the whole field metadata (errors *and* touched *and* dirty)
untouched when `keepErrors` is set.  The stored defaults themselves are
unchanged. -/
theorem c3_reset_characterization (e : RHFEngine) (values : Option JValue)
    (keepErrors : Bool) :
    (reset e values keepErrors).values
        = (match values with
           | some vs => vObj (spreadMerge e.defaultValues vs)
           | none => vObj (jObjFields e.defaultValues)) ∧
    (reset e values keepErrors).submitCount = 0 ∧
    (reset e values keepErrors).fieldIds = [] ∧
    (reset e values keepErrors).fieldMeta
        = (if keepErrors then e.fieldMeta
           else e.fieldMeta.map (fun pm =>
             (pm.1, { pm.2 with error := none, isTouched := false, isDirty := false }))) ∧
    (reset e values keepErrors).defaultValues = e.defaultValues := by
  cases values <;> cases keepErrors <;> exact ⟨rfl, rfl, rfl, rfl, rfl⟩

theorem foldl_submitCount_inv {α : Type} (step : RHFEngine → α → RHFEngine)
    (l : List α) (h : ∀ b x, (step b x).submitCount = b.submitCount) :
    ∀ b0, (l.foldl step b0).submitCount = b0.submitCount := by
  induction l with
  | nil => intro b0; rfl
  | cons a rest ih => intro b0; rw [List.foldl_cons, ih, h]

theorem foldl_pair_submitCount_inv {α : Type}
    (step : Bool × RHFEngine → α → Bool × RHFEngine) (l : List α)
    (h : ∀ b x, (step b x).2.submitCount = b.2.submitCount) :
    ∀ b0, (l.foldl step b0).2.submitCount = b0.2.submitCount := by
  induction l with
  | nil => intro b0; rfl
  | cons a rest ih => intro b0; rw [List.foldl_cons, ih, h]

theorem triggerAll_submitCount (e1 : RHFEngine) :
    (triggerAll e1).2.submitCount = e1.submitCount := by
  simp only [triggerAll]
  refine foldl_submitCount_inv _ (validateAllFields e1) ?_ e1
  intro b x
  rfl

theorem trigger_submitCount (e : RHFEngine) (paths : Option (List String)) :
    (trigger e paths).2.submitCount = e.submitCount := by
  cases paths with
  | none =>
    show (triggerAll { e with isValidating := true }).2.submitCount = e.submitCount
    rw [triggerAll_submitCount]
  | some ps =>
    by_cases hps : 0 < ps.length
    · simp only [trigger, if_pos hps]
      refine foldl_pair_submitCount_inv _ ps ?_ (true, { e with isValidating := true })
      intro b x
      rfl
    · simp only [trigger, if_neg hps]
      exact triggerAll_submitCount _

/-- A minimal engine (no schema, so validation always passes). -/
def c2SampleEngine : RHFEngine :=
  createForm (vObj [("name", vStr "")]) none Mode.onSubmit 0

/-- C2 counterexample: the source's `try { ... } finally { ... }` has no
`catch`, so when `onValid` throws, the exception propagates out of the
handler (the returned promise rejects) and `onInvalid` is *not* invoked —
contradicting the claim that the exception is caught and redirected to
`onInvalid`.  The `finally` does still reset `isSubmitting`. -/
theorem c2_onValid_exception_counterexample :
    ((handleSubmitRun c2SampleEngine (fun _ => true) true).2).onValidCalled = true ∧
    ((handleSubmitRun c2SampleEngine (fun _ => true) true).2).thrown = true ∧
    ((handleSubmitRun c2SampleEngine (fun _ => true) true).2).onInvalidCalled = false ∧
    ((handleSubmitRun c2SampleEngine (fun _ => true) true).1).isSubmitting = false :=
  ⟨rfl, rfl, rfl, rfl⟩

/-- C2 (amended): the handler returned by `handleSubmit` sets
`isSubmitting` and increments `submitCount` before validating (the final
count is the old one plus one, preserved through validation), invokes
exactly one of `onValid`/`onInvalid` per invocation when `onInvalid` is
provided, and resets `isSubmitting` to `false` afterwards even when
`onValid` throws.  An exception thrown by `onValid` is *not* redirected to
`onInvalid`: it propagates (the promise rejects), which happens exactly
when validation of the incremented state passes and `onValid` throws on the
validated values. -/
theorem c2_handleSubmit_behavior (e : RHFEngine) (onValidThrows : JValue → Bool)
    (hasOnInvalid : Bool) :
    ((handleSubmitRun e onValidThrows hasOnInvalid).1).isSubmitting = false ∧
    ((handleSubmitRun e onValidThrows hasOnInvalid).1).submitCount = e.submitCount + 1 ∧
    (hasOnInvalid = true →
      ((handleSubmitRun e onValidThrows hasOnInvalid).2).onValidCalled
        ≠ ((handleSubmitRun e onValidThrows hasOnInvalid).2).onInvalidCalled) ∧
    (((handleSubmitRun e onValidThrows hasOnInvalid).2).thrown = true →
      ((handleSubmitRun e onValidThrows hasOnInvalid).2).onInvalidCalled = false) ∧
    (((handleSubmitRun e onValidThrows hasOnInvalid).2).thrown = true ↔
      (trigger { e with isSubmitting := true, submitCount := e.submitCount + 1 } none).1 = true ∧
      onValidThrows
        ((trigger { e with isSubmitting := true, submitCount := e.submitCount + 1 } none).2).values
          = true) := by
  simp only [handleSubmitRun]
  by_cases h1 :
      (trigger { e with isSubmitting := true, submitCount := e.submitCount + 1 } none).1 = true
  · rw [if_pos h1]
    refine ⟨rfl, ?_, ?_, ?_, ?_⟩
    · show (trigger { e with isSubmitting := true, submitCount := e.submitCount + 1 } none).2.submitCount
        = e.submitCount + 1
      rw [trigger_submitCount]
    · intro _
      simp
    · intro _
      rfl
    · constructor
      · intro ht
        exact ⟨h1, ht⟩
      · intro hh
        exact hh.2
  · rw [if_neg h1]
    refine ⟨rfl, ?_, ?_, ?_, ?_⟩
    · show (trigger { e with isSubmitting := true, submitCount := e.submitCount + 1 } none).2.submitCount
        = e.submitCount + 1
      rw [trigger_submitCount]
    · intro hinv
      rw [hinv]
      simp
    · intro ht
      cases ht
    · constructor
      · intro ht
        cases ht
      · intro hh
        exact absurd hh.1 h1

/-- Witness for C2 on a concrete engine with a non-throwing `onValid`. -/
theorem c2_handleSubmit_behavior_witness :
    ((handleSubmitRun c2SampleEngine (fun _ => false) true).1).isSubmitting = false ∧
    ((handleSubmitRun c2SampleEngine (fun _ => false) true).1).submitCount = 1 ∧
    ((handleSubmitRun c2SampleEngine (fun _ => false) true).2).onValidCalled = true := by
  have h := c2_handleSubmit_behavior c2SampleEngine (fun _ => false) true
  exact ⟨h.1, h.2.1, rfl⟩

/-- The `get(set(T, p, v), p) = v` round trip, shared by several proofs. -/
theorem getByPath_setByPath_eq (T : JValue) (p : String) (v : JValue)
    (hT : isContainer T = true) : getByPath (setByPath T p v) p = v := by
  by_cases hp : p = ""
  · subst hp
    simp [setByPath, getByPath]
  · simp only [setByPath, getByPath, if_neg hp]
    exact getKeysGo_setKeysGo (splitDots p) T v (splitDots_ne_nil p) hT

theorem setValue_values (e : RHFEngine) (path : String) (value : JValue)
    (opts : SetValueOpts) :
    (setValue e path value opts).values = setByPath e.values path value := by
  simp only [setValue]
  split <;> rfl

/-- A sample engine with two fields and mode `onSubmit`. -/
def c8SampleEngine : RHFEngine :=
  createForm (vObj [("age", vStr ""), ("flag", vBool false), ("name", vStr "")])
    none Mode.onSubmit 0

/-- C8 counterexample: the claim says the extracted value is coerced to a
number when `target.type === 'number'`.  The source extracts
`target.checked` for checkboxes and `target.value` otherwise, with no
coercion at all: a number-typed input's string value `"5"` is stored as the
string `"5"`, not the number `5`. -/
theorem c8_no_number_coercion_counterexample :
    getValue (registerOnChange c8SampleEngine "age"
        (vObj [("target", vObj [("type", vStr "number"), ("value", vStr "5")])])) "age"
      = vStr "5" ∧ vStr "5" ≠ vNum 5 :=
  ⟨rfl, by decide⟩

/-- C8 (amended): the `onChange` handler returned by `register` accepts a
raw value or an event-shaped object: when the argument is a truthy object
with a `target` key, it stores `target.checked` for checkbox-typed targets
and `target.value` for every other target type (including `'number'` — no
numeric coercion is performed); otherwise the argument itself is stored. -/
theorem c8_onChange_extraction (e : RHFEngine) (path : String) (event : JValue)
    (hv : isContainer e.values = true) :
    ((jsTruthy event && typeofObject event && jHasKey event "target") = true →
      getValue (registerOnChange e path event) path
        = (if isStrEq (jIndex (jIndex event "target") "type") "checkbox"
           then jIndex (jIndex event "target") "checked"
           else jIndex (jIndex event "target") "value")) ∧
    ((jsTruthy event && typeofObject event && jHasKey event "target") = false →
      getValue (registerOnChange e path event) path = event) := by
  have hval : getValue (registerOnChange e path event) path = extractChangeValue event := by
    unfold getValue registerOnChange
    rw [setValue_values]
    exact getByPath_setByPath_eq e.values path (extractChangeValue event) hv
  constructor
  · intro h
    rw [hval]
    unfold extractChangeValue
    rw [if_pos h]
  · intro h
    rw [hval]
    unfold extractChangeValue
    rw [if_neg (by simp [h])]

/-- Witness for C8: a checkbox event stores `target.checked`, a raw value
is stored as-is. -/
theorem c8_onChange_extraction_witness :
    getValue (registerOnChange c8SampleEngine "flag"
        (vObj [("target", vObj [("type", vStr "checkbox"), ("checked", vBool true)])])) "flag"
      = vBool true ∧
    getValue (registerOnChange c8SampleEngine "name" (vStr "Direct")) "name" = vStr "Direct" := by
  constructor
  · have h := (c8_onChange_extraction c8SampleEngine "flag"
      (vObj [("target", vObj [("type", vStr "checkbox"), ("checked", vBool true)])])
      (by decide)).1 (by decide)
    exact h.trans (by decide)
  · exact (c8_onChange_extraction c8SampleEngine "name" (vStr "Direct") (by decide)).2 (by decide)

/-! ## Stable-id registry (`getFieldArray` of `rhfAdapter.ts`)

The per-array-path id map is a JS `Map<number, string>` (insertion order);
the array of values and the id map are transformed side by side by the
field-array operations.  `move` and `remove` are modelled below. -/

/-- `Map.set` on a numeric-keyed map. -/
def mapSet (m : List (Nat × String)) (k : Nat) (v : String) : List (Nat × String) :=
  match m with
  | [] => [(k, v)]
  | (k1, v1) :: rest => if k1 = k then (k1, v) :: rest else (k1, v1) :: mapSet rest k v

/-- `Map.get` on a numeric-keyed map. -/
def mapGet (m : List (Nat × String)) (k : Nat) : Option String :=
  match m with
  | [] => none
  | (k1, v1) :: rest => if k1 = k then some v1 else mapGet rest k

/-- `[...idMap.entries()].sort((a, b) => a[0] - b[0])` (map keys are unique,
so the sort's stability is irrelevant; insertion sort by key). -/
def insertByKey (p : Nat × String) : List (Nat × String) → List (Nat × String)
  | [] => [p]
  | q :: rest => if p.1 < q.1 then p :: q :: rest else q :: insertByKey p rest

def sortByKey : List (Nat × String) → List (Nat × String)
  | [] => []
  | p :: rest => insertByKey p (sortByKey rest)

/-- The loop body of `move`: skip the moved source index, emit the moved id
when the output position reaches the destination, then emit the current id. -/
def moveStep (fromIdx toIdx : Nat) (movedId : String)
    (st : List (Nat × String) × Nat) (p : Nat × String) : List (Nat × String) × Nat :=
  if p.1 = fromIdx then st
  else if st.2 = toIdx then
    (mapSet (mapSet st.1 st.2 movedId) (st.2 + 1) p.2, st.2 + 2)
  else (mapSet st.1 st.2 p.2, st.2 + 1)

/-- `move(from, to)` of `getFieldArray`, id-map part: take the id at `from`
(`?? generateId()`), clear the map, replay all other entries in ascending
key order renumbering densely, inserting the moved id at position `to`
(appended at `to` if the loop ends first). -/
def moveIds (m : List (Nat × String)) (fromIdx toIdx : Nat) (c : Nat) :
    List (Nat × String) × Nat :=
  let pick :=
    match mapGet m fromIdx with
    | some s => (s, c)
    | none => generateId c
  let st := (sortByKey m).foldl (moveStep fromIdx toIdx pick.1) ([], 0)
  (if toIdx ≥ st.2 then mapSet st.1 toIdx pick.1 else st.1, pick.2)

/-- `remaining.forEach(([_, id], newIdx) => idMap.set(newIdx, id))` on the
cleared map. -/
def fillLoop : List String → Nat → List (Nat × String) → List (Nat × String)
  | [], _, acc => acc
  | s :: rest, i, acc => fillLoop rest (i + 1) (mapSet acc i s)

/-- `remove(index | index[])` of `getFieldArray`, id-map part: drop entries
at removed indices, sort the rest ascending, renumber densely from 0
preserving order and ids. -/
def removeIds (m : List (Nat × String)) (indices : List Nat) : List (Nat × String) :=
  let remaining := sortByKey (m.filter (fun p => !(indices.contains p.1)))
  fillLoop (remaining.map Prod.snd) 0 []

/-- `newArr.splice(i, 1)` result. -/
def jsSpliceOut {α : Type} (xs : List α) (i : Nat) : List α :=
  xs.take i ++ xs.drop (i + 1)

/-- `newArr.splice(i, 0, a)` result. -/
def jsSpliceIn {α : Type} (xs : List α) (i : Nat) (a : α) : List α :=
  xs.take i ++ a :: xs.drop i

/-- The value-array permutation performed by `move`. -/
def moveList {α : Type} (xs : List α) (fromIdx toIdx : Nat) (dflt : α) : List α :=
  jsSpliceIn (jsSpliceOut xs fromIdx) toIdx (xs.getD fromIdx dflt)

/-- The value-array filtering performed by `remove`
(`arr.filter((_, i) => !indices.has(i))`). -/
def filterIdx {α : Type} (xs : List α) (indices : List Nat) : List α :=
  (xs.enum.filter (fun p => !(indices.contains p.1))).map Prod.snd


theorem mapSet_fresh (m : List (Nat × String)) (k : Nat) (v : String)
    (h : ∀ p ∈ m, p.1 ≠ k) : mapSet m k v = m ++ [(k, v)] := by
  induction m with
  | nil => rfl
  | cons q rest ih =>
    obtain ⟨k1, v1⟩ := q
    have hne : k1 ≠ k := h (k1, v1) (List.mem_cons_self _ _)
    simp only [mapSet, if_neg hne, List.cons_append]
    rw [ih (fun p hp => h p (List.mem_cons_of_mem _ hp))]

theorem enumFrom_fst_ge {α : Type} :
    ∀ (l : List α) (n : Nat) (x : Nat × α), x ∈ List.enumFrom n l → n ≤ x.1 := by
  intro l
  induction l with
  | nil => intro n x hx; simp [List.enumFrom] at hx
  | cons a rest ih =>
    intro n x hx
    rcases List.mem_cons.mp hx with h | h
    · exact Nat.le_of_eq (by rw [h])
    · exact Nat.le_of_succ_le (ih (n + 1) x h)

theorem enumFrom_fst_lt {α : Type} :
    ∀ (l : List α) (n : Nat) (x : Nat × α), x ∈ List.enumFrom n l → x.1 < n + l.length := by
  intro l n x hx
  exact List.fst_lt_add_of_mem_enumFrom hx

theorem enumFrom_pairwise {α : Type} :
    ∀ (l : List α) (n : Nat),
      List.Pairwise (fun a b : Nat × α => a.1 < b.1) (List.enumFrom n l) := by
  intro l
  induction l with
  | nil => intro n; exact List.Pairwise.nil
  | cons a rest ih =>
    intro n
    refine List.Pairwise.cons ?_ (ih (n + 1))
    intro x hx
    exact Nat.lt_of_lt_of_le (Nat.lt_succ_self n) (enumFrom_fst_ge rest (n + 1) x hx)

theorem insertByKey_front (p : Nat × String) (l : List (Nat × String))
    (h : ∀ q ∈ l, p.1 < q.1) : insertByKey p l = p :: l := by
  cases l with
  | nil => rfl
  | cons q rest => simp only [insertByKey, if_pos (h q (List.mem_cons_self _ _))]

theorem sortByKey_of_pairwise :
    ∀ (l : List (Nat × String)),
      List.Pairwise (fun a b : Nat × String => a.1 < b.1) l → sortByKey l = l := by
  intro l
  induction l with
  | nil => intro _; rfl
  | cons p rest ih =>
    intro h
    have h1 := List.pairwise_cons.mp h
    simp only [sortByKey]
    rw [ih h1.2, insertByKey_front p rest h1.1]

theorem enum_snoc {α : Type} (out : List α) (v : α) :
    (out ++ [v]).enum = out.enum ++ [(out.length, v)] := by
  rw [List.enum_append]
  rfl

theorem enum_key_lt {α : Type} (out : List α) (x : Nat × α) (h : x ∈ out.enum) :
    x.1 < out.length := by
  have := List.fst_lt_add_of_mem_enumFrom (n := 0) (by simpa [List.enum] using h)
  simpa using this

theorem mapSet_enum_snoc (out : List String) (v : String) :
    mapSet out.enum out.length v = (out ++ [v]).enum := by
  rw [mapSet_fresh out.enum out.length v
    (fun p hp => Nat.ne_of_lt (enum_key_lt out p hp))]
  exact (enum_snoc out v).symm

theorem mapGet_enumFrom (xs : List String) :
    ∀ (n k : Nat), k < xs.length →
      mapGet (List.enumFrom n xs) (n + k) = some (xs.getD k "") := by
  induction xs with
  | nil => intro n k hk; simp at hk
  | cons x rest ih =>
    intro n k hk
    cases k with
    | zero => simp [List.enumFrom, mapGet]
    | succ k =>
      show mapGet ((n, x) :: List.enumFrom (n + 1) rest) (n + (k + 1)) = _
      have hne : n ≠ n + (k + 1) := by omega
      simp only [mapGet, if_neg hne]
      have := ih (n + 1) k (by simpa using Nat.lt_of_succ_lt_succ hk)
      rw [show n + (k + 1) = (n + 1) + k by omega]
      rw [this]
      rfl

theorem mapGet_enum (xs : List String) (k : Nat) (h : k < xs.length) :
    mapGet xs.enum k = some (xs.getD k "") := by
  have := mapGet_enumFrom xs 0 k h
  simpa [List.enum] using this

theorem foldl_moveStep_plain (F T : Nat) (mid : String) :
    ∀ (vals out : List String) (jstart : Nat),
      (∀ i, i < vals.length → jstart + i ≠ F) →
      (∀ i, i < vals.length → out.length + i ≠ T) →
      (List.enumFrom jstart vals).foldl (moveStep F T mid) (out.enum, out.length)
        = ((out ++ vals).enum, out.length + vals.length) := by
  intro vals
  induction vals with
  | nil => intro out jstart _ _; simp
  | cons v rest ih =>
    intro out jstart hF hT
    have h0F : jstart ≠ F := by simpa using hF 0 (by simp)
    have h0T : out.length ≠ T := by simpa using hT 0 (by simp)
    show ((jstart, v) :: List.enumFrom (jstart + 1) rest).foldl (moveStep F T mid)
        (out.enum, out.length) = _
    rw [List.foldl_cons]
    have hstep : moveStep F T mid (out.enum, out.length) (jstart, v)
        = ((out ++ [v]).enum, (out ++ [v]).length) := by
      unfold moveStep
      dsimp only
      rw [if_neg h0F, if_neg h0T, mapSet_enum_snoc]
      simp
    rw [hstep]
    rw [ih (out ++ [v]) (jstart + 1)
      (fun i hi => by have := hF (i + 1) (by simpa using Nat.succ_lt_succ hi); omega)
      (fun i hi => by
        have := hT (i + 1) (by simpa using Nat.succ_lt_succ hi)
        simp only [List.length_append, List.length_cons, List.length_nil]
        omega)]
    simp [List.append_assoc]
    omega

theorem foldl_moveStep_seg (F T : Nat) (mid : String) :
    ∀ (vals out : List String) (jstart : Nat),
      (∀ i, i < vals.length → jstart + i ≠ F) →
      out.length ≤ T → T < out.length + vals.length →
      (List.enumFrom jstart vals).foldl (moveStep F T mid) (out.enum, out.length)
        = ((out ++ (vals.take (T - out.length) ++ mid :: vals.drop (T - out.length))).enum,
           out.length + vals.length + 1) := by
  intro vals
  induction vals with
  | nil =>
    intro out jstart _ h1 h2
    simp at h2
    omega
  | cons v rest ih =>
    intro out jstart hF hle hlt
    have h0F : jstart ≠ F := by simpa using hF 0 (by simp)
    show ((jstart, v) :: List.enumFrom (jstart + 1) rest).foldl (moveStep F T mid)
        (out.enum, out.length) = _
    rw [List.foldl_cons]
    by_cases hT0 : out.length = T
    · have hstep : moveStep F T mid (out.enum, out.length) (jstart, v)
          = (((out ++ [mid]) ++ [v]).enum, ((out ++ [mid]) ++ [v]).length) := by
        unfold moveStep
        dsimp only
        rw [if_neg h0F, if_pos hT0, mapSet_enum_snoc]
        rw [show out.length + 1 = (out ++ [mid]).length by simp]
        rw [mapSet_enum_snoc]
        simp
      rw [hstep]
      rw [foldl_moveStep_plain F T mid rest ((out ++ [mid]) ++ [v]) (jstart + 1)
        (fun i hi => by have := hF (i + 1) (by simpa using Nat.succ_lt_succ hi); omega)
        (fun i hi => by
          simp only [List.length_append, List.length_cons, List.length_nil]
          omega)]
      have hd0 : T - out.length = 0 := by omega
      rw [hd0]
      simp [List.append_assoc]
      omega
    · have hstep : moveStep F T mid (out.enum, out.length) (jstart, v)
          = ((out ++ [v]).enum, (out ++ [v]).length) := by
        unfold moveStep
        dsimp only
        rw [if_neg h0F, if_neg hT0, mapSet_enum_snoc]
        simp
      rw [hstep]
      have hle2 : (out ++ [v]).length ≤ T := by
        simp only [List.length_append, List.length_cons, List.length_nil]
        omega
      have hlt2 : T < (out ++ [v]).length + rest.length := by
        simp only [List.length_append, List.length_cons, List.length_nil]
        simp only [List.length_cons] at hlt
        omega
      rw [ih (out ++ [v]) (jstart + 1)
        (fun i hi => by have := hF (i + 1) (by simpa using Nat.succ_lt_succ hi); omega)
        hle2 hlt2]
      have hd : T - out.length = (T - (out ++ [v]).length) + 1 := by
        simp only [List.length_append, List.length_cons, List.length_nil]
        omega
      rw [hd]
      simp only [List.take_succ_cons, List.drop_succ_cons, List.length_append,
        List.length_cons, List.length_nil, List.cons_append, List.append_assoc,
        List.nil_append, Prod.mk.injEq]
      constructor
      · trivial
      · omega

theorem moveStep_skip (F T : Nat) (mid : String) (st : List (Nat × String) × Nat)
    (v : String) : moveStep F T mid st (F, v) = st := by
  unfold moveStep
  dsimp only
  rw [if_pos rfl]

theorem moveIds_enum (ids : List String) (F T c : Nat)
    (hF : F < ids.length) (hT : T < ids.length) :
    moveIds ids.enum F T c = ((moveList ids F T "").enum, c) := by
  have hsort : sortByKey ids.enum = ids.enum :=
    sortByKey_of_pairwise _ (by simpa [List.enum] using enumFrom_pairwise ids 0)
  have hget : mapGet ids.enum F = some (ids.getD F "") := mapGet_enum ids F hF
  set mid := ids.getD F "" with hmid
  set A := ids.take F with hA
  set B := ids.drop (F + 1) with hB
  have hAlen : A.length = F := by
    rw [hA, List.length_take]
    omega
  have hdecomp : ids = A ++ mid :: B := by
    rw [hA, hB, hmid, List.getD_eq_getElem ids "" hF]
    conv_lhs => rw [← List.take_append_drop F ids]
    congr 1
    exact (List.getElem_cons_drop ids F hF).symm
  have hn : ids.length = F + B.length + 1 := by
    conv_lhs => rw [hdecomp]
    rw [List.length_append, List.length_cons, hAlen]
    omega
  have henum : ids.enum = A.enum ++ ((F, mid) :: List.enumFrom (F + 1) B) := by
    conv_lhs => rw [hdecomp]
    rw [show (A ++ mid :: B).enum = A.enum ++ List.enumFrom A.length (mid :: B) from
      List.enum_append A (mid :: B), hAlen]
    rfl
  have hmove : moveList ids F T "" = (A ++ B).take T ++ mid :: (A ++ B).drop T := by
    unfold moveList jsSpliceOut jsSpliceIn
    rw [← hA, ← hB, ← hmid]
  simp only [moveIds, hget, hsort]
  rw [henum, List.foldl_append, List.foldl_cons, moveStep_skip]
  rcases Nat.lt_or_ge T F with hTF | hTF
  · -- destination strictly before the source: the moved id is inserted while
    -- replaying the prefix, the suffix is replayed plainly afterwards
    have h1 := foldl_moveStep_seg F T mid A [] 0
      (fun i hi => by rw [hAlen] at hi; omega)
      (by simp)
      (by simpa [hAlen] using hTF)
    simp only [List.enum_nil, List.length_nil, List.nil_append, Nat.sub_zero,
      Nat.zero_add, hAlen] at h1
    rw [show List.enumFrom 0 A = A.enum from rfl] at h1
    have hXlen : (A.take T ++ mid :: A.drop T).length = F + 1 := by
      simp only [List.length_append, List.length_cons, List.length_take,
        List.length_drop, hAlen]
      omega
    have h2 := foldl_moveStep_plain F T mid B (A.take T ++ mid :: A.drop T) (F + 1)
      (fun i hi => by omega)
      (fun i hi => by rw [hXlen]; omega)
    rw [hXlen] at h2
    rw [h1, h2]
    dsimp only
    rw [if_neg (show ¬ T ≥ F + 1 + B.length by omega)]
    rw [hmove]
    have hTF0 : T - F = 0 := by omega
    have hlist : (A.take T ++ mid :: A.drop T) ++ B
        = (A ++ B).take T ++ mid :: (A ++ B).drop T := by
      rw [List.take_append_eq_append_take, List.drop_append_eq_append_drop, hAlen,
        hTF0]
      simp [List.append_assoc]
    rw [hlist]
  · rcases Nat.lt_or_ge T (F + B.length) with hTB | hTB
    · -- destination inside the replayed suffix
      have h1 := foldl_moveStep_plain F T mid A [] 0
        (fun i hi => by rw [hAlen] at hi; omega)
        (fun i hi => by
          rw [hAlen] at hi
          simp only [List.length_nil]
          omega)
      simp only [List.enum_nil, List.length_nil, List.nil_append, Nat.zero_add,
        hAlen] at h1
      rw [show List.enumFrom 0 A = A.enum from rfl] at h1
      have h2 := foldl_moveStep_seg F T mid B A (F + 1)
        (fun i hi => by omega)
        (by rw [hAlen]; omega)
        (by rw [hAlen]; omega)
      rw [hAlen] at h2
      rw [h1, h2]
      dsimp only
      rw [if_neg (show ¬ T ≥ F + B.length + 1 by omega)]
      rw [hmove]
      have hAT : A.length ≤ T := by rw [hAlen]; omega
      have hlist : A ++ (B.take (T - F) ++ mid :: B.drop (T - F))
          = (A ++ B).take T ++ mid :: (A ++ B).drop T := by
        rw [List.take_append_eq_append_take, List.drop_append_eq_append_drop,
          List.take_of_length_le hAT, List.drop_of_length_le hAT, hAlen]
        simp [List.append_assoc]
      rw [hlist]
    · -- destination at or past the end: the loop never reaches it, the moved id
      -- is appended by the final `idMap.set(to, movedId)`
      have h1 := foldl_moveStep_plain F T mid A [] 0
        (fun i hi => by rw [hAlen] at hi; omega)
        (fun i hi => by
          rw [hAlen] at hi
          simp only [List.length_nil]
          omega)
      simp only [List.enum_nil, List.length_nil, List.nil_append, Nat.zero_add,
        hAlen] at h1
      rw [show List.enumFrom 0 A = A.enum from rfl] at h1
      have h2 := foldl_moveStep_plain F T mid B A (F + 1)
        (fun i hi => by omega)
        (fun i hi => by rw [hAlen]; omega)
      rw [hAlen] at h2
      rw [h1, h2]
      dsimp only
      rw [if_pos (show T ≥ F + B.length from hTB)]
      have hTeq : T = (A ++ B).length := by
        rw [List.length_append, hAlen]
        omega
      have hfin : mapSet (A ++ B).enum T mid = ((A ++ B) ++ [mid]).enum := by
        rw [hTeq]
        exact mapSet_enum_snoc (A ++ B) mid
      rw [hfin, hmove]
      have hlist : (A ++ B) ++ [mid] = (A ++ B).take T ++ mid :: (A ++ B).drop T := by
        rw [List.take_of_length_le (Nat.le_of_eq hTeq.symm),
          List.drop_of_length_le (Nat.le_of_eq hTeq.symm)]
      rw [hlist]

theorem fillLoop_enum :
    ∀ (vals out : List String), fillLoop vals out.length out.enum = (out ++ vals).enum := by
  intro vals
  induction vals with
  | nil => intro out; simp [fillLoop]
  | cons s rest ih =>
    intro out
    show fillLoop rest (out.length + 1) (mapSet out.enum out.length s) = _
    rw [mapSet_enum_snoc, show out.length + 1 = (out ++ [s]).length by simp,
      ih (out ++ [s])]
    simp

theorem removeIds_enum (gs : List String) (indices : List Nat) :
    removeIds gs.enum indices = (filterIdx gs indices).enum := by
  have hpair : List.Pairwise (fun a b : Nat × String => a.1 < b.1)
      (gs.enum.filter (fun p => !(indices.contains p.1))) :=
    List.Pairwise.sublist (List.filter_sublist _)
      (by simpa [List.enum] using enumFrom_pairwise gs 0)
  simp only [removeIds]
  rw [sortByKey_of_pairwise _ hpair]
  have h := fillLoop_enum ((gs.enum.filter (fun p => !(indices.contains p.1))).map Prod.snd) []
  simp only [List.enum_nil, List.length_nil, List.nil_append] at h
  rw [h]
  rfl

/-- C6: stable identifiers travel with their elements.  For a dense id
registry over `ids` (one id per index, as `getFieldArray` maintains it),
`move(F, T)` permutes the id map exactly as the value array is permuted
(splice out at `F`, splice in at `T`), leaving the id counter untouched;
and `remove(indices)` keeps exactly the ids of the surviving indices,
renumbered densely from 0 preserving relative order — the same filtering
the value array undergoes. -/
theorem c6_stable_ids_travel (ids gs : List String) (F T c : Nat) (indices : List Nat)
    (hF : F < ids.length) (hT : T < ids.length) :
    moveIds ids.enum F T c = ((moveList ids F T "").enum, c) ∧
    removeIds gs.enum indices = (filterIdx gs indices).enum :=
  ⟨moveIds_enum ids F T c hF hT, removeIds_enum gs indices⟩

/-- Witness for C6: the spec's own examples — `move(0,2)` on ids
`[i1,i2,i3]` yields `[i2,i3,i1]`, `remove(1)` on `[g1,g2,g3]` yields
`[g1,g3]` at indices 0 and 1. -/
theorem c6_stable_ids_travel_witness :
    moveIds (["i1", "i2", "i3"].enum) 0 2 5 = ([(0, "i2"), (1, "i3"), (2, "i1")], 5) ∧
    removeIds (["g1", "g2", "g3"].enum) [1] = [(0, "g1"), (1, "g3")] := by
  have h := c6_stable_ids_travel ["i1", "i2", "i3"] ["g1", "g2", "g3"] 0 2 5 [1]
    (by decide) (by decide)
  exact ⟨h.1.trans (by decide), h.2.trans (by decide)⟩

/-! ## Tagged trees: object identity for structural sharing (C4)

`TJValue` is `JValue` with a numeric tag on every container, modelling the
JS object reference.  Everything that creates a new object in JS — a
`structuredClone`, the `[...a]` / `{...o}` spreads, the fresh `[]` / `{}`
intermediates — draws a fresh tag from a counter threaded through the
computation; property writes mutate the container in place and keep its
tag.  Two containers are "the same object" exactly when their tags agree. -/

inductive TJValue : Type where
  | tUndef : TJValue
  | tNull : TJValue
  | tBool : Bool → TJValue
  | tNum : Int → TJValue
  | tStr : String → TJValue
  | tObj : Nat → List (String × TJValue) → TJValue
  | tArr : Nat → List TJValue → List (String × TJValue) → TJValue

open TJValue

mutual

/-- All container tags occurring in a tagged tree. -/
def tagsJ : TJValue → List Nat
  | tObj t fs => t :: tagsF fs
  | tArr t xs ps => t :: (tagsE xs ++ tagsF ps)
  | _ => []
termination_by structural a => a

def tagsF : List (String × TJValue) → List Nat
  | [] => []
  | (_, v) :: rest => tagsJ v ++ tagsF rest
termination_by structural a => a

def tagsE : List TJValue → List Nat
  | [] => []
  | v :: rest => tagsJ v ++ tagsE rest
termination_by structural a => a

end

mutual

/-- Forget the tags, back to a plain `JValue`. -/
def eraseJ : TJValue → JValue
  | tUndef => vUndef
  | tNull => vNull
  | tBool b => vBool b
  | tNum n => vNum n
  | tStr s => vStr s
  | tObj _ fs => vObj (eraseF fs)
  | tArr _ xs ps => vArr (eraseE xs) (eraseF ps)
termination_by structural a => a

def eraseF : List (String × TJValue) → List (String × JValue)
  | [] => []
  | (k, v) :: rest => (k, eraseJ v) :: eraseF rest
termination_by structural a => a

def eraseE : List TJValue → List JValue
  | [] => []
  | v :: rest => eraseJ v :: eraseE rest
termination_by structural a => a

end

mutual

/-- `structuredClone(obj)`: a deep copy in which every container is a new
object — all tags fresh, drawn in preorder from the counter. -/
def cloneJ : TJValue → Nat → TJValue × Nat
  | tObj _ fs, c =>
    let r := cloneF fs (c + 1)
    (tObj c r.1, r.2)
  | tArr _ xs ps, c =>
    let r1 := cloneE xs (c + 1)
    let r2 := cloneF ps r1.2
    (tArr c r1.1 r2.1, r2.2)
  | v, c => (v, c)
termination_by structural a => a

def cloneF : List (String × TJValue) → Nat → List (String × TJValue) × Nat
  | [], c => ([], c)
  | (k, v) :: rest, c =>
    let r1 := cloneJ v c
    let r2 := cloneF rest r1.2
    ((k, r1.1) :: r2.1, r2.2)
termination_by structural a => a

def cloneE : List TJValue → Nat → List TJValue × Nat
  | [], c => ([], c)
  | v :: rest, c =>
    let r1 := cloneJ v c
    let r2 := cloneE rest r1.2
    (r1.1 :: r2.1, r2.2)
termination_by structural a => a

end

/-- Tagged first-match association lookup. -/
def tAssocGet : List (String × TJValue) → String → Option TJValue
  | [], _ => none
  | (k, v) :: rest, key => if k = key then some v else tAssocGet rest key

/-- Tagged property write on a plain object. -/
def tAssocSet : List (String × TJValue) → String → TJValue → List (String × TJValue)
  | [], key, v => [(key, v)]
  | (k, w) :: rest, key, v =>
    if k = key then (k, v) :: rest else (k, w) :: tAssocSet rest key v

/-- Tagged element write `arr[i] = v`. -/
def tElemsSet (xs : List TJValue) (i : Nat) (v : TJValue) : List TJValue :=
  if i < xs.length then xs.set i v
  else xs ++ List.replicate (i - xs.length) tUndef ++ [v]

/-- Tagged property read `current[key]`. -/
def tjIndex : TJValue → String → TJValue
  | tObj _ fs, key => (tAssocGet fs key).getD tUndef
  | tArr _ xs ps, key =>
    match canonIndex key with
    | some i => xs.getD i tUndef
    | none => (tAssocGet ps key).getD tUndef
  | _, _ => tUndef

/-- Tagged property write `current[key] = v`: an in-place mutation, so the
container keeps its tag. -/
def tjWrite : TJValue → String → TJValue → TJValue
  | tObj t fs, key, v => tObj t (tAssocSet fs key v)
  | tArr t xs ps, key, v =>
    match canonIndex key with
    | some i => tArr t (tElemsSet xs i v) ps
    | none => tArr t xs (tAssocSet ps key v)
  | c, _, _ => c

/-- Tagged `isNextKeyArrayIndex ? [] : {}`: a brand-new container. -/
def freshForT (nextKey : String) (c : Nat) : TJValue × Nat :=
  if isDigitSeg nextKey then (tArr c [] [], c + 1) else (tObj c [], c + 1)

/-- Tagged intermediate-container step of `setByPath`: fresh containers and
the `[...a]` / `{...o}` spreads are new objects (fresh tag), but they share
their children with the original by reference. -/
def stepChildT (child : TJValue) (nextKey : String) (c : Nat) : TJValue × Nat :=
  match child with
  | tUndef => freshForT nextKey c
  | tNull => freshForT nextKey c
  | tObj _ fs => (tObj c fs, c + 1)
  | tArr _ xs _ => (tArr c xs [], c + 1)
  | _ => freshForT nextKey c

/-- Tagged loop of `setByPath` over the split keys. -/
def setKeysGoT : TJValue → List String → TJValue → Nat → TJValue × Nat
  | current, [], _, c => (current, c)
  | current, [key], value, c => (tjWrite current key value, c)
  | current, key :: nextKey :: rest, value, c =>
    let r1 := stepChildT (tjIndex current key) nextKey c
    let r2 := setKeysGoT r1.1 (nextKey :: rest) value r1.2
    (tjWrite current key r2.1, r2.2)

/-- Tagged `setByPath(obj, path, value)`, starting with the
`structuredClone` of the source. -/
def setByPathT (obj : TJValue) (path : String) (value : TJValue) (c : Nat) :
    TJValue × Nat :=
  if path = "" then (value, c)
  else
    let r := cloneJ obj c
    setKeysGoT r.1 (splitDots path) value r.2

/-- Tagged `delete current[lastKey]`. -/
def tAssocRemove : List (String × TJValue) → String → List (String × TJValue)
  | [], _ => []
  | (k, v) :: rest, key => if k = key then rest else (k, v) :: tAssocRemove rest key

def tjDelete : TJValue → String → TJValue
  | tObj t fs, key => tObj t (tAssocRemove fs key)
  | tArr t xs ps, key =>
    match canonIndex key with
    | some i => tArr t (xs.set i tUndef) ps
    | none => tArr t xs (tAssocRemove ps key)
  | c, _ => c

/-- Tagged spread clone used by `deleteByPath` on traversed children. -/
def delCloneT (child : TJValue) (c : Nat) : TJValue × Nat :=
  match child with
  | tNull => (tObj c [], c + 1)
  | tObj _ fs => (tObj c fs, c + 1)
  | tArr _ xs _ => (tArr c xs [], c + 1)
  | v => (v, c)

/-- Tagged loop of `deleteByPath`. -/
def delKeysGoT : TJValue → List String → Nat → TJValue × Nat
  | current, [], c => (current, c)
  | current, [key], c => (tjDelete current key, c)
  | current, key :: nextKey :: rest, c =>
    match tjIndex current key with
    | tUndef =>
      (current, c)
    | tNull =>
      let r1 := delCloneT tNull c
      let r2 := delKeysGoT r1.1 (nextKey :: rest) r1.2
      (tjWrite current key r2.1, r2.2)
    | tObj t fs =>
      let r1 := delCloneT (tObj t fs) c
      let r2 := delKeysGoT r1.1 (nextKey :: rest) r1.2
      (tjWrite current key r2.1, r2.2)
    | tArr t xs ps =>
      let r1 := delCloneT (tArr t xs ps) c
      let r2 := delKeysGoT r1.1 (nextKey :: rest) r1.2
      (tjWrite current key r2.1, r2.2)
    | _ =>
      (current, c)

/-- Tagged `deleteByPath(obj, path)` (`{} as T` on the empty path is a new
object). -/
def deleteByPathT (obj : TJValue) (path : String) (c : Nat) : TJValue × Nat :=
  if path = "" then (tObj c [], c + 1)
  else
    let r := cloneJ obj c
    delKeysGoT r.1 (splitDots path) r.2

/-- The identity (tag) of a value, when it is a container. -/
def tTag : TJValue → Option Nat
  | tObj t _ => some t
  | tArr t _ _ => some t
  | _ => none

mutual

theorem cloneJ_tags_ge : (v : TJValue) → (c : Nat) →
    (∀ t ∈ tagsJ (cloneJ v c).1, c ≤ t) ∧ c ≤ (cloneJ v c).2
  | tUndef, c => ⟨by intro t ht; simp [cloneJ, tagsJ] at ht, Nat.le_refl c⟩
  | tNull, c => ⟨by intro t ht; simp [cloneJ, tagsJ] at ht, Nat.le_refl c⟩
  | tBool _, c => ⟨by intro t ht; simp [cloneJ, tagsJ] at ht, Nat.le_refl c⟩
  | tNum _, c => ⟨by intro t ht; simp [cloneJ, tagsJ] at ht, Nat.le_refl c⟩
  | tStr _, c => ⟨by intro t ht; simp [cloneJ, tagsJ] at ht, Nat.le_refl c⟩
  | tObj _ fs, c => by
    have hf := cloneF_tags_ge fs (c + 1)
    simp only [cloneJ]
    constructor
    · intro t ht
      simp only [tagsJ, List.mem_cons] at ht
      rcases ht with h | h
      · omega
      · exact Nat.le_trans (Nat.le_succ c) (hf.1 t h)
    · exact Nat.le_trans (Nat.le_succ c) hf.2
  | tArr _ xs ps, c => by
    have hx := cloneE_tags_ge xs (c + 1)
    have hp := cloneF_tags_ge ps (cloneE xs (c + 1)).2
    simp only [cloneJ]
    constructor
    · intro t ht
      simp only [tagsJ, List.mem_cons, List.mem_append] at ht
      rcases ht with h | h | h
      · omega
      · exact Nat.le_trans (Nat.le_succ c) (hx.1 t h)
      · exact Nat.le_trans (Nat.le_succ c) (Nat.le_trans hx.2 (hp.1 t h))
    · exact Nat.le_trans (Nat.le_succ c) (Nat.le_trans hx.2 hp.2)

theorem cloneF_tags_ge : (fs : List (String × TJValue)) → (c : Nat) →
    (∀ t ∈ tagsF (cloneF fs c).1, c ≤ t) ∧ c ≤ (cloneF fs c).2
  | [], c => ⟨by intro t ht; simp [cloneF, tagsF] at ht, Nat.le_refl c⟩
  | (k, v) :: rest, c => by
    have h1 := cloneJ_tags_ge v c
    have h2 := cloneF_tags_ge rest (cloneJ v c).2
    simp only [cloneF]
    constructor
    · intro t ht
      simp only [tagsF, List.mem_append] at ht
      rcases ht with h | h
      · exact h1.1 t h
      · exact Nat.le_trans h1.2 (h2.1 t h)
    · exact Nat.le_trans h1.2 h2.2

theorem cloneE_tags_ge : (xs : List TJValue) → (c : Nat) →
    (∀ t ∈ tagsE (cloneE xs c).1, c ≤ t) ∧ c ≤ (cloneE xs c).2
  | [], c => ⟨by intro t ht; simp [cloneE, tagsE] at ht, Nat.le_refl c⟩
  | v :: rest, c => by
    have h1 := cloneJ_tags_ge v c
    have h2 := cloneE_tags_ge rest (cloneJ v c).2
    simp only [cloneE]
    constructor
    · intro t ht
      simp only [tagsE, List.mem_append] at ht
      rcases ht with h | h
      · exact h1.1 t h
      · exact Nat.le_trans h1.2 (h2.1 t h)
    · exact Nat.le_trans h1.2 h2.2

end

theorem mem_tagsF_tAssocGet (fs : List (String × TJValue)) (key : String)
    (v : TJValue) (h : tAssocGet fs key = some v) :
    ∀ t ∈ tagsJ v, t ∈ tagsF fs := by
  induction fs with
  | nil => simp [tAssocGet] at h
  | cons p rest ih =>
    obtain ⟨k, w⟩ := p
    intro t ht
    by_cases hk : k = key
    · rw [tAssocGet, if_pos hk] at h
      injection h with h
      subst h
      simp only [tagsF, List.mem_append]
      exact Or.inl ht
    · rw [tAssocGet, if_neg hk] at h
      simp only [tagsF, List.mem_append]
      exact Or.inr (ih h t ht)

theorem mem_tagsE_getD (xs : List TJValue) :
    ∀ (i t : Nat), t ∈ tagsJ (xs.getD i tUndef) → t ∈ tagsE xs := by
  induction xs with
  | nil =>
    intro i t ht
    rw [show ([] : List TJValue).getD i tUndef = tUndef from by cases i <;> rfl] at ht
    rw [show tagsJ tUndef = [] from rfl] at ht
    exact absurd ht (List.not_mem_nil t)
  | cons x rest ih =>
    intro i t ht
    cases i with
    | zero =>
      simp only [tagsE, List.mem_append]
      exact Or.inl ht
    | succ i =>
      simp only [tagsE, List.mem_append]
      exact Or.inr (ih i t ht)

theorem mem_tagsJ_tjIndex (cur : TJValue) (key : String) :
    ∀ t ∈ tagsJ (tjIndex cur key), t ∈ tagsJ cur := by
  intro t ht
  cases cur with
  | tObj tg fs =>
    rw [tjIndex] at ht
    cases h : tAssocGet fs key with
    | none =>
      rw [h] at ht
      simp [Option.getD, tagsJ] at ht
    | some v =>
      rw [h, Option.getD_some] at ht
      simp only [tagsJ, List.mem_cons]
      exact Or.inr (mem_tagsF_tAssocGet fs key v h t ht)
  | tArr tg xs ps =>
    rw [tjIndex] at ht
    simp only [tagsJ, List.mem_cons, List.mem_append]
    cases hc : canonIndex key with
    | some i =>
      rw [hc] at ht
      exact Or.inr (Or.inl (mem_tagsE_getD xs i t ht))
    | none =>
      rw [hc] at ht
      cases h : tAssocGet ps key with
      | none =>
        rw [h] at ht
        simp [Option.getD, tagsJ] at ht
      | some v =>
        rw [h, Option.getD_some] at ht
        exact Or.inr (Or.inr (mem_tagsF_tAssocGet ps key v h t ht))
  | tUndef => simp [tjIndex, tagsJ] at ht
  | tNull => simp [tjIndex, tagsJ] at ht
  | tBool b => simp [tjIndex, tagsJ] at ht
  | tNum n => simp [tjIndex, tagsJ] at ht
  | tStr s => simp [tjIndex, tagsJ] at ht

theorem mem_tagsF_tAssocSet (fs : List (String × TJValue)) (key : String)
    (v : TJValue) : ∀ t ∈ tagsF (tAssocSet fs key v), t ∈ tagsF fs ∨ t ∈ tagsJ v := by
  induction fs with
  | nil =>
    intro t ht
    simp only [tAssocSet, tagsF, List.append_nil] at ht
    exact Or.inr ht
  | cons p rest ih =>
    obtain ⟨k, w⟩ := p
    intro t ht
    by_cases hk : k = key
    · rw [tAssocSet, if_pos hk] at ht
      simp only [tagsF, List.mem_append] at ht ⊢
      rcases ht with h | h
      · exact Or.inr h
      · exact Or.inl (Or.inr h)
    · rw [tAssocSet, if_neg hk] at ht
      simp only [tagsF, List.mem_append] at ht ⊢
      rcases ht with h | h
      · exact Or.inl (Or.inl h)
      · rcases ih t h with h2 | h2
        · exact Or.inl (Or.inr h2)
        · exact Or.inr h2

theorem mem_tagsE_set (xs : List TJValue) :
    ∀ (i : Nat) (v : TJValue) (t : Nat),
      t ∈ tagsE (xs.set i v) → t ∈ tagsE xs ∨ t ∈ tagsJ v := by
  induction xs with
  | nil => intro i v t ht; simp only [List.set_nil] at ht; exact Or.inl ht
  | cons x rest ih =>
    intro i v t ht
    cases i with
    | zero =>
      simp only [List.set_cons_zero, tagsE, List.mem_append] at ht ⊢
      rcases ht with h | h
      · exact Or.inr h
      · exact Or.inl (Or.inr h)
    | succ i =>
      simp only [List.set_cons_succ, tagsE, List.mem_append] at ht ⊢
      rcases ht with h | h
      · exact Or.inl (Or.inl h)
      · rcases ih i v t h with h2 | h2
        · exact Or.inl (Or.inr h2)
        · exact Or.inr h2

theorem tagsE_append (as bs : List TJValue) :
    tagsE (as ++ bs) = tagsE as ++ tagsE bs := by
  induction as with
  | nil => simp [tagsE]
  | cons x rest ih => simp [tagsE, ih]

theorem tagsE_replicate_undef (n : Nat) : tagsE (List.replicate n tUndef) = [] := by
  induction n with
  | zero => rfl
  | succ n ih => simp [List.replicate, tagsE, ih, show tagsJ tUndef = [] from rfl]

theorem mem_tagsE_tElemsSet (xs : List TJValue) (i : Nat) (v : TJValue) :
    ∀ t ∈ tagsE (tElemsSet xs i v), t ∈ tagsE xs ∨ t ∈ tagsJ v := by
  intro t ht
  rw [tElemsSet] at ht
  split at ht
  · exact mem_tagsE_set xs i v t ht
  · rw [tagsE_append, tagsE_append, tagsE_replicate_undef] at ht
    simp only [List.mem_append, List.not_mem_nil, false_or, tagsE,
      List.append_nil] at ht
    rcases ht with h | h
    · exact Or.inl h
    · exact Or.inr h

theorem mem_tagsJ_tjWrite (cur : TJValue) (key : String) (v : TJValue) :
    ∀ t ∈ tagsJ (tjWrite cur key v), t ∈ tagsJ cur ∨ t ∈ tagsJ v := by
  intro t ht
  cases cur with
  | tObj tg fs =>
    rw [tjWrite] at ht
    simp only [tagsJ, List.mem_cons] at ht ⊢
    rcases ht with h | h
    · exact Or.inl (Or.inl h)
    · rcases mem_tagsF_tAssocSet fs key v t h with h2 | h2
      · exact Or.inl (Or.inr h2)
      · exact Or.inr h2
  | tArr tg xs ps =>
    rw [tjWrite] at ht
    cases hc : canonIndex key with
    | some i =>
      rw [hc] at ht
      simp only [tagsJ, List.mem_cons, List.mem_append] at ht ⊢
      rcases ht with h | h | h
      · exact Or.inl (Or.inl h)
      · rcases mem_tagsE_tElemsSet xs i v t h with h2 | h2
        · exact Or.inl (Or.inr (Or.inl h2))
        · exact Or.inr h2
      · exact Or.inl (Or.inr (Or.inr h))
    | none =>
      rw [hc] at ht
      simp only [tagsJ, List.mem_cons, List.mem_append] at ht ⊢
      rcases ht with h | h | h
      · exact Or.inl (Or.inl h)
      · exact Or.inl (Or.inr (Or.inl h))
      · rcases mem_tagsF_tAssocSet ps key v t h with h2 | h2
        · exact Or.inl (Or.inr (Or.inr h2))
        · exact Or.inr h2
  | tUndef => rw [show tjWrite tUndef key v = tUndef from rfl] at ht; exact Or.inl ht
  | tNull => rw [show tjWrite tNull key v = tNull from rfl] at ht; exact Or.inl ht
  | tBool b => rw [show tjWrite (tBool b) key v = tBool b from rfl] at ht; exact Or.inl ht
  | tNum n => rw [show tjWrite (tNum n) key v = tNum n from rfl] at ht; exact Or.inl ht
  | tStr s => rw [show tjWrite (tStr s) key v = tStr s from rfl] at ht; exact Or.inl ht

theorem stepChildT_cases (child : TJValue) (nk : String) (c : Nat) :
    (∀ t ∈ tagsJ (stepChildT child nk c).1, c ≤ t ∨ t ∈ tagsJ child) ∧
    c ≤ (stepChildT child nk c).2 := by
  have hfresh : (∀ t ∈ tagsJ (freshForT nk c).1, c ≤ t ∨ False) ∧
      c ≤ (freshForT nk c).2 := by
    rw [freshForT]
    split
    · constructor
      · intro t ht
        rw [show tagsJ (tArr c [] []) = [c] from rfl] at ht
        simp only [List.mem_singleton] at ht
        exact Or.inl (Nat.le_of_eq ht.symm)
      · exact Nat.le_succ c
    · constructor
      · intro t ht
        rw [show tagsJ (tObj c []) = [c] from rfl] at ht
        simp only [List.mem_singleton] at ht
        exact Or.inl (Nat.le_of_eq ht.symm)
      · exact Nat.le_succ c
  cases child with
  | tObj tg fs =>
    rw [show stepChildT (tObj tg fs) nk c = (tObj c fs, c + 1) from rfl]
    constructor
    · intro t ht
      rw [show tagsJ (tObj c fs) = c :: tagsF fs from rfl] at ht
      simp only [List.mem_cons] at ht
      rcases ht with h | h
      · exact Or.inl (Nat.le_of_eq h.symm)
      · exact Or.inr (by simp only [tagsJ, List.mem_cons]; exact Or.inr h)
    · exact Nat.le_succ c
  | tArr tg xs ps =>
    rw [show stepChildT (tArr tg xs ps) nk c = (tArr c xs [], c + 1) from rfl]
    constructor
    · intro t ht
      rw [show tagsJ (tArr c xs []) = c :: (tagsE xs ++ tagsF []) from rfl] at ht
      simp only [tagsF, List.append_nil, List.mem_cons] at ht
      rcases ht with h | h
      · exact Or.inl (Nat.le_of_eq h.symm)
      · exact Or.inr (by
          simp only [tagsJ, List.mem_cons, List.mem_append]
          exact Or.inr (Or.inl h))
    · exact Nat.le_succ c
  | tUndef =>
    refine ⟨fun t ht => ?_, hfresh.2⟩
    rcases hfresh.1 t ht with h | h
    · exact Or.inl h
    · exact absurd h not_false
  | tNull =>
    refine ⟨fun t ht => ?_, hfresh.2⟩
    rcases hfresh.1 t ht with h | h
    · exact Or.inl h
    · exact absurd h not_false
  | tBool b =>
    refine ⟨fun t ht => ?_, hfresh.2⟩
    rcases hfresh.1 t ht with h | h
    · exact Or.inl h
    · exact absurd h not_false
  | tNum n =>
    refine ⟨fun t ht => ?_, hfresh.2⟩
    rcases hfresh.1 t ht with h | h
    · exact Or.inl h
    · exact absurd h not_false
  | tStr s =>
    refine ⟨fun t ht => ?_, hfresh.2⟩
    rcases hfresh.1 t ht with h | h
    · exact Or.inl h
    · exact absurd h not_false

theorem setKeysGoT_tags : (keys : List String) →
    ∀ (current value : TJValue) (c0 c : Nat),
      (∀ t ∈ tagsJ current, c ≤ t) → c ≤ c0 →
      (∀ t ∈ tagsJ (setKeysGoT current keys value c0).1, c ≤ t ∨ t ∈ tagsJ value) ∧
      c ≤ (setKeysGoT current keys value c0).2
  | [] => by
    intro current value c0 c hcur hc
    exact ⟨fun t ht => Or.inl (hcur t ht), hc⟩
  | [key] => by
    intro current value c0 c hcur hc
    refine ⟨fun t ht => ?_, hc⟩
    rw [show setKeysGoT current [key] value c0 = (tjWrite current key value, c0)
      from rfl] at ht
    rcases mem_tagsJ_tjWrite current key value t ht with h | h
    · exact Or.inl (hcur t h)
    · exact Or.inr h
  | key :: nextKey :: rest => by
    intro current value c0 c hcur hc
    have hstep := stepChildT_cases (tjIndex current key) nextKey c0
    have hchild : ∀ t ∈ tagsJ (stepChildT (tjIndex current key) nextKey c0).1,
        c ≤ t := by
      intro t ht
      rcases hstep.1 t ht with h | h
      · omega
      · exact hcur t (mem_tagsJ_tjIndex current key t h)
    have hrec := setKeysGoT_tags (nextKey :: rest)
      (stepChildT (tjIndex current key) nextKey c0).1 value
      (stepChildT (tjIndex current key) nextKey c0).2 c hchild
      (Nat.le_trans hc hstep.2)
    constructor
    · intro t ht
      simp only [setKeysGoT] at ht
      rcases mem_tagsJ_tjWrite current key _ t ht with h | h
      · exact Or.inl (hcur t h)
      · exact hrec.1 t h
    · simp only [setKeysGoT]
      exact hrec.2

theorem setByPathT_tags (T : TJValue) (p : String) (v : TJValue) (c : Nat) :
    ∀ t ∈ tagsJ (setByPathT T p v c).1, c ≤ t ∨ t ∈ tagsJ v := by
  intro t ht
  rw [setByPathT] at ht
  split at ht
  · exact Or.inr ht
  · simp only at ht
    have hclone := cloneJ_tags_ge T c
    exact (setKeysGoT_tags (splitDots p) (cloneJ T c).1 v (cloneJ T c).2 c
      hclone.1 hclone.2).1 t ht

theorem mem_tagsF_tAssocRemove (fs : List (String × TJValue)) (key : String) :
    ∀ t ∈ tagsF (tAssocRemove fs key), t ∈ tagsF fs := by
  induction fs with
  | nil => intro t ht; simp [tAssocRemove] at ht; exact absurd ht (by simp [tagsF])
  | cons p rest ih =>
    obtain ⟨k, w⟩ := p
    intro t ht
    by_cases hk : k = key
    · rw [tAssocRemove, if_pos hk] at ht
      simp only [tagsF, List.mem_append]
      exact Or.inr ht
    · rw [tAssocRemove, if_neg hk] at ht
      simp only [tagsF, List.mem_append] at ht ⊢
      rcases ht with h | h
      · exact Or.inl h
      · exact Or.inr (ih t h)

theorem mem_tagsJ_tjDelete (cur : TJValue) (key : String) :
    ∀ t ∈ tagsJ (tjDelete cur key), t ∈ tagsJ cur := by
  intro t ht
  cases cur with
  | tObj tg fs =>
    rw [tjDelete] at ht
    simp only [tagsJ, List.mem_cons] at ht ⊢
    rcases ht with h | h
    · exact Or.inl h
    · exact Or.inr (mem_tagsF_tAssocRemove fs key t h)
  | tArr tg xs ps =>
    rw [tjDelete] at ht
    cases hc : canonIndex key with
    | some i =>
      rw [hc] at ht
      simp only [tagsJ, List.mem_cons, List.mem_append] at ht ⊢
      rcases ht with h | h | h
      · exact Or.inl h
      · rcases mem_tagsE_set xs i tUndef t h with h2 | h2
        · exact Or.inr (Or.inl h2)
        · rw [show tagsJ tUndef = [] from rfl] at h2
          exact absurd h2 (List.not_mem_nil t)
      · exact Or.inr (Or.inr h)
    | none =>
      rw [hc] at ht
      simp only [tagsJ, List.mem_cons, List.mem_append] at ht ⊢
      rcases ht with h | h | h
      · exact Or.inl h
      · exact Or.inr (Or.inl h)
      · exact Or.inr (Or.inr (mem_tagsF_tAssocRemove ps key t h))
  | tUndef => rw [show tjDelete tUndef key = tUndef from rfl] at ht; exact ht
  | tNull => rw [show tjDelete tNull key = tNull from rfl] at ht; exact ht
  | tBool b => rw [show tjDelete (tBool b) key = tBool b from rfl] at ht; exact ht
  | tNum n => rw [show tjDelete (tNum n) key = tNum n from rfl] at ht; exact ht
  | tStr s => rw [show tjDelete (tStr s) key = tStr s from rfl] at ht; exact ht

theorem delCloneT_cases (child : TJValue) (c : Nat) :
    (∀ t ∈ tagsJ (delCloneT child c).1, c ≤ t ∨ t ∈ tagsJ child) ∧
    c ≤ (delCloneT child c).2 := by
  cases child with
  | tNull =>
    rw [show delCloneT tNull c = (tObj c [], c + 1) from rfl]
    refine ⟨fun t ht => ?_, Nat.le_succ c⟩
    rw [show tagsJ (tObj c []) = [c] from rfl] at ht
    simp only [List.mem_singleton] at ht
    exact Or.inl (Nat.le_of_eq ht.symm)
  | tObj tg fs =>
    rw [show delCloneT (tObj tg fs) c = (tObj c fs, c + 1) from rfl]
    refine ⟨fun t ht => ?_, Nat.le_succ c⟩
    rw [show tagsJ (tObj c fs) = c :: tagsF fs from rfl] at ht
    simp only [List.mem_cons] at ht
    rcases ht with h | h
    · exact Or.inl (Nat.le_of_eq h.symm)
    · exact Or.inr (by simp only [tagsJ, List.mem_cons]; exact Or.inr h)
  | tArr tg xs ps =>
    rw [show delCloneT (tArr tg xs ps) c = (tArr c xs [], c + 1) from rfl]
    refine ⟨fun t ht => ?_, Nat.le_succ c⟩
    rw [show tagsJ (tArr c xs []) = c :: (tagsE xs ++ tagsF []) from rfl] at ht
    simp only [tagsF, List.append_nil, List.mem_cons] at ht
    rcases ht with h | h
    · exact Or.inl (Nat.le_of_eq h.symm)
    · exact Or.inr (by
        simp only [tagsJ, List.mem_cons, List.mem_append]
        exact Or.inr (Or.inl h))
  | tUndef =>
    exact ⟨fun t ht => Or.inr ht, Nat.le_refl c⟩
  | tBool b =>
    exact ⟨fun t ht => Or.inr ht, Nat.le_refl c⟩
  | tNum n =>
    exact ⟨fun t ht => Or.inr ht, Nat.le_refl c⟩
  | tStr s =>
    exact ⟨fun t ht => Or.inr ht, Nat.le_refl c⟩

theorem delKeysGoT_tags : (keys : List String) →
    ∀ (current : TJValue) (c0 c : Nat),
      (∀ t ∈ tagsJ current, c ≤ t) → c ≤ c0 →
      (∀ t ∈ tagsJ (delKeysGoT current keys c0).1, c ≤ t) ∧
      c ≤ (delKeysGoT current keys c0).2
  | [] => by
    intro current c0 c hcur hc
    exact ⟨hcur, hc⟩
  | [key] => by
    intro current c0 c hcur hc
    refine ⟨fun t ht => ?_, hc⟩
    rw [show delKeysGoT current [key] c0 = (tjDelete current key, c0) from rfl] at ht
    exact hcur t (mem_tagsJ_tjDelete current key t ht)
  | key :: nextKey :: rest => by
    intro current c0 c hcur hc
    have hidx : ∀ t ∈ tagsJ (tjIndex current key), c ≤ t :=
      fun t ht => hcur t (mem_tagsJ_tjIndex current key t ht)
    show (∀ t ∈ tagsJ (delKeysGoT current (key :: nextKey :: rest) c0).1, c ≤ t) ∧
      c ≤ (delKeysGoT current (key :: nextKey :: rest) c0).2
    rw [delKeysGoT]
    cases hidxv : tjIndex current key with
    | tUndef => exact ⟨hcur, hc⟩
    | tNull =>
      have hstep := delCloneT_cases tNull c0
      have hchild : ∀ t ∈ tagsJ (delCloneT tNull c0).1, c ≤ t := by
        intro t ht
        rcases hstep.1 t ht with h | h
        · omega
        · rw [show tagsJ tNull = [] from rfl] at h
          exact absurd h (List.not_mem_nil t)
      have hrec := delKeysGoT_tags (nextKey :: rest) (delCloneT tNull c0).1
        (delCloneT tNull c0).2 c hchild (Nat.le_trans hc hstep.2)
      refine ⟨fun t ht => ?_, hrec.2⟩
      rcases mem_tagsJ_tjWrite current key _ t ht with h | h
      · exact hcur t h
      · exact hrec.1 t h
    | tObj tg fs =>
      have hstep := delCloneT_cases (tObj tg fs) c0
      have hchild : ∀ t ∈ tagsJ (delCloneT (tObj tg fs) c0).1, c ≤ t := by
        intro t ht
        rcases hstep.1 t ht with h | h
        · omega
        · rw [← hidxv] at h
          exact hidx t h
      have hrec := delKeysGoT_tags (nextKey :: rest) (delCloneT (tObj tg fs) c0).1
        (delCloneT (tObj tg fs) c0).2 c hchild (Nat.le_trans hc hstep.2)
      refine ⟨fun t ht => ?_, hrec.2⟩
      rcases mem_tagsJ_tjWrite current key _ t ht with h | h
      · exact hcur t h
      · exact hrec.1 t h
    | tArr tg xs ps =>
      have hstep := delCloneT_cases (tArr tg xs ps) c0
      have hchild : ∀ t ∈ tagsJ (delCloneT (tArr tg xs ps) c0).1, c ≤ t := by
        intro t ht
        rcases hstep.1 t ht with h | h
        · omega
        · rw [← hidxv] at h
          exact hidx t h
      have hrec := delKeysGoT_tags (nextKey :: rest) (delCloneT (tArr tg xs ps) c0).1
        (delCloneT (tArr tg xs ps) c0).2 c hchild (Nat.le_trans hc hstep.2)
      refine ⟨fun t ht => ?_, hrec.2⟩
      rcases mem_tagsJ_tjWrite current key _ t ht with h | h
      · exact hcur t h
      · exact hrec.1 t h
    | tBool b => exact ⟨hcur, hc⟩
    | tNum n => exact ⟨hcur, hc⟩
    | tStr s => exact ⟨hcur, hc⟩

theorem deleteByPathT_tags (T : TJValue) (p : String) (c : Nat) :
    ∀ t ∈ tagsJ (deleteByPathT T p c).1, c ≤ t := by
  intro t ht
  rw [deleteByPathT] at ht
  split at ht
  · rw [show tagsJ (tObj c []) = [c] from rfl] at ht
    simp only [List.mem_singleton] at ht
    exact Nat.le_of_eq ht.symm
  · simp only at ht
    have hclone := cloneJ_tags_ge T c
    exact (delKeysGoT_tags (splitDots p) (cloneJ T c).1 (cloneJ T c).2 c
      hclone.1 hclone.2).1 t ht

mutual

theorem erase_cloneJ : (v : TJValue) → (c : Nat) → eraseJ (cloneJ v c).1 = eraseJ v
  | tUndef, _ => rfl
  | tNull, _ => rfl
  | tBool _, _ => rfl
  | tNum _, _ => rfl
  | tStr _, _ => rfl
  | tObj _ fs, c => by
    simp only [cloneJ, eraseJ]
    rw [erase_cloneF fs (c + 1)]
  | tArr _ xs ps, c => by
    simp only [cloneJ, eraseJ]
    rw [erase_cloneE xs (c + 1), erase_cloneF ps (cloneE xs (c + 1)).2]

theorem erase_cloneF : (fs : List (String × TJValue)) → (c : Nat) →
    eraseF (cloneF fs c).1 = eraseF fs
  | [], _ => rfl
  | (k, v) :: rest, c => by
    simp only [cloneF, eraseF]
    rw [erase_cloneJ v c, erase_cloneF rest (cloneJ v c).2]

theorem erase_cloneE : (xs : List TJValue) → (c : Nat) →
    eraseE (cloneE xs c).1 = eraseE xs
  | [], _ => rfl
  | v :: rest, c => by
    simp only [cloneE, eraseE]
    rw [erase_cloneJ v c, erase_cloneE rest (cloneJ v c).2]

end

theorem tAssocGet_erase (fs : List (String × TJValue)) (key : String) :
    assocGet (eraseF fs) key = Option.map eraseJ (tAssocGet fs key) := by
  induction fs with
  | nil => rfl
  | cons p rest ih =>
    obtain ⟨k, v⟩ := p
    by_cases hk : k = key
    · rw [show eraseF ((k, v) :: rest) = (k, eraseJ v) :: eraseF rest from rfl,
        assocGet, if_pos hk, tAssocGet, if_pos hk]
      rfl
    · rw [show eraseF ((k, v) :: rest) = (k, eraseJ v) :: eraseF rest from rfl,
        assocGet, if_neg hk, tAssocGet, if_neg hk]
      exact ih

theorem getD_eraseE (xs : List TJValue) :
    ∀ (i : Nat), (eraseE xs).getD i vUndef = eraseJ (xs.getD i tUndef) := by
  induction xs with
  | nil => intro i; cases i <;> rfl
  | cons x rest ih =>
    intro i
    cases i with
    | zero => rfl
    | succ i =>
      rw [show eraseE (x :: rest) = eraseJ x :: eraseE rest from rfl,
        List.getD_cons_succ, List.getD_cons_succ]
      exact ih i

theorem erase_tjIndex (cur : TJValue) (key : String) :
    eraseJ (tjIndex cur key) = jIndex (eraseJ cur) key := by
  cases cur with
  | tObj tg fs =>
    rw [tjIndex, show eraseJ (tObj tg fs) = vObj (eraseF fs) from rfl, jIndex,
      tAssocGet_erase fs key]
    cases tAssocGet fs key <;> rfl
  | tArr tg xs ps =>
    rw [tjIndex, show eraseJ (tArr tg xs ps) = vArr (eraseE xs) (eraseF ps) from rfl,
      jIndex]
    cases canonIndex key with
    | some i =>
      show eraseJ (xs.getD i tUndef) = (eraseE xs).getD i vUndef
      exact (getD_eraseE xs i).symm
    | none =>
      show eraseJ ((tAssocGet ps key).getD tUndef)
        = (assocGet (eraseF ps) key).getD vUndef
      rw [tAssocGet_erase ps key]
      cases tAssocGet ps key <;> rfl
  | tUndef => rfl
  | tNull => rfl
  | tBool b => rfl
  | tNum n => rfl
  | tStr s => rfl

theorem tAssocSet_erase (fs : List (String × TJValue)) (key : String) (v : TJValue) :
    eraseF (tAssocSet fs key v) = assocSet (eraseF fs) key (eraseJ v) := by
  induction fs with
  | nil => rfl
  | cons p rest ih =>
    obtain ⟨k, w⟩ := p
    by_cases hk : k = key
    · rw [tAssocSet, if_pos hk,
        show eraseF ((k, w) :: rest) = (k, eraseJ w) :: eraseF rest from rfl,
        assocSet, if_pos hk]
      rfl
    · rw [tAssocSet, if_neg hk,
        show eraseF ((k, w) :: rest) = (k, eraseJ w) :: eraseF rest from rfl,
        assocSet, if_neg hk,
        show eraseF ((k, w) :: tAssocSet rest key v)
          = (k, eraseJ w) :: eraseF (tAssocSet rest key v) from rfl, ih]

theorem eraseE_length (xs : List TJValue) : (eraseE xs).length = xs.length := by
  induction xs with
  | nil => rfl
  | cons x rest ih =>
    rw [show eraseE (x :: rest) = eraseJ x :: eraseE rest from rfl]
    simp [ih]

theorem eraseE_set (xs : List TJValue) :
    ∀ (i : Nat) (v : TJValue), eraseE (xs.set i v) = (eraseE xs).set i (eraseJ v) := by
  induction xs with
  | nil => intro i v; cases i <;> rfl
  | cons x rest ih =>
    intro i v
    cases i with
    | zero => rfl
    | succ i =>
      rw [List.set_cons_succ,
        show eraseE (x :: rest.set i v) = eraseJ x :: eraseE (rest.set i v) from rfl,
        show eraseE (x :: rest) = eraseJ x :: eraseE rest from rfl,
        List.set_cons_succ, ih i v]

theorem eraseE_append (as bs : List TJValue) :
    eraseE (as ++ bs) = eraseE as ++ eraseE bs := by
  induction as with
  | nil => rfl
  | cons x rest ih =>
    rw [List.cons_append,
      show eraseE (x :: (rest ++ bs)) = eraseJ x :: eraseE (rest ++ bs) from rfl, ih]
    rfl

theorem eraseE_replicate (n : Nat) :
    eraseE (List.replicate n tUndef) = List.replicate n vUndef := by
  induction n with
  | zero => rfl
  | succ n ih =>
    rw [List.replicate_succ, List.replicate_succ,
      show eraseE (tUndef :: List.replicate n tUndef)
        = vUndef :: eraseE (List.replicate n tUndef) from rfl, ih]

theorem erase_tElemsSet (xs : List TJValue) (i : Nat) (v : TJValue) :
    eraseE (tElemsSet xs i v) = elemsSet (eraseE xs) i (eraseJ v) := by
  rw [tElemsSet, elemsSet, eraseE_length]
  split
  · exact eraseE_set xs i v
  · rw [eraseE_append, eraseE_append, eraseE_replicate]
    rfl

theorem erase_tjWrite (cur : TJValue) (key : String) (v : TJValue) :
    eraseJ (tjWrite cur key v) = jWrite (eraseJ cur) key (eraseJ v) := by
  cases cur with
  | tObj tg fs =>
    rw [tjWrite, show eraseJ (tObj tg fs) = vObj (eraseF fs) from rfl, jWrite,
      show eraseJ (tObj tg (tAssocSet fs key v)) = vObj (eraseF (tAssocSet fs key v))
        from rfl, tAssocSet_erase]
  | tArr tg xs ps =>
    rw [tjWrite, show eraseJ (tArr tg xs ps) = vArr (eraseE xs) (eraseF ps) from rfl,
      jWrite]
    cases canonIndex key with
    | some i =>
      rw [show eraseJ (tArr tg (tElemsSet xs i v) ps)
        = vArr (eraseE (tElemsSet xs i v)) (eraseF ps) from rfl, erase_tElemsSet]
    | none =>
      rw [show eraseJ (tArr tg xs (tAssocSet ps key v))
        = vArr (eraseE xs) (eraseF (tAssocSet ps key v)) from rfl, tAssocSet_erase]
  | tUndef => rfl
  | tNull => rfl
  | tBool b => rfl
  | tNum n => rfl
  | tStr s => rfl

theorem erase_freshForT (nk : String) (c : Nat) :
    eraseJ (freshForT nk c).1 = freshFor nk := by
  rw [freshForT, freshFor]
  split <;> rfl

theorem erase_stepChildT (child : TJValue) (nk : String) (c : Nat) :
    eraseJ (stepChildT child nk c).1 = stepChild (eraseJ child) nk := by
  cases child with
  | tObj tg fs => rfl
  | tArr tg xs ps => rfl
  | tUndef => exact erase_freshForT nk c
  | tNull => exact erase_freshForT nk c
  | tBool b => exact erase_freshForT nk c
  | tNum n => exact erase_freshForT nk c
  | tStr s => exact erase_freshForT nk c

theorem erase_setKeysGoT : (keys : List String) →
    ∀ (current value : TJValue) (c : Nat),
      eraseJ (setKeysGoT current keys value c).1
        = setKeysGo (eraseJ current) keys (eraseJ value)
  | [] => by intro current value c; rfl
  | [key] => by
    intro current value c
    rw [show (setKeysGoT current [key] value c).1 = tjWrite current key value
      from rfl, setKeysGo, erase_tjWrite]
  | key :: nextKey :: rest => by
    intro current value c
    show eraseJ (tjWrite current key
        (setKeysGoT (stepChildT (tjIndex current key) nextKey c).1 (nextKey :: rest)
          value (stepChildT (tjIndex current key) nextKey c).2).1)
      = setKeysGo (eraseJ current) (key :: nextKey :: rest) (eraseJ value)
    rw [setKeysGo, erase_tjWrite,
      erase_setKeysGoT (nextKey :: rest)
        (stepChildT (tjIndex current key) nextKey c).1 value
        (stepChildT (tjIndex current key) nextKey c).2,
      erase_stepChildT, erase_tjIndex]

theorem erase_setByPathT (T : TJValue) (p : String) (v : TJValue) (c : Nat) :
    eraseJ (setByPathT T p v c).1 = setByPath (eraseJ T) p (eraseJ v) := by
  rw [setByPathT, setByPath]
  split
  · rfl
  · simp only
    rw [erase_setKeysGoT (splitDots p) (cloneJ T c).1 v (cloneJ T c).2,
      erase_cloneJ T c]

theorem tAssocRemove_erase (fs : List (String × TJValue)) (key : String) :
    eraseF (tAssocRemove fs key) = assocRemove (eraseF fs) key := by
  induction fs with
  | nil => rfl
  | cons p rest ih =>
    obtain ⟨k, w⟩ := p
    by_cases hk : k = key
    · rw [tAssocRemove, if_pos hk,
        show eraseF ((k, w) :: rest) = (k, eraseJ w) :: eraseF rest from rfl,
        assocRemove, if_pos hk]
    · rw [tAssocRemove, if_neg hk,
        show eraseF ((k, w) :: rest) = (k, eraseJ w) :: eraseF rest from rfl,
        assocRemove, if_neg hk,
        show eraseF ((k, w) :: tAssocRemove rest key)
          = (k, eraseJ w) :: eraseF (tAssocRemove rest key) from rfl, ih]

theorem erase_tjDelete (cur : TJValue) (key : String) :
    eraseJ (tjDelete cur key) = jDelete (eraseJ cur) key := by
  cases cur with
  | tObj tg fs =>
    rw [tjDelete, show eraseJ (tObj tg fs) = vObj (eraseF fs) from rfl, jDelete,
      show eraseJ (tObj tg (tAssocRemove fs key)) = vObj (eraseF (tAssocRemove fs key))
        from rfl, tAssocRemove_erase]
  | tArr tg xs ps =>
    rw [tjDelete, show eraseJ (tArr tg xs ps) = vArr (eraseE xs) (eraseF ps) from rfl,
      jDelete]
    cases canonIndex key with
    | some i =>
      rw [show eraseJ (tArr tg (xs.set i tUndef) ps)
        = vArr (eraseE (xs.set i tUndef)) (eraseF ps) from rfl, eraseE_set]
      rfl
    | none =>
      rw [show eraseJ (tArr tg xs (tAssocRemove ps key))
        = vArr (eraseE xs) (eraseF (tAssocRemove ps key)) from rfl, tAssocRemove_erase]
  | tUndef => rfl
  | tNull => rfl
  | tBool b => rfl
  | tNum n => rfl
  | tStr s => rfl

theorem erase_delCloneT (child : TJValue) (c : Nat) :
    eraseJ (delCloneT child c).1 = delClone (eraseJ child) := by
  cases child <;> rfl

theorem erase_delKeysGoT : (keys : List String) →
    ∀ (current : TJValue) (c : Nat),
      eraseJ (delKeysGoT current keys c).1 = delKeysGo (eraseJ current) keys
  | [] => by intro current c; rfl
  | [key] => by
    intro current c
    rw [show (delKeysGoT current [key] c).1 = tjDelete current key from rfl,
      delKeysGo, erase_tjDelete]
  | key :: nextKey :: rest => by
    intro current c
    have hidx := erase_tjIndex current key
    rw [delKeysGoT, delKeysGo, ← hidx]
    cases hv : tjIndex current key with
    | tUndef => rfl
    | tNull =>
      show eraseJ (tjWrite current key
          (delKeysGoT (delCloneT tNull c).1 (nextKey :: rest) (delCloneT tNull c).2).1)
        = _
      rw [erase_tjWrite,
        erase_delKeysGoT (nextKey :: rest) (delCloneT tNull c).1 (delCloneT tNull c).2,
        erase_delCloneT]
      rfl
    | tObj tg fs =>
      show eraseJ (tjWrite current key
          (delKeysGoT (delCloneT (tObj tg fs) c).1 (nextKey :: rest)
            (delCloneT (tObj tg fs) c).2).1)
        = _
      rw [erase_tjWrite,
        erase_delKeysGoT (nextKey :: rest) (delCloneT (tObj tg fs) c).1
          (delCloneT (tObj tg fs) c).2,
        erase_delCloneT]
      rfl
    | tArr tg xs ps =>
      show eraseJ (tjWrite current key
          (delKeysGoT (delCloneT (tArr tg xs ps) c).1 (nextKey :: rest)
            (delCloneT (tArr tg xs ps) c).2).1)
        = _
      rw [erase_tjWrite,
        erase_delKeysGoT (nextKey :: rest) (delCloneT (tArr tg xs ps) c).1
          (delCloneT (tArr tg xs ps) c).2,
        erase_delCloneT]
      rfl
    | tBool b => rfl
    | tNum n => rfl
    | tStr s => rfl

theorem erase_deleteByPathT (T : TJValue) (p : String) (c : Nat) :
    eraseJ (deleteByPathT T p c).1 = deleteByPath (eraseJ T) p := by
  rw [deleteByPathT, deleteByPath]
  split
  · rfl
  · simp only
    rw [erase_delKeysGoT (splitDots p) (cloneJ T c).1 (cloneJ T c).2, erase_cloneJ T c]

/-- C4 counterexample: structural sharing fails.  On the input
`T = {a: {x: 1}, b: {y: 2}}` (root tag 0, branch tags 1 and 2),
`setByPath(T, "a.x", 9)` returns a tree whose untouched branch `b` is
value-equal to the input's branch `b` but is a *different object* (a fresh
tag, not 2): the leading `structuredClone(obj)` deep-copies the whole tree,
so no branch of the input — on the path or off it — keeps its reference
identity in the result. -/
theorem c4_structural_sharing_counterexample :
    eraseJ (tjIndex (setByPathT
        (tObj 0 [("a", tObj 1 [("x", tNum 1)]), ("b", tObj 2 [("y", tNum 2)])])
        "a.x" (tNum 9) 3).1 "b")
      = eraseJ (tjIndex
          (tObj 0 [("a", tObj 1 [("x", tNum 1)]), ("b", tObj 2 [("y", tNum 2)])]) "b") ∧
    tTag (tjIndex (setByPathT
        (tObj 0 [("a", tObj 1 [("x", tNum 1)]), ("b", tObj 2 [("y", tNum 2)])])
        "a.x" (tNum 9) 3).1 "b")
      ≠ tTag (tjIndex
          (tObj 0 [("a", tObj 1 [("x", tNum 1)]), ("b", tObj 2 [("y", tNum 2)])]) "b") :=
  ⟨rfl, by decide⟩

/-- C4 (amended): `setByPath` and `deleteByPath` never mutate their input —
they operate on a `structuredClone` — and compute the correct value tree
(the tagged run erases to the untagged functions).  But they do NOT share
any structure with the input: when the clone counter `c` is fresh, every
container of the result carries a tag `≥ c` (a new object) or comes from
the inserted value; no container of the input tree is reused, so off-path
branches lose their reference identity. -/
theorem c4_deep_copy_no_sharing (T : TJValue) (p : String) (v : TJValue) (c : Nat) :
    eraseJ (setByPathT T p v c).1 = setByPath (eraseJ T) p (eraseJ v) ∧
    ((tagsJ (setByPathT T p v c).1).all
      (fun t => decide (c ≤ t) || decide (t ∈ tagsJ v))) = true ∧
    eraseJ (deleteByPathT T p c).1 = deleteByPath (eraseJ T) p ∧
    ((tagsJ (deleteByPathT T p c).1).all (fun t => decide (c ≤ t))) = true := by
  refine ⟨erase_setByPathT T p v c, ?_, erase_deleteByPathT T p c, ?_⟩
  · rw [List.all_eq_true]
    intro t ht
    rcases setByPathT_tags T p v c t ht with h | h
    · simp [h]
    · simp [h]
  · rw [List.all_eq_true]
    intro t ht
    simp [deleteByPathT_tags T p c t ht]

/-! ## Error list / error tree conversions (`errors.ts`, C5) -/

/-- A `ValidationError` entry: `{path, message, type?}`. -/
structure VErr where
  path : String
  message : String
  etype : Option String
deriving DecidableEq

/-- An optional string property value (`type?: string`). -/
def optJ : Option String → JValue
  | none => vUndef
  | some s => vStr s

/-- The `FieldError` node `{message: ..., type: ...}` built by
`validationErrorsToFormErrors`. -/
def feJ (m : String) (t : Option String) : JValue :=
  vObj [("message", vStr m), ("type", optJ t)]

/-- `validationErrorsToFormErrors(errors)`: fold of `setByPath` over the
entries, starting from `{}`. -/
def validationErrorsToFormErrors (L : List VErr) : JValue :=
  L.foldl (fun result e => setByPath result e.path (feJ e.message e.etype)) (vObj [])

/-- `value.type` as read when pushing a leaf (`type: (value as FieldError).type`;
a string stays, anything else reads as absent). -/
def typeRead (v : JValue) : Option String :=
  match jIndex v "type" with
  | vStr t => some t
  | _ => none

mutual

/-- One `[key, value]` entry of the `formErrorsToValidationErrors` loop:
skipped unless the value is a truthy object; a value whose `.message` is a
string is pushed as a leaf; otherwise the walk recurses. -/
def toListEntry : JValue → String → List VErr
  | vObj fs, path =>
    match assocGet fs "message" with
    | some (vStr m) => [⟨path, m, typeRead (vObj fs)⟩]
    | _ => toListFields fs path
  | vArr xs ps, path =>
    match assocGet ps "message" with
    | some (vStr m) => [⟨path, m, typeRead (vArr xs ps)⟩]
    | _ => toListIdx xs 0 path ++ toListFields ps path
  | _, _ => []
termination_by structural a => a

/-- `Object.entries` walk over a plain object's fields. -/
def toListFields : List (String × JValue) → String → List VErr
  | [], _ => []
  | (k, v) :: rest, pre => toListEntry v (pathJoin pre k) ++ toListFields rest pre
termination_by structural a => a

/-- `Object.entries` walk over an array's index entries (index `i` appears
as the key `String(i)`). -/
def toListIdx : List JValue → Nat → String → List VErr
  | [], _, _ => []
  | v :: rest, i, pre => toListEntry v (pathJoin pre (jsNatStr i)) ++ toListIdx rest (i + 1) pre
termination_by structural a => a

end

/-- `formErrorsToValidationErrors(errors, prefix)` from `errors.ts`. -/
def formErrorsToValidationErrors (errors : JValue) (pre : String) : List VErr :=
  match errors with
  | vObj fs => toListFields fs pre
  | vArr xs ps => toListIdx xs 0 pre ++ toListFields ps pre
  | _ => []

/-- The path string rebuilt by the walk after descending through `ks`. -/
def joinSegs (pre : String) : List String → String
  | [] => pre
  | k :: rest => joinSegs (pathJoin pre k) rest

/-- A segment that will not be lost: non-empty, and canonical if numeric. -/
def segOk (s : String) : Bool :=
  s ≠ "" && (!(isDigitSeg s) || (canonIndex s).isSome)

/-- Is this exactly a `FieldError` node as built by the conversion? -/
def isFe : JValue → Bool
  | vObj [("message", vStr _), ("type", vUndef)] => true
  | vObj [("message", vStr _), ("type", vStr _)] => true
  | _ => false

mutual

/-- Error-tree invariant for internal container nodes: a plain object whose
`message` child (if any) is not a string, with every child a `FieldError`
leaf or again an internal node; or a property-free array whose elements are
holes, leaves or internal nodes. -/
def errNodeJ : JValue → Bool
  | vObj fs =>
    (match assocGet fs "message" with
     | some (vStr _) => false
     | _ => true) && errFields fs
  | vArr xs ps => ps.isEmpty && errElems xs
  | _ => false
termination_by structural a => a

def errFields : List (String × JValue) → Bool
  | [] => true
  | (_, v) :: rest => (isFe v || errNodeJ v) && errFields rest
termination_by structural a => a

def errElems : List JValue → Bool
  | [] => true
  | v :: rest => (beqJ v vUndef || isFe v || errNodeJ v) && errElems rest
termination_by structural a => a

end

/-- The key `k` addresses container `T` losslessly (arrays only through a
canonical index). -/
def containerKeyOk : JValue → String → Bool
  | vObj _, _ => true
  | vArr _ _, k => (canonIndex k).isSome
  | _, _ => false

/-- The path `ks` can be inserted into the error tree `T` without
disturbing it: the walk traverses internal nodes (never a leaf), the final
slot is empty, and once the walk leaves the existing tree the remaining
segments build a fresh chain of well-behaved containers. -/
def okFor : JValue → List String → Bool
  | _, [] => false
  | T, [k] => containerKeyOk T k && beqJ (jIndex T k) vUndef
  | T, k :: k2 :: rest =>
    containerKeyOk T k &&
    (if jIndex T k = vUndef then (k2 :: rest).all segOk
     else errNodeJ (jIndex T k) && okFor (jIndex T k) (k2 :: rest))

/-- First divergence between two paths happens on segments of the same
kind (both numeric or both not). -/
def homogB : List String → List String → Bool
  | k :: kr, j :: jr => if k = j then homogB kr jr else isDigitSeg k == isDigitSeg j
  | _, _ => true

example :
    formErrorsToValidationErrors (validationErrorsToFormErrors
      [⟨"a", "m1", some "t1"⟩, ⟨"a.b", "m2", some "t2"⟩]) ""
    = [⟨"a", "m1", some "t1"⟩] := by decide

example :
    formErrorsToValidationErrors (validationErrorsToFormErrors
      [⟨"user.name", "req", some "required"⟩, ⟨"items.0", "bad", none⟩,
       ⟨"user.age", "min", none⟩]) ""
    = [⟨"user.name", "req", some "required"⟩, ⟨"user.age", "min", none⟩,
       ⟨"items.0", "bad", none⟩] := by decide

example :
    (formErrorsToValidationErrors (validationErrorsToFormErrors
      [⟨"user.name", "req", some "required"⟩, ⟨"items.0", "bad", none⟩,
       ⟨"user.age", "min", none⟩]) "").Perm
    [⟨"user.name", "req", some "required"⟩, ⟨"items.0", "bad", none⟩,
       ⟨"user.age", "min", none⟩] := by decide

theorem toListFields_append (fs gs : List (String × JValue)) (pre : String) :
    toListFields (fs ++ gs) pre = toListFields fs pre ++ toListFields gs pre := by
  induction fs with
  | nil => rfl
  | cons p rest ih =>
    obtain ⟨k, v⟩ := p
    rw [List.cons_append, toListFields, toListFields, ih, List.append_assoc]

theorem toListIdx_append (xs ys : List JValue) :
    ∀ (n : Nat) (pre : String),
      toListIdx (xs ++ ys) n pre = toListIdx xs n pre ++ toListIdx ys (n + xs.length) pre := by
  induction xs with
  | nil => intro n pre; simp [toListIdx]
  | cons v rest ih =>
    intro n pre
    rw [List.cons_append, toListIdx, toListIdx, ih (n + 1) pre, List.append_assoc]
    have : n + 1 + rest.length = n + (rest.length + 1) := by omega
    rw [this]
    rfl

theorem toListIdx_replicate_undef (n : Nat) :
    ∀ (j : Nat) (pre : String), toListIdx (List.replicate n vUndef) j pre = [] := by
  induction n with
  | zero => intro j pre; rfl
  | succ n ih =>
    intro j pre
    rw [List.replicate_succ, toListIdx, ih (j + 1) pre]
    rfl

theorem assocGet_append_left (fs gs : List (String × JValue)) (key : String)
    (v : JValue) (h : assocGet fs key = some v) :
    assocGet (fs ++ gs) key = some v := by
  induction fs with
  | nil => simp [assocGet] at h
  | cons p rest ih =>
    obtain ⟨k, w⟩ := p
    by_cases hk : k = key
    · rw [assocGet, if_pos hk] at h
      rw [List.cons_append, assocGet, if_pos hk]
      exact h
    · rw [assocGet, if_neg hk] at h
      rw [List.cons_append, assocGet, if_neg hk]
      exact ih h

theorem assocGet_append_right (fs gs : List (String × JValue)) (key : String)
    (h : assocGet fs key = none) :
    assocGet (fs ++ gs) key = assocGet gs key := by
  induction fs with
  | nil => rfl
  | cons p rest ih =>
    obtain ⟨k, w⟩ := p
    by_cases hk : k = key
    · rw [assocGet, if_pos hk] at h
      cases h
    · rw [assocGet, if_neg hk] at h
      rw [List.cons_append, assocGet, if_neg hk]
      exact ih h

theorem assocSet_of_none (fs : List (String × JValue)) (key : String) (v : JValue)
    (h : assocGet fs key = none) : assocSet fs key v = fs ++ [(key, v)] := by
  induction fs with
  | nil => rfl
  | cons p rest ih =>
    obtain ⟨k, w⟩ := p
    by_cases hk : k = key
    · rw [assocGet, if_pos hk] at h
      cases h
    · rw [assocGet, if_neg hk] at h
      rw [assocSet, if_neg hk, List.cons_append, ih h]

theorem errFields_append (fs gs : List (String × JValue)) :
    errFields (fs ++ gs) = (errFields fs && errFields gs) := by
  induction fs with
  | nil => rfl
  | cons p rest ih =>
    obtain ⟨k, v⟩ := p
    rw [List.cons_append, errFields, errFields, ih, Bool.and_assoc]

theorem errElems_append (xs ys : List JValue) :
    errElems (xs ++ ys) = (errElems xs && errElems ys) := by
  induction xs with
  | nil => rfl
  | cons v rest ih =>
    rw [List.cons_append, errElems, errElems, ih, Bool.and_assoc]

theorem errElems_replicate_undef (n : Nat) :
    errElems (List.replicate n vUndef) = true := by
  induction n with
  | zero => rfl
  | succ n ih =>
    rw [List.replicate_succ, errElems, ih]
    rfl

theorem errFields_assocGet (fs : List (String × JValue)) (key : String) (v : JValue)
    (hf : errFields fs = true) (h : assocGet fs key = some v) :
    (isFe v || errNodeJ v) = true := by
  induction fs with
  | nil => simp [assocGet] at h
  | cons p rest ih =>
    obtain ⟨k, w⟩ := p
    rw [errFields, Bool.and_eq_true] at hf
    by_cases hk : k = key
    · rw [assocGet, if_pos hk] at h
      injection h with h
      subst h
      exact hf.1
    · rw [assocGet, if_neg hk] at h
      exact ih hf.2 h

theorem errElems_getD (xs : List JValue) :
    ∀ (i : Nat), errElems xs = true →
      (beqJ (xs.getD i vUndef) vUndef || isFe (xs.getD i vUndef)
        || errNodeJ (xs.getD i vUndef)) = true := by
  induction xs with
  | nil =>
    intro i _
    rw [show ([] : List JValue).getD i vUndef = vUndef from by cases i <;> rfl]
    rfl
  | cons x rest ih =>
    intro i hx
    rw [errElems, Bool.and_eq_true] at hx
    cases i with
    | zero =>
      rw [List.getD_cons_zero]
      exact hx.1
    | succ i =>
      rw [List.getD_cons_succ]
      exact ih i hx.2

theorem toListEntry_feJ (m : String) (t : Option String) (path : String) :
    toListEntry (feJ m t) path = [⟨path, m, t⟩] := by
  cases t <;> rfl

theorem isFe_feJ (m : String) (t : Option String) : isFe (feJ m t) = true := by
  cases t <;> rfl

theorem isFe_not_vUndef (v : JValue) (h : isFe v = true) : v ≠ vUndef := by
  intro hv
  subst hv
  simp [isFe] at h

theorem errNodeJ_not_vUndef (v : JValue) (h : errNodeJ v = true) : v ≠ vUndef := by
  intro hv
  subst hv
  simp [errNodeJ] at h

theorem errNodeJ_not_vStr (v : JValue) (s : String) (h : errNodeJ v = true) :
    v ≠ vStr s := by
  intro hv
  subst hv
  simp [errNodeJ] at h

theorem isFe_not_vStr (v : JValue) (s : String) (h : isFe v = true) : v ≠ vStr s := by
  intro hv
  subst hv
  simp [isFe] at h

theorem toListEntry_of_errNode (v : JValue) (path : String) (h : errNodeJ v = true) :
    toListEntry v path = formErrorsToValidationErrors v path := by
  cases v with
  | vObj fs =>
    rw [errNodeJ, Bool.and_eq_true] at h
    rw [toListEntry, formErrorsToValidationErrors]
    cases hm : assocGet fs "message" with
    | none => rfl
    | some w =>
      cases w <;> first
        | rfl
        | (rw [hm] at h; simp at h)
  | vArr xs ps =>
    rw [errNodeJ, Bool.and_eq_true] at h
    have hps : ps = [] := List.isEmpty_iff.mp h.1
    subst hps
    rfl
  | vUndef => simp [errNodeJ] at h
  | vNull => simp [errNodeJ] at h
  | vBool b => simp [errNodeJ] at h
  | vNum n => simp [errNodeJ] at h
  | vStr s => simp [errNodeJ] at h

theorem toListFields_assocSet_perm (pre key : String) (child sub : JValue) (e : VErr) :
    ∀ (fs : List (String × JValue)), assocGet fs key = some child →
      (toListEntry sub (pathJoin pre key)).Perm
        (e :: toListEntry child (pathJoin pre key)) →
      (toListFields (assocSet fs key sub) pre).Perm (e :: toListFields fs pre) := by
  intro fs
  induction fs with
  | nil => intro h _; simp [assocGet] at h
  | cons p rest ih =>
    obtain ⟨k, w⟩ := p
    intro h hperm
    by_cases hk : k = key
    · subst hk
      rw [assocGet, if_pos rfl] at h
      injection h with h
      rw [assocSet, if_pos rfl, toListFields, toListFields, h]
      simpa using hperm.append_right (toListFields rest pre)
    · rw [assocGet, if_neg hk] at h
      rw [assocSet, if_neg hk, toListFields, toListFields]
      have h2 := (ih h hperm).append_left (toListEntry w (pathJoin pre k))
      exact h2.trans List.perm_middle

theorem toListIdx_set_perm (pre : String) :
    ∀ (xs : List JValue) (i n : Nat) (w : JValue) (e : VErr),
      i < xs.length →
      (toListEntry w (pathJoin pre (jsNatStr (n + i)))).Perm
        (e :: toListEntry (xs.getD i vUndef) (pathJoin pre (jsNatStr (n + i)))) →
      (toListIdx (xs.set i w) n pre).Perm (e :: toListIdx xs n pre) := by
  intro xs
  induction xs with
  | nil => intro i n w e hi _; simp at hi
  | cons x rest ih =>
    intro i n w e hi hperm
    cases i with
    | zero =>
      rw [List.set_cons_zero, toListIdx, toListIdx]
      simp only [Nat.add_zero, List.getD_cons_zero] at hperm
      simpa using hperm.append_right (toListIdx rest (n + 1) pre)
    | succ i =>
      rw [List.set_cons_succ, toListIdx, toListIdx]
      rw [show n + (i + 1) = (n + 1) + i from by omega, List.getD_cons_succ] at hperm
      have h2 := (ih i (n + 1) w e (by simpa using Nat.lt_of_succ_lt_succ hi)
        hperm).append_left (toListEntry x (pathJoin pre (jsNatStr n)))
      exact h2.trans List.perm_middle

theorem errFields_assocSet (key : String) (sub : JValue)
    (hsub : (isFe sub || errNodeJ sub) = true) :
    ∀ (fs : List (String × JValue)), errFields fs = true →
      errFields (assocSet fs key sub) = true := by
  intro fs
  induction fs with
  | nil =>
    intro _
    rw [assocSet, errFields, hsub, errFields]
    rfl
  | cons p rest ih =>
    obtain ⟨k, w⟩ := p
    intro hf
    rw [errFields, Bool.and_eq_true] at hf
    by_cases hk : k = key
    · rw [assocSet, if_pos hk, errFields, hsub, hf.2]
      rfl
    · rw [assocSet, if_neg hk, errFields, hf.1, ih hf.2]
      rfl

theorem errElems_set (sub : JValue)
    (hsub : (beqJ sub vUndef || isFe sub || errNodeJ sub) = true) :
    ∀ (xs : List JValue) (i : Nat), errElems xs = true →
      errElems (xs.set i sub) = true := by
  intro xs
  induction xs with
  | nil => intro i _; rfl
  | cons x rest ih =>
    intro i hx
    rw [errElems, Bool.and_eq_true] at hx
    cases i with
    | zero =>
      rw [List.set_cons_zero, errElems, hsub, hx.2]
      rfl
    | succ i =>
      rw [List.set_cons_succ, errElems, hx.1, ih i hx.2]
      rfl

theorem stepChild_of_errNode (child : JValue) (k2 : String)
    (h : errNodeJ child = true) : stepChild child k2 = child := by
  cases child with
  | vObj fs => rfl
  | vArr xs ps =>
    rw [errNodeJ, Bool.and_eq_true] at h
    have hps : ps = [] := List.isEmpty_iff.mp h.1
    subst hps
    rfl
  | vUndef => simp [errNodeJ] at h
  | vNull => simp [errNodeJ] at h
  | vBool b => simp [errNodeJ] at h
  | vNum n => simp [errNodeJ] at h
  | vStr s => simp [errNodeJ] at h

theorem containerKeyOk_jWrite (T : JValue) (k : String) (v : JValue) (j : String) :
    containerKeyOk (jWrite T k v) j = containerKeyOk T j := by
  cases T with
  | vObj fs => rfl
  | vArr xs ps =>
    rw [jWrite]
    cases canonIndex k <;> rfl
  | vUndef => rfl
  | vNull => rfl
  | vBool b => rfl
  | vNum n => rfl
  | vStr s => rfl

theorem elemsSet_getD_ne (xs : List JValue) (i i2 : Nat) (v : JValue) (h : i ≠ i2) :
    (elemsSet xs i v).getD i2 vUndef = xs.getD i2 vUndef := by
  rw [elemsSet]
  split
  · rw [List.getD_eq_getElem?_getD, List.getD_eq_getElem?_getD,
      List.getElem?_set_ne h]
  · next hlen =>
    have hxs : xs.length ≤ i := Nat.le_of_not_lt hlen
    rw [List.getD_eq_getElem?_getD, List.getD_eq_getElem?_getD, List.append_assoc]
    rcases Nat.lt_or_ge i2 xs.length with h2 | h2
    · rw [List.getElem?_append, if_pos h2]
    · rw [List.getElem?_append_right h2, List.getElem?_eq_none h2]
      rcases Nat.lt_or_ge i2 i with h3 | h3
      · rw [List.getElem?_append, if_pos (by simp; omega), List.getElem?_replicate,
          if_pos (by omega)]
        rfl
      · have : (List.replicate (i - xs.length) vUndef ++ [v]).length ≤ i2 - xs.length := by
          simp
          omega
        rw [List.getElem?_eq_none this]

theorem assocGet_none_of_jIndex_undef (fs : List (String × JValue)) (k : String)
    (hf : errFields fs = true) (h : jIndex (vObj fs) k = vUndef) :
    assocGet fs k = none := by
  cases hg : assocGet fs k with
  | none => rfl
  | some v =>
    have hv := errFields_assocGet fs k v hf hg
    rw [jIndex, hg, Option.getD_some] at h
    subst h
    simp [isFe, errNodeJ] at hv

theorem jIndex_jWrite_ne (T : JValue) {k j : String} (v : JValue) (h : j ≠ k) :
    jIndex (jWrite T k v) j = jIndex T j := by
  cases T with
  | vObj fs => rw [jWrite, jIndex, jIndex, assocGet_assocSet_ne fs v h]
  | vArr xs ps =>
    rw [jWrite]
    cases hck : canonIndex k with
    | some i =>
      rw [jIndex, jIndex]
      cases hcj : canonIndex j with
      | some i2 =>
        have hne : i ≠ i2 := fun he => h (by
          rw [← jsNatStr_of_canonIndex hcj, ← he, jsNatStr_of_canonIndex hck])
        exact elemsSet_getD_ne xs i i2 v hne
      | none => rfl
    | none =>
      rw [jIndex, jIndex]
      cases hcj : canonIndex j with
      | some i2 => rfl
      | none => rw [assocGet_assocSet_ne ps v h]
  | vUndef => rfl
  | vNull => rfl
  | vBool b => rfl
  | vNum n => rfl
  | vStr s => rfl

theorem errNodeJ_freshFor (k : String) : errNodeJ (freshFor k) = true := by
  rw [freshFor]
  split <;> rfl

theorem toListEntry_freshFor (k path : String) : toListEntry (freshFor k) path = [] := by
  rw [freshFor]
  split <;> rfl

theorem okFor_freshFor_other (k2 j2 : String) (jr : List String)
    (hd : isDigitSeg j2 = isDigitSeg k2)
    (hall : ((j2 :: jr).all segOk) = true) :
    okFor (freshFor k2) (j2 :: jr) = true := by
  rw [List.all_cons, Bool.and_eq_true] at hall
  have hso := hall.1
  rw [segOk, Bool.and_eq_true] at hso
  have hck : containerKeyOk (freshFor k2) j2 = true := by
    rw [freshFor]
    split
    · next hdk =>
      rw [containerKeyOk]
      have h2 := hso.2
      rw [hd, hdk] at h2
      simpa using h2
    · rfl
  have hidx : jIndex (freshFor k2) j2 = vUndef := by
    rw [freshFor]
    split
    · rw [jIndex]
      cases canonIndex j2 with
      | some i => cases i <;> rfl
      | none => rfl
    · rfl
  cases jr with
  | nil =>
    rw [okFor, hck, hidx]
    rfl
  | cons j3 r3 =>
    rw [okFor, hck, hidx, if_pos rfl]
    simpa using hall.2

theorem okFor_emptyObj : ∀ (ks : List String), ks ≠ [] → ks.all segOk = true →
    okFor (vObj []) ks = true := by
  intro ks hne hall
  cases ks with
  | nil => exact absurd rfl hne
  | cons k rest =>
    cases rest with
    | nil => rfl
    | cons k2 r2 =>
      rw [okFor, show jIndex (vObj []) k = vUndef from rfl, if_pos rfl,
        show containerKeyOk (vObj []) k = true from rfl]
      rw [List.all_cons, Bool.and_eq_true] at hall
      simpa using hall.2

theorem errNodeJ_vObj_intro (fs : List (String × JValue)) (hf : errFields fs = true)
    (hm : ∀ s, assocGet fs "message" ≠ some (vStr s)) : errNodeJ (vObj fs) = true := by
  rw [errNodeJ]
  cases hg : assocGet fs "message" with
  | none => simp [hf]
  | some w =>
    cases w with
    | vStr s => exact absurd hg (hm s)
    | vUndef => simp [hf]
    | vNull => simp [hf]
    | vBool b => simp [hf]
    | vNum n => simp [hf]
    | vObj gs => simp [hf]
    | vArr ys qs => simp [hf]

theorem errNodeJ_vObj_elim (fs : List (String × JValue))
    (h : errNodeJ (vObj fs) = true) :
    errFields fs = true ∧ ∀ s, assocGet fs "message" ≠ some (vStr s) := by
  rw [errNodeJ, Bool.and_eq_true] at h
  refine ⟨h.2, ?_⟩
  intro s hs
  have h1 := h.1
  rw [hs] at h1
  simp at h1

theorem fe_or_errNode_not_vStr (sub : JValue) (s : String)
    (hsub : (isFe sub || errNodeJ sub) = true) : sub ≠ vStr s := by
  rcases Bool.or_eq_true_iff.mp hsub with h | h
  · exact isFe_not_vStr sub s h
  · exact errNodeJ_not_vStr sub s h

theorem fe_or_errNode_not_vUndef (sub : JValue)
    (hsub : (isFe sub || errNodeJ sub) = true) : sub ≠ vUndef := by
  rcases Bool.or_eq_true_iff.mp hsub with h | h
  · exact isFe_not_vUndef sub h
  · exact errNodeJ_not_vUndef sub h

theorem errNodeJ_vObj_write (fs : List (String × JValue)) (k : String) (sub : JValue)
    (hT : errNodeJ (vObj fs) = true) (hsub : (isFe sub || errNodeJ sub) = true) :
    errNodeJ (vObj (assocSet fs k sub)) = true := by
  obtain ⟨hf, hm⟩ := errNodeJ_vObj_elim fs hT
  apply errNodeJ_vObj_intro
  · exact errFields_assocSet k sub hsub fs hf
  · intro s hs
    by_cases hk : k = "message"
    · subst hk
      rw [assocGet_assocSet_self] at hs
      injection hs with hs
      exact fe_or_errNode_not_vStr sub s hsub hs
    · rw [assocGet_assocSet_ne fs sub (fun hh => hk hh.symm)] at hs
      exact hm s hs

theorem writeBack_obj (fs : List (String × JValue)) (k pre : String) (sub : JValue)
    (e : VErr) (hT : errNodeJ (vObj fs) = true)
    (hsub : (isFe sub || errNodeJ sub) = true)
    (hperm : (toListEntry sub (pathJoin pre k)).Perm
      (e :: toListEntry ((assocGet fs k).getD vUndef) (pathJoin pre k))) :
    errNodeJ (vObj (assocSet fs k sub)) = true ∧
    (toListEntry (vObj (assocSet fs k sub)) pre).Perm
      (e :: toListEntry (vObj fs) pre) := by
  have herr := errNodeJ_vObj_write fs k sub hT hsub
  refine ⟨herr, ?_⟩
  rw [toListEntry_of_errNode _ _ herr, toListEntry_of_errNode _ _ hT,
    formErrorsToValidationErrors, formErrorsToValidationErrors]
  cases hg : assocGet fs k with
  | some child =>
    rw [hg, Option.getD_some] at hperm
    exact toListFields_assocSet_perm pre k child sub e fs hg hperm
  | none =>
    rw [hg] at hperm
    rw [show (none : Option JValue).getD vUndef = vUndef from rfl,
      show toListEntry vUndef (pathJoin pre k) = [] from rfl] at hperm
    rw [assocSet_of_none fs k sub hg, toListFields_append, toListFields,
      toListFields, List.append_nil]
    have h2 := hperm.append_left (toListFields fs pre)
    exact h2.trans (List.perm_append_singleton e (toListFields fs pre))

theorem writeBack_arr (xs : List JValue) (i : Nat) (pre k : String) (sub : JValue)
    (e : VErr) (hT : errNodeJ (vArr xs []) = true)
    (hi : canonIndex k = some i) (hlt : i < xs.length)
    (hsub : (isFe sub || errNodeJ sub) = true)
    (hperm : (toListEntry sub (pathJoin pre k)).Perm
      (e :: toListEntry (xs.getD i vUndef) (pathJoin pre k))) :
    errNodeJ (vArr (xs.set i sub) []) = true ∧
    (toListEntry (vArr (xs.set i sub) []) pre).Perm
      (e :: toListEntry (vArr xs []) pre) := by
  rw [errNodeJ, Bool.and_eq_true] at hT
  have hels := hT.2
  have herr : errNodeJ (vArr (xs.set i sub) []) = true := by
    rw [errNodeJ]
    rw [errElems_set sub (by
      rcases Bool.or_eq_true_iff.mp hsub with h | h
      · rw [h]
        simp
      · rw [h]
        simp) xs i hels]
    rfl
  refine ⟨herr, ?_⟩
  rw [toListEntry_of_errNode _ _ herr,
    toListEntry_of_errNode _ _ (by rw [errNodeJ, hels]; rfl),
    formErrorsToValidationErrors, formErrorsToValidationErrors, toListFields,
    List.append_nil, List.append_nil]
  apply toListIdx_set_perm pre xs i 0 sub e hlt
  rw [Nat.zero_add, jsNatStr_of_canonIndex hi]
  exact hperm

theorem writeBack_arr_pad (xs : List JValue) (i : Nat) (pre k : String) (sub : JValue)
    (e : VErr) (hT : errNodeJ (vArr xs []) = true)
    (hi : canonIndex k = some i) (hge : xs.length ≤ i)
    (hsub : (isFe sub || errNodeJ sub) = true)
    (hperm : (toListEntry sub (pathJoin pre k)).Perm [e]) :
    errNodeJ (vArr (xs ++ List.replicate (i - xs.length) vUndef ++ [sub]) []) = true ∧
    (toListEntry (vArr (xs ++ List.replicate (i - xs.length) vUndef ++ [sub]) []) pre).Perm
      (e :: toListEntry (vArr xs []) pre) := by
  rw [errNodeJ, Bool.and_eq_true] at hT
  have hels := hT.2
  have herr : errNodeJ (vArr (xs ++ List.replicate (i - xs.length) vUndef ++ [sub]) [])
      = true := by
    rw [errNodeJ, errElems_append, errElems_append, hels, errElems_replicate_undef,
      errElems]
    rcases Bool.or_eq_true_iff.mp hsub with h | h
    · simp [h, errElems]
    · simp [h, errElems]
  refine ⟨herr, ?_⟩
  rw [toListEntry_of_errNode _ _ herr,
    toListEntry_of_errNode _ _ (by rw [errNodeJ, hels]; rfl),
    formErrorsToValidationErrors, formErrorsToValidationErrors, toListFields,
    List.append_nil, List.append_nil,
    toListIdx_append, toListIdx_append, toListIdx_replicate_undef,
    List.append_nil, toListIdx, toListIdx, List.append_nil,
    show 0 + (xs ++ List.replicate (i - xs.length) vUndef).length = i from by
      simp
      omega,
    jsNatStr_of_canonIndex hi]
  exact (hperm.append_left _).trans (List.perm_append_singleton e _)

theorem insert_entry : (ks : List String) →
    ∀ (T : JValue) (pre m : String) (t : Option String),
      errNodeJ T = true → okFor T ks = true →
      errNodeJ (setKeysGo T ks (feJ m t)) = true ∧
      (toListEntry (setKeysGo T ks (feJ m t)) pre).Perm
        (⟨joinSegs pre ks, m, t⟩ :: toListEntry T pre)
  | [] => by
    intro T pre m t _ hok
    rw [okFor] at hok
    cases hok
  | [k] => by
    intro T pre m t hT hok
    rw [okFor, Bool.and_eq_true] at hok
    obtain ⟨hck, hbq⟩ := hok
    have hidxv : jIndex T k = vUndef := eq_of_beqJ _ _ hbq
    show errNodeJ (jWrite T k (feJ m t)) = true ∧
      (toListEntry (jWrite T k (feJ m t)) pre).Perm
        (⟨joinSegs pre [k], m, t⟩ :: toListEntry T pre)
    rw [show joinSegs pre [k] = pathJoin pre k from rfl]
    cases T with
    | vObj fs =>
      apply writeBack_obj fs k pre _ _ hT (by rw [isFe_feJ]; rfl)
      rw [toListEntry_feJ,
        show (assocGet fs k).getD vUndef = jIndex (vObj fs) k from rfl, hidxv]
      exact List.Perm.refl _
    | vArr xs ps =>
      have hps : ps = [] := by
        rw [errNodeJ, Bool.and_eq_true] at hT
        exact List.isEmpty_iff.mp hT.1
      subst hps
      obtain ⟨i, hi⟩ := Option.isSome_iff_exists.mp
        (show (canonIndex k).isSome = true from hck)
      have hidxv2 : xs.getD i vUndef = vUndef := by
        rw [jIndex, hi] at hidxv
        exact hidxv
      have hw : jWrite (vArr xs []) k (feJ m t) = vArr (elemsSet xs i (feJ m t)) [] := by
        rw [jWrite, hi]
      rw [hw, elemsSet]
      split
      · next hlt =>
        apply writeBack_arr xs i pre k _ _ hT hi hlt (by rw [isFe_feJ]; rfl)
        rw [toListEntry_feJ, hidxv2]
        exact List.Perm.refl _
      · next hlt =>
        apply writeBack_arr_pad xs i pre k _ _ hT hi (Nat.le_of_not_lt hlt)
          (by rw [isFe_feJ]; rfl)
        rw [toListEntry_feJ]
    | vUndef => exact absurd (show (false : Bool) = true from hck) (by decide)
    | vNull => exact absurd (show (false : Bool) = true from hck) (by decide)
    | vBool b => exact absurd (show (false : Bool) = true from hck) (by decide)
    | vNum n => exact absurd (show (false : Bool) = true from hck) (by decide)
    | vStr s => exact absurd (show (false : Bool) = true from hck) (by decide)
  | k :: k2 :: rest => by
    intro T pre m t hT hok
    rw [okFor, Bool.and_eq_true] at hok
    obtain ⟨hck, hbr⟩ := hok
    show errNodeJ (jWrite T k
        (setKeysGo (stepChild (jIndex T k) k2) (k2 :: rest) (feJ m t))) = true ∧
      (toListEntry (jWrite T k
        (setKeysGo (stepChild (jIndex T k) k2) (k2 :: rest) (feJ m t))) pre).Perm
        (⟨joinSegs pre (k :: k2 :: rest), m, t⟩ :: toListEntry T pre)
    rw [show joinSegs pre (k :: k2 :: rest) = joinSegs (pathJoin pre k) (k2 :: rest)
      from rfl]
    by_cases hu : jIndex T k = vUndef
    · rw [if_pos hu] at hbr
      rw [hu, show stepChild vUndef k2 = freshFor k2 from rfl]
      have hrec := insert_entry (k2 :: rest) (freshFor k2) (pathJoin pre k) m t
        (errNodeJ_freshFor k2) (okFor_freshFor_other k2 k2 rest rfl hbr)
      have hsub : (isFe (setKeysGo (freshFor k2) (k2 :: rest) (feJ m t))
          || errNodeJ (setKeysGo (freshFor k2) (k2 :: rest) (feJ m t))) = true := by
        rw [hrec.1, Bool.or_true]
      cases T with
      | vObj fs =>
        apply writeBack_obj fs k pre _ _ hT hsub
        rw [show (assocGet fs k).getD vUndef = jIndex (vObj fs) k from rfl, hu]
        have h2 := hrec.2
        rw [toListEntry_freshFor] at h2
        exact h2
      | vArr xs ps =>
        have hps : ps = [] := by
          rw [errNodeJ, Bool.and_eq_true] at hT
          exact List.isEmpty_iff.mp hT.1
        subst hps
        obtain ⟨i, hi⟩ := Option.isSome_iff_exists.mp
          (show (canonIndex k).isSome = true from hck)
        have hidxv2 : xs.getD i vUndef = vUndef := by
          rw [jIndex, hi] at hu
          exact hu
        have hw : jWrite (vArr xs []) k (setKeysGo (freshFor k2) (k2 :: rest) (feJ m t))
            = vArr (elemsSet xs i (setKeysGo (freshFor k2) (k2 :: rest) (feJ m t))) [] := by
          rw [jWrite, hi]
        rw [hw, elemsSet]
        split
        · next hlt =>
          apply writeBack_arr xs i pre k _ _ hT hi hlt hsub
          rw [hidxv2]
          have h2 := hrec.2
          rw [toListEntry_freshFor] at h2
          exact h2
        · next hlt =>
          apply writeBack_arr_pad xs i pre k _ _ hT hi (Nat.le_of_not_lt hlt) hsub
          have h2 := hrec.2
          rw [toListEntry_freshFor] at h2
          exact h2
      | vUndef => exact absurd (show (false : Bool) = true from hck) (by decide)
      | vNull => exact absurd (show (false : Bool) = true from hck) (by decide)
      | vBool b => exact absurd (show (false : Bool) = true from hck) (by decide)
      | vNum n => exact absurd (show (false : Bool) = true from hck) (by decide)
      | vStr s => exact absurd (show (false : Bool) = true from hck) (by decide)
    · rw [if_neg hu, Bool.and_eq_true] at hbr
      obtain ⟨hcn, hok2⟩ := hbr
      rw [stepChild_of_errNode _ k2 hcn]
      have hrec := insert_entry (k2 :: rest) (jIndex T k) (pathJoin pre k) m t hcn hok2
      have hsub : (isFe (setKeysGo (jIndex T k) (k2 :: rest) (feJ m t))
          || errNodeJ (setKeysGo (jIndex T k) (k2 :: rest) (feJ m t))) = true := by
        rw [hrec.1, Bool.or_true]
      cases T with
      | vObj fs =>
        apply writeBack_obj fs k pre _ _ hT hsub
        rw [show (assocGet fs k).getD vUndef = jIndex (vObj fs) k from rfl]
        exact hrec.2
      | vArr xs ps =>
        have hps : ps = [] := by
          rw [errNodeJ, Bool.and_eq_true] at hT
          exact List.isEmpty_iff.mp hT.1
        subst hps
        obtain ⟨i, hi⟩ := Option.isSome_iff_exists.mp
          (show (canonIndex k).isSome = true from hck)
        have hj : jIndex (vArr xs []) k = xs.getD i vUndef := by
          rw [jIndex, hi]
        have hlt : i < xs.length := by
          by_contra hge
          apply hu
          rw [hj, List.getD_eq_getElem?_getD,
            List.getElem?_eq_none (Nat.le_of_not_lt hge)]
          rfl
        have hw : jWrite (vArr xs []) k (setKeysGo (jIndex (vArr xs []) k)
              (k2 :: rest) (feJ m t))
            = vArr (elemsSet xs i (setKeysGo (jIndex (vArr xs []) k)
              (k2 :: rest) (feJ m t))) [] := by
          rw [jWrite, hi]
        rw [hw, elemsSet, if_pos hlt]
        apply writeBack_arr xs i pre k _ _ hT hi hlt hsub
        have h2 := hrec.2
        rw [hj] at h2
        rw [hj]
        exact h2
      | vUndef => exact absurd (show (false : Bool) = true from hck) (by decide)
      | vNull => exact absurd (show (false : Bool) = true from hck) (by decide)
      | vBool b => exact absurd (show (false : Bool) = true from hck) (by decide)
      | vNum n => exact absurd (show (false : Bool) = true from hck) (by decide)
      | vStr s => exact absurd (show (false : Bool) = true from hck) (by decide)

theorem isContainer_of_containerKeyOk (T : JValue) (k : String)
    (h : containerKeyOk T k = true) : isContainer T = true := by
  cases T with
  | vObj fs => rfl
  | vArr xs ps => rfl
  | vUndef => exact absurd (show (false : Bool) = true from h) (by decide)
  | vNull => exact absurd (show (false : Bool) = true from h) (by decide)
  | vBool b => exact absurd (show (false : Bool) = true from h) (by decide)
  | vNum n => exact absurd (show (false : Bool) = true from h) (by decide)
  | vStr s => exact absurd (show (false : Bool) = true from h) (by decide)

theorem homogB_head (k2 j2 : String) (kr jr2 : List String)
    (h : homogB (k2 :: kr) (j2 :: jr2) = true) : isDigitSeg j2 = isDigitSeg k2 := by
  rw [homogB] at h
  split at h
  · next he => rw [he]
  · exact (eq_of_beq h).symm

theorem okFor_preserved : (ks : List String) →
    ∀ (T : JValue) (ks2 : List String) (m : String) (t : Option String),
      errNodeJ T = true → okFor T ks = true → okFor T ks2 = true →
      ¬(ks <+: ks2) → ¬(ks2 <+: ks) → homogB ks ks2 = true →
      okFor (setKeysGo T ks (feJ m t)) ks2 = true
  | [] => by
    intro T ks2 m t _ hok _ _ _ _
    rw [okFor] at hok
    cases hok
  | [k] => by
    intro T ks2 m t hT hok hok2 hp1 hp2 _
    cases ks2 with
    | nil =>
      rw [okFor] at hok2
      cases hok2
    | cons j jr =>
      by_cases hkj : k = j
      · subst hkj
        exact absurd ⟨jr, rfl⟩ hp1
      · have hne : j ≠ k := fun hh => hkj hh.symm
        show okFor (jWrite T k (feJ m t)) (j :: jr) = true
        cases jr with
        | nil =>
          rw [okFor] at hok2 ⊢
          rw [containerKeyOk_jWrite, jIndex_jWrite_ne T _ hne]
          exact hok2
        | cons j2 jr2 =>
          rw [okFor] at hok2 ⊢
          rw [containerKeyOk_jWrite, jIndex_jWrite_ne T _ hne]
          exact hok2
  | k :: k2 :: kr => by
    intro T ks2 m t hT hok hok2 hp1 hp2 hh
    cases ks2 with
    | nil =>
      rw [okFor] at hok2
      cases hok2
    | cons j jr =>
      by_cases hkj : k = j
      · subst hkj
        cases jr with
        | nil => exact absurd ⟨k2 :: kr, rfl⟩ hp2
        | cons j2 jr2 =>
          rw [homogB, if_pos rfl] at hh
          have hp1t : ¬(k2 :: kr <+: j2 :: jr2) :=
            fun h2 => hp1 ((List.prefix_cons_inj k).mpr h2)
          have hp2t : ¬(j2 :: jr2 <+: k2 :: kr) :=
            fun h2 => hp2 ((List.prefix_cons_inj k).mpr h2)
          rw [okFor, Bool.and_eq_true] at hok hok2
          obtain ⟨hck, hbr1⟩ := hok
          obtain ⟨-, hbr2⟩ := hok2
          have hcT : isContainer T = true := isContainer_of_containerKeyOk T k hck
          show okFor (jWrite T k
            (setKeysGo (stepChild (jIndex T k) k2) (k2 :: kr) (feJ m t))) (k :: j2 :: jr2)
            = true
          by_cases hu : jIndex T k = vUndef
          · rw [if_pos hu] at hbr1 hbr2
            rw [hu, show stepChild vUndef k2 = freshFor k2 from rfl]
            have hok1f : okFor (freshFor k2) (k2 :: kr) = true :=
              okFor_freshFor_other k2 k2 kr rfl hbr1
            have hok2f : okFor (freshFor k2) (j2 :: jr2) = true :=
              okFor_freshFor_other k2 j2 jr2 (homogB_head k2 j2 kr jr2 hh) hbr2
            have hsub := (insert_entry (k2 :: kr) (freshFor k2) "" m t
              (errNodeJ_freshFor k2) hok1f).1
            have hrec := okFor_preserved (k2 :: kr) (freshFor k2) (j2 :: jr2) m t
              (errNodeJ_freshFor k2) hok1f hok2f hp1t hp2t hh
            rw [okFor, containerKeyOk_jWrite,
              jIndex_jWrite_self T hcT k _,
              if_neg (errNodeJ_not_vUndef _ hsub), hsub, hrec, hck]
            rfl
          · rw [if_neg hu, Bool.and_eq_true] at hbr1 hbr2
            obtain ⟨hcn, hokc1⟩ := hbr1
            obtain ⟨-, hokc2⟩ := hbr2
            rw [stepChild_of_errNode _ k2 hcn]
            have hsub := (insert_entry (k2 :: kr) (jIndex T k) "" m t hcn hokc1).1
            have hrec := okFor_preserved (k2 :: kr) (jIndex T k) (j2 :: jr2) m t
              hcn hokc1 hokc2 hp1t hp2t hh
            rw [okFor, containerKeyOk_jWrite,
              jIndex_jWrite_self T hcT k _,
              if_neg (errNodeJ_not_vUndef _ hsub), hsub, hrec, hck]
            rfl
      · have hne : j ≠ k := fun hh2 => hkj hh2.symm
        show okFor (jWrite T k
          (setKeysGo (stepChild (jIndex T k) k2) (k2 :: kr) (feJ m t))) (j :: jr) = true
        cases jr with
        | nil =>
          rw [okFor] at hok2 ⊢
          rw [containerKeyOk_jWrite, jIndex_jWrite_ne T _ hne]
          exact hok2
        | cons j2 jr2 =>
          rw [okFor] at hok2 ⊢
          rw [containerKeyOk_jWrite, jIndex_jWrite_ne T _ hne]
          exact hok2

/-- Inverse of `splitChars`: re-join the pieces with the separator. -/
def rejoinChars (sep : Char) : List (List Char) → List Char
  | [] => []
  | [p] => p
  | p :: q :: r => p ++ sep :: rejoinChars sep (q :: r)

theorem rejoinChars_splitChars (sep : Char) : ∀ (cs : List Char),
    rejoinChars sep (splitChars sep cs) = cs := by
  intro cs
  induction cs with
  | nil => rfl
  | cons c rest ih =>
    simp only [splitChars]
    by_cases hc : c = sep
    · rw [if_pos hc]
      cases hr : splitChars sep rest with
      | nil => exact absurd hr (splitChars_ne_nil sep rest)
      | cons q r2 =>
        rw [rejoinChars, List.nil_append, ← hr, ih, hc]
    · rw [if_neg hc]
      cases hr : splitChars sep rest with
      | nil => exact absurd hr (splitChars_ne_nil sep rest)
      | cons piece more =>
        show rejoinChars sep ((c :: piece) :: more) = c :: rest
        cases more with
        | nil =>
          rw [rejoinChars]
          have h2 := ih
          rw [hr, rejoinChars] at h2
          rw [h2]
        | cons q r2 =>
          rw [rejoinChars]
          have h2 := ih
          rw [hr, rejoinChars] at h2
          rw [List.cons_append, h2]

theorem pathJoin_data (pre k : String) (h : pre ≠ "") :
    (pathJoin pre k).data = pre.data ++ '.' :: k.data := by
  rw [pathJoin, if_neg h, String.data_append, String.data_append, List.append_assoc]
  rfl

theorem pathJoin_ne_empty (pre k : String) (h : pre ≠ "") : pathJoin pre k ≠ "" := by
  intro h2
  have h3 := congrArg String.data h2
  rw [pathJoin_data pre k h] at h3
  simp at h3

theorem joinSegs_data : ∀ (pieces : List (List Char)) (pre : String), pre ≠ "" →
    joinSegs pre (pieces.map String.mk)
      = String.mk (pre.data ++ (pieces.map (fun q => '.' :: q)).flatten) := by
  intro pieces
  induction pieces with
  | nil =>
    intro pre h
    cases pre with
    | mk d => simp [joinSegs]
  | cons p rest ih =>
    intro pre h
    rw [List.map_cons, joinSegs, ih (pathJoin pre (String.mk p)) (pathJoin_ne_empty pre _ h)]
    congr 1
    rw [pathJoin_data pre _ h]
    simp [List.append_assoc]

theorem rejoinChars_flatten (sep : Char) : ∀ (rest : List (List Char)) (p : List Char),
    rejoinChars sep (p :: rest) = p ++ (rest.map (fun q => sep :: q)).flatten := by
  intro rest
  induction rest with
  | nil => intro p; simp [rejoinChars]
  | cons q r2 ih =>
    intro p
    rw [rejoinChars, ih q]
    simp [List.append_assoc]

theorem joinSegs_splitDots (p : String) (h : (splitDots p).all segOk = true) :
    joinSegs "" (splitDots p) = p := by
  cases hsp : splitChars '.' p.data with
  | nil => exact absurd hsp (splitChars_ne_nil _ _)
  | cons p0 prest =>
    have h0 : String.mk p0 ≠ "" := by
      rw [splitDots, hsp, List.map_cons, List.all_cons, Bool.and_eq_true] at h
      have h1 := h.1
      rw [segOk, Bool.and_eq_true] at h1
      exact of_decide_eq_true h1.1
    rw [splitDots, hsp, List.map_cons, joinSegs,
      show pathJoin "" (String.mk p0) = String.mk p0 from rfl,
      joinSegs_data prest (String.mk p0) h0]
    rw [show (String.mk p0).data = p0 from rfl, ← rejoinChars_flatten '.' prest p0,
      ← hsp, rejoinChars_splitChars]

theorem roundtrip_fold : (L : List VErr) →
    ∀ (T : JValue),
      errNodeJ T = true →
      (∀ e ∈ L, (splitDots e.path).all segOk = true ∧
        okFor T (splitDots e.path) = true) →
      List.Pairwise (fun e1 e2 =>
        ¬(splitDots e1.path <+: splitDots e2.path) ∧
        ¬(splitDots e2.path <+: splitDots e1.path) ∧
        homogB (splitDots e1.path) (splitDots e2.path) = true) L →
      errNodeJ (L.foldl
        (fun result e => setByPath result e.path (feJ e.message e.etype)) T) = true ∧
      (toListEntry (L.foldl
        (fun result e => setByPath result e.path (feJ e.message e.etype)) T) "").Perm
        ((L.map (fun e =>
          (⟨joinSegs "" (splitDots e.path), e.message, e.etype⟩ : VErr)))
          ++ toListEntry T "")
  | [] => by
    intro T hT _ _
    exact ⟨hT, by simp⟩
  | e :: rest => by
    intro T hT hval hpair
    rw [List.foldl_cons]
    have he := hval e (List.mem_cons_self e rest)
    have hpne : e.path ≠ "" := by
      intro hp
      have h1 := he.1
      rw [hp] at h1
      exact absurd h1 (by decide)
    rw [show setByPath T e.path (feJ e.message e.etype)
        = setKeysGo T (splitDots e.path) (feJ e.message e.etype) from by
      rw [setByPath, if_neg hpne]]
    have hins := insert_entry (splitDots e.path) T "" e.message e.etype hT he.2
    have hpr := List.pairwise_cons.mp hpair
    have hval2 : ∀ e2 ∈ rest, (splitDots e2.path).all segOk = true ∧
        okFor (setKeysGo T (splitDots e.path) (feJ e.message e.etype))
          (splitDots e2.path) = true := by
      intro e2 h2
      have hv2 := hval e2 (List.mem_cons_of_mem e h2)
      have hc := hpr.1 e2 h2
      exact ⟨hv2.1, okFor_preserved (splitDots e.path) T (splitDots e2.path)
        e.message e.etype hT he.2 hv2.2 hc.1 hc.2.1 hc.2.2⟩
    have hrec := roundtrip_fold rest
      (setKeysGo T (splitDots e.path) (feJ e.message e.etype)) hins.1 hval2 hpr.2
    refine ⟨hrec.1, ?_⟩
    refine hrec.2.trans ?_
    have h3 := hins.2.append_left (rest.map (fun e2 =>
      (⟨joinSegs "" (splitDots e2.path), e2.message, e2.etype⟩ : VErr)))
    refine h3.trans ?_
    rw [List.map_cons]
    exact List.perm_middle

/-- C5 counterexample: the round trip loses entries even with unique paths.
For `L = [{path:"a"}, {path:"a.b"}]` the second `setByPath` nests the second
`FieldError` INSIDE the first one; the walk then sees a string-typed
`.message` at `"a"`, records it as a leaf and never recurses, so `"a.b"` is
lost: the result is `[{path:"a",...}]`, not set-equal to `L`. -/
theorem c5_roundtrip_counterexample :
    formErrorsToValidationErrors (validationErrorsToFormErrors
      [⟨"a", "m1", some "t1"⟩, ⟨"a.b", "m2", some "t2"⟩]) ""
      = [⟨"a", "m1", some "t1"⟩] ∧
    (⟨"a.b", "m2", some "t2"⟩ : VErr) ∈
      [(⟨"a", "m1", some "t1"⟩ : VErr), ⟨"a.b", "m2", some "t2"⟩] ∧
    (⟨"a.b", "m2", some "t2"⟩ : VErr) ∉ [(⟨"a", "m1", some "t1"⟩ : VErr)] ∧
    ("a" : String) ≠ "a.b" :=
  ⟨by decide, by decide, by decide, by decide⟩

/-- C5 (amended): the round trip
`formErrorsToValidationErrors (validationErrorsToFormErrors L)` is a
permutation of `L` (set-equality with unique paths) provided the paths are
valid and independent: every segment is non-empty and canonical when
numeric (`segOk`); no path's segment list is a prefix of another's (this
also forces the paths pairwise distinct); and any two paths that diverge do
so on segments of the same kind — both numeric or both not (`homogB`), so
an array node never carries object-keyed properties that a later array
spread `[...]` would drop.  Without the prefix-freedom hypothesis the claim
fails (see the counterexample). -/
theorem c5_error_roundtrip (L : List VErr)
    (hval : ∀ e ∈ L, (splitDots e.path).all segOk = true)
    (hpair : List.Pairwise (fun e1 e2 =>
      ¬(splitDots e1.path <+: splitDots e2.path) ∧
      ¬(splitDots e2.path <+: splitDots e1.path) ∧
      homogB (splitDots e1.path) (splitDots e2.path) = true) L) :
    (formErrorsToValidationErrors (validationErrorsToFormErrors L) "").Perm L := by
  have h := roundtrip_fold L (vObj []) rfl
    (fun e he => ⟨hval e he,
      okFor_emptyObj (splitDots e.path) (splitDots_ne_nil e.path) (hval e he)⟩)
    hpair
  rw [validationErrorsToFormErrors, ← toListEntry_of_errNode _ "" h.1]
  refine h.2.trans ?_
  rw [show toListEntry (vObj []) "" = [] from rfl, List.append_nil]
  have hmap : ∀ e ∈ L,
      (⟨joinSegs "" (splitDots e.path), e.message, e.etype⟩ : VErr) = e := by
    intro e he
    rw [joinSegs_splitDots e.path (hval e he)]
  have h4 : L.map (fun e =>
      (⟨joinSegs "" (splitDots e.path), e.message, e.etype⟩ : VErr)) = L := by
    conv_rhs => rw [← List.map_id L]
    exact List.map_congr_left hmap
  rw [h4]

/-- Witness for C5: a three-entry list with nested object paths and an
array index survives the round trip as a permutation of itself. -/
theorem c5_error_roundtrip_witness :
    (formErrorsToValidationErrors (validationErrorsToFormErrors
      [⟨"user.name", "req", some "required"⟩, ⟨"items.0", "bad", none⟩,
       ⟨"user.age", "min", none⟩]) "").Perm
      [⟨"user.name", "req", some "required"⟩, ⟨"items.0", "bad", none⟩,
       ⟨"user.age", "min", none⟩] :=
  c5_error_roundtrip _ (by decide) (by decide)
